import Mathlib

/-!
# Lab 5 tower firmware: byte queue, phrase store, bus driver and median filter

A shallow embedding of `Sources/FIFO.c`, `Sources/Flash.c`, `Sources/I2C.c` and
`Sources/median.c`, and the properties of the queue, the slot allocator, the
phrase writer, the bus driver with its baud rate search, and the median filter
proved over it.

Conventions of the embedding:

* a C function that updates a record through a pointer takes the record and
  returns the updated record next to its C return value;
* a byte is a `Nat` (the value of a `uint8_t`), an array is a `List`;
* constants that live in headers (`FIFO_SIZE`, `FLASH_DATA_START`) are
  parameters of the functions that use them.
-/

namespace Lab5

/-! ## FIFO.c -/

/-- The queue record `TFIFO` of `FIFO.h`: two indices into `Buffer`, the number
of stored bytes, and the storage `uint8_t Buffer[FIFO_SIZE]`.  The index fields
never hold a value above `FIFO_SIZE`, so they are unbounded naturals here. -/
structure TFIFO where
  Start : Nat
  End : Nat
  NbBytes : Nat
  Buffer : List Nat
deriving DecidableEq, Repr

/-- `FIFO_Init`: the three counters are reset, `Buffer` is not touched. -/
def FIFO_Init (FIFO : TFIFO) : TFIFO :=
  { FIFO with Start := 0, End := 0, NbBytes := 0 }

/-- `FIFO_Put`: returns the C return value and the queue after the call. -/
def FIFO_Put (FIFO_SIZE : Nat) (FIFO : TFIFO) (data : Nat) : Bool × TFIFO :=
  if FIFO.NbBytes < FIFO_SIZE then
    let f1 : TFIFO := { FIFO with Buffer := FIFO.Buffer.set FIFO.End data }
    let f2 : TFIFO := { f1 with NbBytes := f1.NbBytes + 1 }
    let f3 : TFIFO := { f2 with End := f2.End + 1 }
    let f4 : TFIFO := if f3.End ≥ FIFO_SIZE then { f3 with End := 0 } else f3
    (true, f4)
  else
    (false, FIFO)

/-- `FIFO_Get`: `dataPtr` is the byte the caller's pointer refers to before the
call; the result is the C return value, the queue after the call and the byte
the pointer refers to after the call. -/
def FIFO_Get (FIFO_SIZE : Nat) (FIFO : TFIFO) (dataPtr : Nat) : Bool × TFIFO × Nat :=
  if FIFO.NbBytes > 0 then
    let d : Nat := FIFO.Buffer.getD FIFO.Start 0
    let f1 : TFIFO := { FIFO with NbBytes := FIFO.NbBytes - 1 }
    let f2 : TFIFO := { f1 with Start := f1.Start + 1 }
    let f3 : TFIFO := if f2.Start ≥ FIFO_SIZE then { f2 with Start := 0 } else f2
    (true, f3, d)
  else
    (false, FIFO, dataPtr)

/-- One call made by a client of the queue. -/
inductive FIFO_Call where
  | put (data : Nat)
  | get
deriving DecidableEq, Repr

/-- One client call on the queue.  The second component is a ghost list kept
beside the queue: the bytes whose `FIFO_Put` returned true and that no
successful `FIFO_Get` has removed yet, oldest first. -/
def FIFO_Step (FIFO_SIZE : Nat) (s : TFIFO × List Nat) : FIFO_Call → TFIFO × List Nat
  | FIFO_Call.put data =>
      let r := FIFO_Put FIFO_SIZE s.1 data
      (r.2, if r.1 then s.2 ++ [data] else s.2)
  | FIFO_Call.get =>
      let r := FIFO_Get FIFO_SIZE s.1 0
      (r.2.1, if r.1 then s.2.tail else s.2)

/-- A sequence of client calls, run from left to right. -/
def FIFO_Run (FIFO_SIZE : Nat) (s : TFIFO × List Nat) (calls : List FIFO_Call) :
    TFIFO × List Nat :=
  calls.foldl (FIFO_Step FIFO_SIZE) s

/-- `FIFO_Put` of each byte of `bytes` in turn: the return values and the final queue. -/
def FIFO_PutAll (FIFO_SIZE : Nat) (FIFO : TFIFO) : List Nat → List Bool × TFIFO
  | [] => ([], FIFO)
  | b :: bytes =>
      let r := FIFO_Put FIFO_SIZE FIFO b
      let rest := FIFO_PutAll FIFO_SIZE r.2 bytes
      (r.1 :: rest.1, rest.2)

/-- `n` calls of `FIFO_Get` in turn: for each its return value and the byte
delivered (the caller's byte starts as 0), and the final queue. -/
def FIFO_GetN (FIFO_SIZE : Nat) (FIFO : TFIFO) : Nat → List (Bool × Nat) × TFIFO
  | 0 => ([], FIFO)
  | n + 1 =>
      let r := FIFO_Get FIFO_SIZE FIFO 0
      let rest := FIFO_GetN FIFO_SIZE r.2.1 n
      ((r.1, r.2.2) :: rest.1, rest.2)

/-- The representation invariant of the ring. -/
def FIFO_Inv (FIFO_SIZE : Nat) (FIFO : TFIFO) : Prop :=
  FIFO.NbBytes ≤ FIFO_SIZE ∧ FIFO.Start < FIFO_SIZE ∧ FIFO.End < FIFO_SIZE ∧
    FIFO.End = (FIFO.Start + FIFO.NbBytes) % FIFO_SIZE

instance (FIFO_SIZE : Nat) (FIFO : TFIFO) : Decidable (FIFO_Inv FIFO_SIZE FIFO) := by
  unfold FIFO_Inv; infer_instance

/-- The `n` bytes stored in `Buffer` from index `start` on, wrapping at
`FIFO_SIZE` the way `FIFO_Get` advances `Start`. -/
def FIFO_Stored (FIFO_SIZE : Nat) (Buffer : List Nat) : Nat → Nat → List Nat
  | _, 0 => []
  | start, n + 1 =>
      Buffer.getD start 0 ::
        FIFO_Stored FIFO_SIZE Buffer (if start + 1 ≥ FIFO_SIZE then 0 else start + 1) n

/-! ## Flash.c -/

/-- The command record `TFCCOB` of `Flash.c`. -/
structure TFCCOB where
  commandByte : Nat
  addressHi : Nat
  addressMed : Nat
  addressLo : Nat
  dataByte : List Nat
deriving DecidableEq, Repr

/-- Modelled from the spec: the "command complete" flag of the status register
`FTFE_FSTAT`, at the bit the device header `MK70F12.h` gives it. -/
def FTFE_FSTAT_CCIF_MASK : Nat := 0x80

/-- Modelled from the spec: the "access error" flag of `FTFE_FSTAT`. -/
def FTFE_FSTAT_ACCERR_MASK : Nat := 0x20

/-- Modelled from the spec: the "protection violation" flag of `FTFE_FSTAT`. -/
def FTFE_FSTAT_FPVIOL_MASK : Nat := 0x10

/-- The flash module as `Flash.c` sees it: the status register, the twelve
command registers `FTFE_FCCOB0 .. FTFE_FCCOBB`, and the eight bytes of the phrase
at `FLASH_DATA_START`.  Two further fields describe the surroundings of the
code: `launched` records the contents of the command registers at every launch,
oldest first, and `status` lists the values the status register will show after
the coming launches. -/
structure FTFE where
  FSTAT : Nat
  FCCOB : List Nat
  phrase : List Nat
  launched : List (List Nat)
  status : List Nat
deriving DecidableEq, Repr

/-- Modelled from the spec: the erasable unit.  An erase sets every bit of the
phrase to 1; a program operation only changes bits from 1 to 0, so each byte
becomes the AND of its contents and the programmed byte.  The programmed byte
`i` of each longword sits in the command registers in flipped order, as
`LaunchCommand` stores it.  Any other command leaves the phrase alone. -/
def FTFE_Execute (FCCOB : List Nat) (phrase : List Nat) : List Nat :=
  if FCCOB.getD 0 0 = 0x09 then
    phrase.map (fun _ => 0xFF)
  else if FCCOB.getD 0 0 = 0x07 then
    List.zipWith (fun old new => old &&& new) phrase
      [FCCOB.getD 7 0, FCCOB.getD 6 0, FCCOB.getD 5 0, FCCOB.getD 4 0,
       FCCOB.getD 11 0, FCCOB.getD 10 0, FCCOB.getD 9 0, FCCOB.getD 8 0]
  else
    phrase

/-- Modelled from the spec: a store to `FTFE_FSTAT`.  The error flags are
cleared by writing 1 to them; writing 1 to the "command complete" flag launches
the command held in the command registers, which the module carries out on the
phrase, after which the status register shows the next value of `status`
(command complete and no error when none is listed). -/
def FTFE_FSTAT_Write (hw : FTFE) (value : Nat) : FTFE :=
  let cleared : Nat :=
    hw.FSTAT - (hw.FSTAT &&& value &&& (FTFE_FSTAT_ACCERR_MASK ||| FTFE_FSTAT_FPVIOL_MASK))
  if value &&& FTFE_FSTAT_CCIF_MASK ≠ 0 then
    { hw with
        FSTAT := hw.status.headD FTFE_FSTAT_CCIF_MASK
        status := hw.status.tail
        phrase := FTFE_Execute hw.FCCOB hw.phrase
        launched := hw.launched ++ [hw.FCCOB] }
  else
    { hw with FSTAT := cleared }

/-- `LaunchCommand`: the C return value and the module after the call.  The
macros `FTFE_FCCOBn_CCOBn` keep the low eight bits of their argument. -/
def LaunchCommand (hw : FTFE) (command : TFCCOB) : Bool × FTFE :=
  if hw.FSTAT &&& FTFE_FSTAT_CCIF_MASK ≠ 0 then
    let errors : Bool :=
      (hw.FSTAT &&& FTFE_FSTAT_FPVIOL_MASK ≠ 0) || (hw.FSTAT &&& FTFE_FSTAT_ACCERR_MASK ≠ 0)
    let hw1 : FTFE := if errors then FTFE_FSTAT_Write hw 0x30 else hw
    let success : Bool := !errors
    let hw2 : FTFE :=
      { hw1 with
          FCCOB := (((hw1.FCCOB.set 0 (command.commandByte % 256)).set 1
            (command.addressHi % 256)).set 2 (command.addressMed % 256)).set 3
            (command.addressLo % 256) }
    let hw3 : FTFE :=
      if command.commandByte = 0x07 then
        { hw2 with
            FCCOB := ((((((((hw2.FCCOB.set 4 (command.dataByte.getD 3 0 % 256)).set 5
              (command.dataByte.getD 2 0 % 256)).set 6
              (command.dataByte.getD 1 0 % 256)).set 7
              (command.dataByte.getD 0 0 % 256)).set 8
              (command.dataByte.getD 7 0 % 256)).set 9
              (command.dataByte.getD 6 0 % 256)).set 10
              (command.dataByte.getD 5 0 % 256)).set 11
              (command.dataByte.getD 4 0 % 256)) }
      else hw2
    (success, FTFE_FSTAT_Write hw3 FTFE_FSTAT_CCIF_MASK)
  else
    (false, hw)

/-- `EraseSector`.  The data bytes of the command record are not set by the C
code and not read by `LaunchCommand` for this command; they are zero here. -/
def EraseSector (hw : FTFE) (address : Nat) : Bool × FTFE :=
  LaunchCommand hw
    { commandByte := 0x09
      addressHi := ((address &&& 0xFF0000) >>> 16) % 256
      addressMed := ((address &&& 0xFF00) >>> 8) % 256
      addressLo := (address &&& 0xFF) % 256
      dataByte := List.replicate 8 0 }

/-- The eight bytes `flashPhraseNew` as first filled in by `WritePhrase` from the
two halves of the 64-bit argument. -/
def WritePhrase_fill (Hi Lo : Nat) : List Nat :=
  [((Hi &&& 0xFF000000) >>> 24) % 256, ((Hi &&& 0xFF0000) >>> 16) % 256,
   ((Hi &&& 0xFF00) >>> 8) % 256, (Hi &&& 0xFF) % 256,
   ((Lo &&& 0xFF000000) >>> 24) % 256, ((Lo &&& 0xFF0000) >>> 16) % 256,
   ((Lo &&& 0xFF00) >>> 8) % 256, (Lo &&& 0xFF) % 256]

/-- The loop `while (flashPhraseNew[dataStart] == 0) dataStart++`.  The first
argument counts the elements of the array not yet read; when none is left the
next read would be outside the array, and there is no defined result. -/
def WritePhrase_scan (flashPhraseNew : List Nat) : Nat → Nat → Option Nat
  | 0, _ => none
  | left + 1, dataStart =>
      if flashPhraseNew.getD dataStart 0 = 0 then
        WritePhrase_scan flashPhraseNew left (dataStart + 1)
      else
        some dataStart

/-- The inner loop of `WritePhrase`: one shuffle of the array towards index 0,
`j` running from 0 to 6. -/
def WritePhrase_shuffle (flashPhraseNew : List Nat) : List Nat :=
  (List.range 7).foldl
    (fun a j =>
      let a1 := a.set j (a.getD (j + 1) 0)
      if j = 6 then a1.set (j + 1) 0 else a1)
    flashPhraseNew

/-- The bound of the outer loop, `dataStart - (address - FLASH_DATA_START)`,
computed in 32-bit unsigned arithmetic as for a `uint32_t` address. -/
def WritePhrase_shifts (FLASH_DATA_START address dataStart : Nat) : Nat :=
  (dataStart + 2 ^ 32 - (address + 2 ^ 32 - FLASH_DATA_START) % 2 ^ 32) % 2 ^ 32

/-- The array `flashPhraseNew` when the shuffle loop is left.  The loop counter
`i` is a `uint8_t`: the loop runs its body `shifts` times when `shifts ≤ 255`
and never ends otherwise, in which case there is no result. -/
def WritePhrase_new (FLASH_DATA_START address Hi Lo : Nat) : Option (List Nat) :=
  match WritePhrase_scan (WritePhrase_fill Hi Lo) 8 0 with
  | none => none
  | some dataStart =>
      if WritePhrase_shifts FLASH_DATA_START address dataStart ≤ 255 then
        some (Nat.iterate WritePhrase_shuffle
          (WritePhrase_shifts FLASH_DATA_START address dataStart) (WritePhrase_fill Hi Lo))
      else
        none

/-- The 64-bit value `_FP(FLASH_DATA_START)`: the eight bytes of the phrase read
as one little-endian number. -/
def FlashRead64 (phrase : List Nat) : Nat :=
  (List.range 8).foldr (fun i acc => phrase.getD i 0 + 256 * acc) 0

/-- The command record `WritePhrase` has built when it reaches `EraseSector`:
`phrase` holds the bytes read from the flash at the start of the call. -/
def WritePhrase_command (FLASH_DATA_START : Nat) (phrase : List Nat) (address Hi Lo : Nat) :
    Option TFCCOB :=
  let flashPhraseOld : List Nat := (List.range 8).map (fun i => phrase.getD i 0)
  match WritePhrase_new FLASH_DATA_START address Hi Lo with
  | none => none
  | some flashPhraseNew =>
      let PHRASE_ADDRESS : Nat := FLASH_DATA_START % 2 ^ 32
      some
        { commandByte := 0x07
          addressHi := ((PHRASE_ADDRESS &&& 0xFF0000) >>> 16) % 256
          addressMed := ((PHRASE_ADDRESS &&& 0xFF00) >>> 8) % 256
          addressLo := (PHRASE_ADDRESS &&& 0xFF) % 256
          dataByte :=
            if FlashRead64 phrase = 0xFFFFFFFFFFFFFFFF then
              (List.range 8).map (fun i => flashPhraseNew.getD i 0)
            else
              (List.range 8).map
                (fun i => flashPhraseOld.getD i 0 ||| flashPhraseNew.getD i 0) }

/-- `WritePhrase`: `none` when the construction of the new image has no result,
otherwise the C return value and the module after the call. -/
def WritePhrase (FLASH_DATA_START : Nat) (hw : FTFE) (address Hi Lo : Nat) :
    Option (Bool × FTFE) :=
  match WritePhrase_command FLASH_DATA_START hw.phrase address Hi Lo with
  | none => none
  | some command =>
      let erased := EraseSector hw (FLASH_DATA_START % 2 ^ 32)
      if !erased.1 then some (false, erased.2)
      else some (LaunchCommand erased.2 command)

/-- `Flash_Write32`: the high half of the 64-bit argument is 0, the low half is `data`. -/
def Flash_Write32 (FLASH_DATA_START : Nat) (hw : FTFE) (address data : Nat) :
    Option (Bool × FTFE) :=
  WritePhrase FLASH_DATA_START hw (address % 2 ^ 32) 0 data

/-- `Flash_Write16`. -/
def Flash_Write16 (FLASH_DATA_START : Nat) (hw : FTFE) (address data : Nat) :
    Option (Bool × FTFE) :=
  Flash_Write32 FLASH_DATA_START hw address data

/-- `Flash_Write8`. -/
def Flash_Write8 (FLASH_DATA_START : Nat) (hw : FTFE) (address data : Nat) :
    Option (Bool × FTFE) :=
  Flash_Write16 FLASH_DATA_START hw address data

/-- `Flash_Erase`. -/
def Flash_Erase (FLASH_DATA_START : Nat) (hw : FTFE) : Bool × FTFE :=
  EraseSector hw (FLASH_DATA_START % 2 ^ 32)

/-- `Flash_AllocateVar`.  `freeAddress` is the static table of the function (0
means free), `varPtr` the value `*variable` of the caller's pointer before the call.  The
result is the C return value, the table and the caller's pointer after the call.
Each `for` loop that returns at the first index passing its test is a search
through the indices the loop visits. -/
def Flash_AllocateVar (FLASH_DATA_START : Nat) (freeAddress : List Nat) (varPtr size : Nat) :
    Bool × List Nat × Nat :=
  let address : List Nat := (List.range 8).map (fun i => (FLASH_DATA_START + i) % 2 ^ 32)
  if size = 1 then
    match [0, 1, 2, 3, 4, 5, 6, 7].find? (fun i => freeAddress.getD i 0 == 0) with
    | some i => (true, freeAddress.set i 1, address.getD i 0)
    | none => (false, freeAddress, varPtr)
  else if size = 2 then
    match [0, 2, 4, 6].find?
        (fun i => freeAddress.getD i 0 == 0 && freeAddress.getD (i + 1) 0 == 0) with
    | some i => (true, (freeAddress.set i 1).set (i + 1) 1, address.getD i 0)
    | none => (false, freeAddress, varPtr)
  else if size = 4 then
    match [0, 4].find?
        (fun i => freeAddress.getD i 0 == 0 && freeAddress.getD (i + 1) 0 == 0 &&
          freeAddress.getD (i + 2) 0 == 0 && freeAddress.getD (i + 3) 0 == 0) with
    | some i =>
        (true, (((freeAddress.set i 1).set (i + 1) 1).set (i + 2) 1).set (i + 3) 1,
          address.getD i 0)
    | none => (false, freeAddress, varPtr)
  else
    (false, freeAddress, varPtr)

/-- A sequence of `Flash_AllocateVar` calls with the given sizes, each on a
pointer that is 0 before the call: for each call its return value and the
pointer after it, and the table after the last call. -/
def Flash_AllocateSeq (FLASH_DATA_START : Nat) (freeAddress : List Nat) :
    List Nat → List (Bool × Nat) × List Nat
  | [] => ([], freeAddress)
  | size :: sizes =>
      let r := Flash_AllocateVar FLASH_DATA_START freeAddress 0 size
      let rest := Flash_AllocateSeq FLASH_DATA_START r.2.1 sizes
      ((r.1, r.2.2) :: rest.1, rest.2)

/-- Offset `k` starts a run that `Flash_AllocateVar` may hand out for `size`: `k`
is a multiple of `size`, the run lies inside the phrase, and the slots
`k .. k + size - 1` are all free. -/
def Flash_FreeRun (freeAddress : List Nat) (size k : Nat) : Prop :=
  k % size = 0 ∧ k + size ≤ 8 ∧ ∀ j, j < size → freeAddress.getD (k + j) 0 = 0

instance (freeAddress : List Nat) (size k : Nat) : Decidable (Flash_FreeRun freeAddress size k) := by
  unfold Flash_FreeRun; infer_instance

/-- Eight bytes. -/
def IsPhrase (l : List Nat) : Prop :=
  l.length = 8 ∧ ∀ b, b ∈ l → b < 256

instance (l : List Nat) : Decidable (IsPhrase l) := by
  unfold IsPhrase; infer_instance

/-- The shape of the flash module's state: twelve command registers, and a
phrase of eight bytes. -/
def FTFE_WF (hw : FTFE) : Prop :=
  hw.FCCOB.length = 12 ∧ IsPhrase hw.phrase

instance (hw : FTFE) : Decidable (FTFE_WF hw) := by
  unfold FTFE_WF; infer_instance

/-- The data bytes of the program command: the new image when the phrase reads
all ones, its bytewise OR with the bytes read from the phrase otherwise. -/
def WritePhrase_merge (phrase flashPhraseNew : List Nat) : List Nat :=
  if FlashRead64 phrase = 0xFFFFFFFFFFFFFFFF then flashPhraseNew
  else (List.range 8).map (fun i => phrase.getD i 0 ||| flashPhraseNew.getD i 0)

/-! ## I2C.c -/

/-- Modelled from the spec: the master-mode bit of the control register
`I2C0_C1` (setting it issues the start condition, clearing it the stop condition
that releases the bus), at the bit the device header `MK70F12.h` gives it. -/
def I2C_C1_MST_MASK : Nat := 0x20

/-- Modelled from the spec: the transmit-mode bit of `I2C0_C1`. -/
def I2C_C1_TX_MASK : Nat := 0x10

/-- Modelled from the spec: the no-acknowledge bit of `I2C0_C1` (set: the next
received byte is answered with no-acknowledge; clear: with acknowledge). -/
def I2C_C1_TXAK_MASK : Nat := 0x08

/-- Modelled from the spec: the repeated-start bit of `I2C0_C1`. -/
def I2C_C1_RSTA_MASK : Nat := 0x04

/-- Modelled from the spec: the interrupt-enable bit of `I2C0_C1`. -/
def I2C_C1_IICIE_MASK : Nat := 0x40

/-- Modelled from the spec: the "transfer complete" interrupt flag of the status
register `I2C0_S`. -/
def I2C_S_IICIF_MASK : Nat := 0x02

/-- One access of `I2C.c` to the bus module, to the caller's buffer or to the
scheduler, as recorded in the trace of a call. -/
inductive I2C_Op where
  | C1_or (mask : Nat)
  | C1_andnot (mask : Nat)
  | S_or (mask : Nat)
  | D_write (value : Nat)
  | store (index value : Nat)
  | signal
deriving DecidableEq, Repr

/-- The state `I2C.c` works on: the control register `I2C0_C1`, the private
globals of the module (`IsrData` is the caller's array that the pointer of that
name refers to, `dataIndex` the static counter of `I2C_ISR`), and the trace
`ops` of the accesses made so far, oldest first.  Two fields describe the
peripheral: `rxak` lists, for the coming reads of the receive-acknowledge flag
of `I2C0_S`, whether the flag is set (no acknowledge received), and `rx` lists
the values the coming reads of `I2C0_D` return; an exhausted list continues with
"acknowledged" and 0.  The waits on `I2C0_S` for an idle bus and for a completed
transfer are taken to end. -/
structure I2C where
  C1 : Nat
  PrimarySlaveAddress : Nat
  SlaveAddressWrite : Nat
  SlaveAddressRead : Nat
  IsrNbBytes : Nat
  IsrData : List Nat
  dataIndex : Nat
  ops : List I2C_Op
  rxak : List Bool
  rx : List Nat
deriving DecidableEq, Repr

/-- The statement `I2C0_C1 |= mask`. -/
def I2C_C1_Set (s : I2C) (mask : Nat) : I2C :=
  { s with C1 := s.C1 ||| mask, ops := s.ops ++ [I2C_Op.C1_or mask] }

/-- The statement `I2C0_C1 &= ~mask` on the eight-bit register. -/
def I2C_C1_Clear (s : I2C) (mask : Nat) : I2C :=
  { s with C1 := s.C1 &&& (0xFF ^^^ mask), ops := s.ops ++ [I2C_Op.C1_andnot mask] }

/-- The statement `I2C0_S |= mask`. -/
def I2C_S_Set (s : I2C) (mask : Nat) : I2C :=
  { s with ops := s.ops ++ [I2C_Op.S_or mask] }

/-- The statement `I2C0_D = value`: the byte is transmitted. -/
def I2C_D_Write (s : I2C) (value : Nat) : I2C :=
  { s with ops := s.ops ++ [I2C_Op.D_write (value % 256)] }

/-- A read of `I2C0_D`: the value read and the state after it. -/
def I2C_D_Read (s : I2C) : Nat × I2C :=
  (s.rx.headD 0, { s with rx := s.rx.tail })

/-- A read of the receive-acknowledge flag `I2C0_S & I2C_S_RXAK_MASK`: whether
it is set, and the state after it. -/
def I2C_S_RXAK (s : I2C) : Bool × I2C :=
  (s.rxak.headD false, { s with rxak := s.rxak.tail })

/-- `I2C_SelectSlaveDevice`. -/
def I2C_SelectSlaveDevice (s : I2C) (slaveAddress : Nat) : I2C :=
  { s with
      PrimarySlaveAddress := slaveAddress
      SlaveAddressWrite := ((slaveAddress <<< 1) % 256) &&& (0xFF ^^^ 0x1)
      SlaveAddressRead := ((slaveAddress <<< 1) % 256) ||| 0x1 }

/-- The loop of `I2C_Write`: the first argument counts the iterations left
(`3 - i`), the second is `i`. -/
def I2C_Write_loop (registerAddress data : Nat) : Nat → Nat → I2C → I2C
  | 0, _, s => s
  | left + 1, i, s =>
      let s1 : I2C :=
        if i = 0 then I2C_D_Write s s.SlaveAddressWrite
        else if i = 1 then I2C_D_Write s registerAddress
        else if i = 2 then I2C_D_Write s data
        else s
      let s2 : I2C := I2C_S_Set s1 I2C_S_IICIF_MASK
      let r := I2C_S_RXAK s2
      if r.1 then r.2 else I2C_Write_loop registerAddress data left (i + 1) r.2

/-- `I2C_Write`. -/
def I2C_Write (s : I2C) (registerAddress data : Nat) : I2C :=
  let s1 := I2C_C1_Set s I2C_C1_MST_MASK
  let s2 := I2C_C1_Set s1 I2C_C1_TX_MASK
  let s3 := I2C_Write_loop registerAddress data 3 0 s2
  I2C_C1_Clear s3 I2C_C1_MST_MASK

/-- The body of the `switch` in the loop of `I2C_PollRead` for counter value
`i`, on the state and the caller's array `data`. -/
def I2C_PollRead_switch (registerAddress nbBytes i : Nat) (s : I2C) (data : List Nat) :
    I2C × List Nat :=
  if i = 0 then (I2C_D_Write s s.SlaveAddressWrite, data)
  else if i = 1 then (I2C_D_Write s registerAddress, data)
  else if i = 2 then
    let s1 := I2C_C1_Clear s I2C_C1_TX_MASK
    let s2 := I2C_C1_Set s1 I2C_C1_RSTA_MASK
    (I2C_D_Write s2 s2.SlaveAddressRead, data)
  else
    let s1 : I2C :=
      if i = nbBytes + 1 then I2C_C1_Set s I2C_C1_TXAK_MASK
      else if i = nbBytes + 2 then I2C_C1_Clear s I2C_C1_MST_MASK
      else I2C_C1_Clear s I2C_C1_TXAK_MASK
    let r := I2C_D_Read s1
    ({ r.2 with ops := r.2.ops ++ [I2C_Op.store (i - 3) r.1] }, data.set (i - 3) r.1)

/-- The loop of `I2C_PollRead`, with its eight-bit counter `i`.  The first
argument bounds the number of iterations followed; the first component of the
result tells whether the loop was left within that number. -/
def I2C_PollRead_loop (registerAddress nbBytes : Nat) :
    Nat → Nat → I2C → List Nat → Bool × I2C × List Nat
  | 0, _, s, data => (false, s, data)
  | fuel + 1, i, s, data =>
      if i < nbBytes + 3 then
        let b := I2C_PollRead_switch registerAddress nbBytes i s data
        let s2 : I2C := I2C_S_Set b.1 I2C_S_IICIF_MASK
        if i < 3 then
          let r := I2C_S_RXAK s2
          if r.1 then (true, r.2, b.2)
          else I2C_PollRead_loop registerAddress nbBytes fuel ((i + 1) % 256) r.2 b.2
        else
          I2C_PollRead_loop registerAddress nbBytes fuel ((i + 1) % 256) s2 b.2
      else
        (true, s, data)

/-- `I2C_PollRead`, followed for at most `fuel` iterations of its loop: whether
the call returned, the state, and the caller's array. -/
def I2C_PollRead (fuel : Nat) (s : I2C) (registerAddress : Nat) (data : List Nat)
    (nbBytes : Nat) : Bool × I2C × List Nat :=
  let s1 := I2C_C1_Set s I2C_C1_MST_MASK
  let s2 := I2C_C1_Set s1 I2C_C1_TX_MASK
  I2C_PollRead_loop registerAddress nbBytes fuel 0 s2 data

/-- The loop of `I2C_IntRead`: iterations left (`3 - i`), then `i`. -/
def I2C_IntRead_loop (registerAddress : Nat) : Nat → Nat → I2C → I2C
  | 0, _, s => s
  | left + 1, i, s =>
      let s1 : I2C :=
        if i = 0 then I2C_D_Write s s.SlaveAddressWrite
        else if i = 1 then I2C_D_Write s registerAddress
        else if i = 2 then
          let t1 := I2C_C1_Clear s I2C_C1_TX_MASK
          let t2 := I2C_C1_Set t1 I2C_C1_RSTA_MASK
          I2C_D_Write t2 t2.SlaveAddressRead
        else s
      let r := I2C_S_RXAK s1
      if r.1 then r.2 else I2C_IntRead_loop registerAddress left (i + 1) r.2

/-- `I2C_IntRead`. -/
def I2C_IntRead (s : I2C) (registerAddress : Nat) (data : List Nat) (nbBytes : Nat) : I2C :=
  let s0 : I2C := { s with IsrNbBytes := nbBytes, IsrData := data }
  let s1 := I2C_C1_Set s0 I2C_C1_MST_MASK
  let s2 := I2C_C1_Set s1 I2C_C1_TX_MASK
  let s3 := I2C_C1_Set s2 I2C_C1_IICIE_MASK
  I2C_IntRead_loop registerAddress 3 0 s3

/-- `I2C_ISR`, one invocation.  The `if` on the transmit bit ends in a
semicolon, so the block after it runs whenever the module is in master mode. -/
def I2C_ISR (s : I2C) : I2C :=
  let s0 := I2C_S_Set s I2C_S_IICIF_MASK
  if s0.C1 &&& I2C_C1_MST_MASK ≠ 0 then
    let s1 : I2C :=
      if s0.dataIndex = s0.IsrNbBytes then
        I2C_C1_Clear (I2C_C1_Clear s0 I2C_C1_MST_MASK) I2C_C1_IICIE_MASK
      else if s0.dataIndex + 1 = s0.IsrNbBytes then I2C_C1_Set s0 I2C_C1_TXAK_MASK
      else s0
    let r := I2C_D_Read s1
    let s2 : I2C :=
      { r.2 with
          IsrData := r.2.IsrData.set r.2.dataIndex r.1
          ops := r.2.ops ++ [I2C_Op.store r.2.dataIndex r.1] }
    if s2.dataIndex = s2.IsrNbBytes then
      { s2 with dataIndex := 0, ops := s2.ops ++ [I2C_Op.signal] }
    else
      { s2 with dataIndex := (s2.dataIndex + 1) % 256 }
  else
    s0

/-- `n` invocations of `I2C_ISR` in a row. -/
def I2C_ISR_times : Nat → I2C → I2C
  | 0, s => s
  | n + 1, s => I2C_ISR_times n (I2C_ISR s)

/-- The bytes transmitted in a trace: the values stored to `I2C0_D`, in order. -/
def I2C_Transmitted : List I2C_Op → List Nat
  | [] => []
  | I2C_Op.D_write v :: ops => v :: I2C_Transmitted ops
  | _ :: ops => I2C_Transmitted ops

/-- The stores to the caller's array in a trace: index and value, in order. -/
def I2C_Stores : List I2C_Op → List (Nat × Nat)
  | [] => []
  | I2C_Op.store i v :: ops => (i, v) :: I2C_Stores ops
  | _ :: ops => I2C_Stores ops

/-- The control access the read loop of `I2C_PollRead` is to make before it
stores byte `k` of `n`: no-acknowledge on the second-to-last byte, stop on the
last byte, acknowledge otherwise. -/
def I2C_Read_control (n k : Nat) : I2C_Op :=
  if k + 2 = n then I2C_Op.C1_or I2C_C1_TXAK_MASK
  else if k + 1 = n then I2C_Op.C1_andnot I2C_C1_MST_MASK
  else I2C_Op.C1_andnot I2C_C1_TXAK_MASK

/-- The trace of reading `m` bytes from byte `k` on, of `n` requested, when the
coming values of the data register are `rx`: per byte the control access, the
store of the value read at index `k`, and the clearing of the interrupt flag. -/
def I2C_Read_ops (n : Nat) : Nat → Nat → List Nat → List I2C_Op
  | 0, _, _ => []
  | m + 1, k, rx =>
      [I2C_Read_control n k, I2C_Op.store k (rx.headD 0), I2C_Op.S_or I2C_S_IICIF_MASK] ++
        I2C_Read_ops n m (k + 1) rx.tail

/-- The caller's array after `m` successive values of the data register have
been stored from index `k` on. -/
def I2C_Read_data : Nat → Nat → List Nat → List Nat → List Nat
  | 0, _, _, data => data
  | m + 1, k, rx, data => I2C_Read_data m (k + 1) rx.tail (data.set k (rx.headD 0))

/-- The peripheral acknowledges the coming three address phases. -/
def I2C_Acked (s : I2C) : Prop :=
  s.rxak.headD false = false ∧ s.rxak.tail.headD false = false ∧
    s.rxak.tail.tail.headD false = false

instance (s : I2C) : Decidable (I2C_Acked s) := by
  unfold I2C_Acked; infer_instance

/-- An access that is neither the stop condition nor a store above index 252. -/
def I2C_NoStop (op : I2C_Op) : Prop :=
  op ≠ I2C_Op.C1_andnot I2C_C1_MST_MASK ∧ ∀ j v, op = I2C_Op.store j v → j ≤ 252


/-- The trace of `k` invocations of `I2C_ISR` that start with the handler's
index at `j`, for a read of `n` bytes with `j + k ≤ n`: each clears the
interrupt flag and stores the value read at its index, and the one at index
`n - 1` first sets the no-acknowledge bit. -/
def I2C_ISR_ops (n : Nat) : Nat → Nat → List Nat → List I2C_Op
  | 0, _, _ => []
  | k + 1, j, rx =>
      [I2C_Op.S_or I2C_S_IICIF_MASK] ++
        (if j + 1 = n then [I2C_Op.C1_or I2C_C1_TXAK_MASK] else []) ++
        [I2C_Op.store j (rx.headD 0)] ++ I2C_ISR_ops n k (j + 1) rx.tail

/-! ## I2C.c: the baud rate search of I2C_Init -/

/-- Modelled from the spec: the module-enable bit of `I2C0_C1`, at the bit the
device header `MK70F12.h` gives it. -/
def I2C_C1_IICEN_MASK : Nat := 0x80

/-- Modelled from the spec: the macro `I2C_F_MULT` of the device header, which
places the low two bits of its argument in bits 7..6 of the frequency divider
register `I2C0_F`. -/
def I2C_F_MULT (x : Nat) : Nat := (((x % 256) <<< 6) % 256) &&& 0xC0

/-- Modelled from the spec: the macro `I2C_F_ICR` of the device header, which
places the low six bits of its argument in bits 5..0 of `I2C0_F`. -/
def I2C_F_ICR (x : Nat) : Nat := (x % 256) &&& 0x3F

/-- The table `SclDivider`. -/
def SclDivider : List Nat :=
  [20, 22, 24, 26, 28, 32, 36, 40, 28, 32, 26, 40, 44, 48, 56, 68,
   48, 56, 64, 72, 80, 88, 104, 128, 80, 96, 112, 128, 144, 160, 192, 204,
   160, 192, 224, 256, 288, 320, 384, 480, 320, 384, 448, 512, 576, 640, 768, 960,
   640, 768, 896, 1024, 1152, 1280, 1536, 1920, 1280, 1536, 1792, 2048, 2304, 2560, 3072, 3840]

/-- The locals of `I2C_Init` that the search updates and that outlive it. -/
structure I2C_Search where
  baudRateErrorMin : Nat
  multSave : Nat
  icrSave : Nat
deriving DecidableEq, Repr

/-- The `switch (multReg)` of `I2C_Init`: the value of `mult` for the values 0, 1
and 2 that the outer loop gives `multReg`. -/
def I2C_Init_mult (multReg : Nat) : Nat :=
  if multReg = 0 then 1 else if multReg = 1 then 2 else 4

/-- The body of the inner loop of `I2C_Init` for one value of `icr`.  All
quantities are `uint32_t`; the quotient is at most `moduleClk` and each
difference is taken with the larger operand first, so nothing wraps. -/
def I2C_Init_icr (moduleClk baudRate multReg : Nat) (st : I2C_Search) (icr : Nat) :
    I2C_Search :=
  let mult : Nat := I2C_Init_mult multReg
  let baudRateActual : Nat := moduleClk / (mult * SclDivider.getD icr 0)
  let baudRateError : Nat :=
    if baudRateActual < baudRate then baudRate - baudRateActual
    else baudRateActual - baudRate
  if baudRateError < st.baudRateErrorMin then
    { baudRateErrorMin := baudRateError, multSave := multReg, icrSave := icr }
  else
    st

/-- The two nested loops of `I2C_Init`: `multReg` from 0 to 2, and for each
`icr` from 0x10 to 0x3F.  `multSave` and `icrSave` are declared without an
initial value; the values they hold before the search are arguments here. -/
def I2C_Init_search (moduleClk baudRate multSave icrSave : Nat) : I2C_Search :=
  (List.range 3).foldl
    (fun st multReg =>
      (List.range' 0x10 0x30).foldl (I2C_Init_icr moduleClk baudRate multReg) st)
    { baudRateErrorMin := baudRate, multSave := multSave, icrSave := icrSave }

/-- `I2C_Init`, as far as the bus module is concerned: the C return value, the
state of `I2C.c` and the frequency divider register `I2C0_F` after the call.
`F` is `I2C0_F` before the call; `multSave` and `icrSave` are the values the
two uninitialised locals hold when the function is entered.  The clock gate,
the semaphore pointer and the interrupt controller are left out. -/
def I2C_Init (s : I2C) (F : Nat) (primarySlaveAddress baudRate moduleClk multSave icrSave : Nat) :
    Bool × I2C × Nat :=
  let s1 := I2C_C1_Set s I2C_C1_IICEN_MASK
  let s2 := I2C_C1_Clear s1 I2C_C1_TXAK_MASK
  let s3 := I2C_SelectSlaveDevice s2 primarySlaveAddress
  let found := I2C_Init_search moduleClk baudRate multSave icrSave
  let F1 : Nat := F ||| I2C_F_MULT found.multSave
  let F2 : Nat := F1 ||| I2C_F_ICR found.icrSave
  (true, s3, F2)

/-- The absolute error of the pair (`multReg`, `icr`): the distance between the
rate `moduleClk / (mult * SclDivider[icr])`, with truncating division, and the
target `baudRate`. -/
def I2C_BaudError (moduleClk baudRate multReg icr : Nat) : Nat :=
  Int.natAbs
    (((moduleClk / (I2C_Init_mult multReg * SclDivider.getD icr 0) : Nat) : Int) - (baudRate : Int))

/-- The absolute error of a multiplier and a divider index as the claim words
it: the distance between `moduleClk / (mult * SclDivider[icr])`, with truncating
division, and the target `baudRate`.  The multiplier is given as such (1, 2 or
4), not through the register value that selects it. -/
def I2C_PairError (moduleClk baudRate mult icr : Nat) : Nat :=
  Int.natAbs (((moduleClk / (mult * SclDivider.getD icr 0) : Nat) : Int) - (baudRate : Int))

/-- The pair (`multReg`, `icr`) is one the search of `I2C_Init` visits. -/
def I2C_Searched (multReg icr : Nat) : Prop :=
  multReg < 3 ∧ 0x10 ≤ icr ∧ icr ≤ 0x3F

instance (multReg icr : Nat) : Decidable (I2C_Searched multReg icr) := by
  unfold I2C_Searched; infer_instance

/-- The pair (`m`, `i`) comes before (`multReg`, `icr`) in the order of the
search: multiplier register ascending, then `icr` ascending. -/
def I2C_SearchedBefore (m i multReg icr : Nat) : Prop :=
  m < multReg ∨ (m = multReg ∧ i < icr)

instance (m i multReg icr : Nat) : Decidable (I2C_SearchedBefore m i multReg icr) := by
  unfold I2C_SearchedBefore; infer_instance

/-! ## median.c -/

/-- `Median_Filter3`. -/
def Median_Filter3 (n1 n2 n3 : Nat) : Nat :=
  if n1 > n2 then
    if n2 > n3 then n2
    else if n1 > n3 then n3
    else n1
  else
    if n3 > n2 then n2
    else if n1 > n3 then n1
    else n3

/-- The median as the claim words it: the middle element of the sorted triple. -/
def Median_Sorted3 (n1 n2 n3 : Nat) : Nat :=
  ([n1, n2, n3].insertionSort (fun a b => a ≤ b)).getD 1 0

/-! ## FIFO.c: a call preempted before its critical section -/

/-- The statements of `FIFO_Put` between `EnterCritical` and `ExitCritical`. -/
def FIFO_Put_critical (FIFO_SIZE : Nat) (FIFO : TFIFO) (data : Nat) : TFIFO :=
  let f1 : TFIFO := { FIFO with Buffer := FIFO.Buffer.set FIFO.End data }
  let f2 : TFIFO := { f1 with NbBytes := f1.NbBytes + 1 }
  let f3 : TFIFO := { f2 with End := f2.End + 1 }
  if f3.End ≥ FIFO_SIZE then { f3 with End := 0 } else f3

/-- A complete call of `FIFO_Put` or `FIFO_Get` made by an interrupt handler:
its return value and the queue after it. -/
def FIFO_Handler (FIFO_SIZE : Nat) (FIFO : TFIFO) : FIFO_Call → Bool × TFIFO
  | FIFO_Call.put data => FIFO_Put FIFO_SIZE FIFO data
  | FIFO_Call.get => ((FIFO_Get FIFO_SIZE FIFO 0).1, (FIFO_Get FIFO_SIZE FIFO 0).2.1)

/-- `FIFO_Put` called by a thread, with an interrupt taken right after the test
`FIFO->NbBytes < FIFO_SIZE` and before `EnterCritical`; the handler makes the
complete call `handler`.  The result is the return value of the handler's call,
the return value of the thread's call, and the queue after both. -/
def FIFO_Put_preempted (FIFO_SIZE : Nat) (FIFO : TFIFO) (data : Nat) (handler : FIFO_Call) :
    Bool × Bool × TFIFO :=
  let room : Bool := decide (FIFO.NbBytes < FIFO_SIZE)
  let h := FIFO_Handler FIFO_SIZE FIFO handler
  if room then (h.1, true, FIFO_Put_critical FIFO_SIZE h.2 data)
  else (h.1, false, h.2)

/-! ## Flash.c: the ranges handed out by a sequence of allocations -/

/-- The byte ranges handed out by a sequence of `Flash_AllocateVar` calls, given
the sizes asked and the results as `Flash_AllocateSeq` lists them: for each call
that returned true, the offset of the stored address from `FLASH_DATA_START`
and the size. -/
def Flash_Ranges (FLASH_DATA_START : Nat) : List Nat → List (Bool × Nat) → List (Nat × Nat)
  | size :: sizes, r :: results =>
      if r.1 then (r.2 - FLASH_DATA_START, size) :: Flash_Ranges FLASH_DATA_START sizes results
      else Flash_Ranges FLASH_DATA_START sizes results
  | _, _ => []

/-- Offset `j` lies in the range `r` (offset, size). -/
def Flash_InRange (r : Nat × Nat) (j : Nat) : Prop :=
  r.1 ≤ j ∧ j < r.1 + r.2

instance (r : Nat × Nat) (j : Nat) : Decidable (Flash_InRange r j) := by
  unfold Flash_InRange; infer_instance

/-- Two ranges share no offset. -/
def Flash_Disjoint (a b : Nat × Nat) : Prop :=
  a.1 + a.2 ≤ b.1 ∨ b.1 + b.2 ≤ a.1

instance (a b : Nat × Nat) : Decidable (Flash_Disjoint a b) := by
  unfold Flash_Disjoint; infer_instance

/-! ## The byte queue -/

theorem mod_lt_two (a C : Nat) (h : a < 2 * C) :
    a % C = if a < C then a else a - C := by
  split
  · exact Nat.mod_eq_of_lt (by assumption)
  · rw [Nat.mod_eq_sub_mod (by omega)]
    exact Nat.mod_eq_of_lt (by omega)

theorem FIFO_Inv_Init (C : Nat) (hC : 0 < C) (f : TFIFO) : FIFO_Inv C (FIFO_Init f) := by
  simp [FIFO_Inv, FIFO_Init, hC]

theorem FIFO_Inv_Put (C : Nat) (f : TFIFO) (d : Nat) (h : FIFO_Inv C f) :
    FIFO_Inv C (FIFO_Put C f d).2 := by
  obtain ⟨h1, h2, h3, h4⟩ := h
  have e1 := mod_lt_two (f.Start + f.NbBytes) C (by omega)
  unfold FIFO_Put
  by_cases hn : f.NbBytes < C
  · have e2 := mod_lt_two (f.Start + (f.NbBytes + 1)) C (by omega)
    simp only [hn, if_true]
    by_cases hw : f.End + 1 ≥ C
    · simp only [hw, if_true, FIFO_Inv]
      refine ⟨by omega, h2, by omega, ?_⟩
      rw [e2]; split_ifs at e1 ⊢ <;> omega
    · simp only [hw, if_false, FIFO_Inv]
      refine ⟨by omega, h2, by omega, ?_⟩
      rw [e2]; split_ifs at e1 ⊢ <;> omega
  · simp only [hn, if_false]
    exact ⟨h1, h2, h3, h4⟩

theorem FIFO_Inv_Get (C : Nat) (f : TFIFO) (out : Nat) (h : FIFO_Inv C f) :
    FIFO_Inv C (FIFO_Get C f out).2.1 := by
  obtain ⟨h1, h2, h3, h4⟩ := h
  have e1 := mod_lt_two (f.Start + f.NbBytes) C (by omega)
  unfold FIFO_Get
  by_cases hn : f.NbBytes > 0
  · simp only [hn, if_true]
    by_cases hw : f.Start + 1 ≥ C
    · simp only [hw, if_true, FIFO_Inv]
      refine ⟨by omega, by omega, h3, ?_⟩
      have e2 := mod_lt_two (0 + (f.NbBytes - 1)) C (by omega)
      rw [e2]; split_ifs at e1 ⊢ <;> omega
    · simp only [hw, if_false, FIFO_Inv]
      refine ⟨by omega, by omega, h3, ?_⟩
      have e2 := mod_lt_two (f.Start + 1 + (f.NbBytes - 1)) C (by omega)
      rw [e2]; split_ifs at e1 ⊢ <;> omega
  · simp only [hn, if_false]
    exact ⟨h1, h2, h3, h4⟩

theorem FIFO_Put_Buffer_length (C : Nat) (f : TFIFO) (d : Nat) :
    (FIFO_Put C f d).2.Buffer.length = f.Buffer.length := by
  unfold FIFO_Put
  split
  · dsimp only; split <;> simp
  · rfl

theorem FIFO_Get_Buffer (C : Nat) (f : TFIFO) (out : Nat) :
    (FIFO_Get C f out).2.1.Buffer = f.Buffer := by
  unfold FIFO_Get
  split
  · dsimp only; split <;> rfl
  · rfl

/-- Writing at the slot just past the stored bytes appends to them. -/
theorem FIFO_Stored_set (C : Nat) (buf : List Nat) (d : Nat) (hlen : buf.length = C) :
    ∀ (n start : Nat), n < C → start < C →
      FIFO_Stored C (buf.set ((start + n) % C) d) start (n + 1)
        = FIFO_Stored C buf start n ++ [d] := by
  intro n
  induction n with
  | zero =>
      intro start _ hs
      simp [FIFO_Stored, Nat.mod_eq_of_lt hs, List.getD_eq_getElem?_getD, hlen, hs]
  | succ n ih =>
      intro start hn hs
      have e := mod_lt_two (start + (n + 1)) C (by omega)
      by_cases hw : start + 1 ≥ C
      · have ih0 := ih 0 (by omega) (by omega)
        have e0 : (0 + n) % C = (start + (n + 1)) % C := by
          rw [e, Nat.mod_eq_of_lt (by omega)]; split_ifs <;> omega
        rw [e0] at ih0
        have hne : (start + (n + 1)) % C ≠ start := by
          rw [e]; split_ifs <;> omega
        rw [FIFO_Stored, if_pos hw, ih0]
        conv_rhs => rw [FIFO_Stored, if_pos hw]
        simp [List.getD_eq_getElem?_getD, List.getElem?_set_ne hne]
      · have ih1 := ih (start + 1) (by omega) (by omega)
        have e1 : (start + 1 + n) % C = (start + (n + 1)) % C := by
          congr 1; omega
        rw [e1] at ih1
        have hne : (start + (n + 1)) % C ≠ start := by
          rw [e]; split_ifs <;> omega
        rw [FIFO_Stored, if_neg hw, ih1]
        conv_rhs => rw [FIFO_Stored, if_neg hw]
        simp [List.getD_eq_getElem?_getD, List.getElem?_set_ne hne]

/-- A successful put appends the byte to the stored bytes; a failed one changes nothing. -/
theorem FIFO_Stored_Put (C : Nat) (f : TFIFO) (d : Nat) (hlen : f.Buffer.length = C)
    (h : FIFO_Inv C f) :
    ((FIFO_Put C f d).1 = true ↔ f.NbBytes < C) ∧
    FIFO_Stored C (FIFO_Put C f d).2.Buffer (FIFO_Put C f d).2.Start (FIFO_Put C f d).2.NbBytes
      = if (FIFO_Put C f d).1 then FIFO_Stored C f.Buffer f.Start f.NbBytes ++ [d]
        else FIFO_Stored C f.Buffer f.Start f.NbBytes := by
  obtain ⟨h1, h2, h3, h4⟩ := h
  unfold FIFO_Put
  by_cases hn : f.NbBytes < C
  · have key := FIFO_Stored_set C f.Buffer d hlen f.NbBytes f.Start hn h2
    rw [← h4] at key
    by_cases hw : f.End + 1 ≥ C <;> simp [hn, hw, key]
  · simp [hn]

/-- A successful get delivers the first stored byte and leaves the others. -/
theorem FIFO_Stored_Get (C : Nat) (f : TFIFO) (out : Nat) :
    ((FIFO_Get C f out).1 = true ↔ 0 < f.NbBytes) ∧
    (0 < f.NbBytes →
      FIFO_Stored C f.Buffer f.Start f.NbBytes
        = (FIFO_Get C f out).2.2 ::
            FIFO_Stored C (FIFO_Get C f out).2.1.Buffer (FIFO_Get C f out).2.1.Start
              (FIFO_Get C f out).2.1.NbBytes) := by
  unfold FIFO_Get
  by_cases hn : f.NbBytes > 0
  · obtain ⟨m, hm⟩ : ∃ m, f.NbBytes = m + 1 := ⟨f.NbBytes - 1, by omega⟩
    by_cases hw : f.Start + 1 ≥ C <;> simp [hm, hw, FIFO_Stored]
  · simp [hn]

/-- Along every run from an initialised queue the ring invariant holds, the
storage keeps its size, and the stored bytes are the ghost list. -/
theorem FIFO_Run_sound (C : Nat) (calls : List FIFO_Call) :
    ∀ (s : TFIFO × List Nat), s.1.Buffer.length = C → FIFO_Inv C s.1 →
      FIFO_Stored C s.1.Buffer s.1.Start s.1.NbBytes = s.2 →
      (FIFO_Run C s calls).1.Buffer.length = C ∧ FIFO_Inv C (FIFO_Run C s calls).1 ∧
      FIFO_Stored C (FIFO_Run C s calls).1.Buffer (FIFO_Run C s calls).1.Start
        (FIFO_Run C s calls).1.NbBytes = (FIFO_Run C s calls).2 := by
  induction calls with
  | nil => intro s h1 h2 h3; exact ⟨h1, h2, h3⟩
  | cons c calls ih =>
      intro s h1 h2 h3
      have step : FIFO_Run C s (c :: calls) = FIFO_Run C (FIFO_Step C s c) calls := rfl
      rw [step]
      cases c with
      | put d =>
          apply ih
          · simp [FIFO_Step, FIFO_Put_Buffer_length, h1]
          · exact FIFO_Inv_Put C s.1 d h2
          · have := (FIFO_Stored_Put C s.1 d h1 h2).2
            simp only [FIFO_Step]
            rw [this, h3]
      | get =>
          apply ih
          · simp [FIFO_Step, FIFO_Get_Buffer, h1]
          · exact FIFO_Inv_Get C s.1 0 h2
          · have hg := FIFO_Stored_Get C s.1 0
            simp only [FIFO_Step]
            by_cases hn : 0 < s.1.NbBytes
            · have h5 := hg.2 hn
              rw [hg.1.2 hn]
              rw [h3] at h5
              simp [h5]
            · have hf : (FIFO_Get C s.1 0).1 = false := by
                have := hg.1; cases hb : (FIFO_Get C s.1 0).1 <;> simp_all
              have hs : (FIFO_Get C s.1 0).2.1 = s.1 := by
                unfold FIFO_Get; simp [hn]
              rw [hf, hs]; simpa using h3

theorem FIFO_Stored_length (C : Nat) (buf : List Nat) :
    ∀ (n start : Nat), (FIFO_Stored C buf start n).length = n := by
  intro n
  induction n with
  | zero => intro start; rfl
  | succ n ih => intro start; simp [FIFO_Stored, ih]

/-- Puts that fit all succeed; only the byte count matters for that. -/
theorem FIFO_PutAll_count (C : Nat) (bytes : List Nat) :
    ∀ (f : TFIFO), f.NbBytes + bytes.length ≤ C →
      (FIFO_PutAll C f bytes).1 = List.replicate bytes.length true ∧
      (FIFO_PutAll C f bytes).2.NbBytes = f.NbBytes + bytes.length := by
  induction bytes with
  | nil => intro f _; simp [FIFO_PutAll]
  | cons b bytes ih =>
      intro f h
      simp only [List.length_cons] at h
      have hn : f.NbBytes < C := by omega
      have h1 : (FIFO_Put C f b).1 = true := by unfold FIFO_Put; simp [hn]
      have h2 : (FIFO_Put C f b).2.NbBytes = f.NbBytes + 1 := by
        unfold FIFO_Put; simp only [hn, if_true]; split <;> rfl
      have := ih (FIFO_Put C f b).2 (by omega)
      simp only [FIFO_PutAll, List.length_cons, List.replicate_succ, h1, this.1, this.2, h2,
        true_and]
      omega

/-- Puts that fit append their bytes, in order, to the stored bytes. -/
theorem FIFO_PutAll_Stored (C : Nat) (bytes : List Nat) :
    ∀ (f : TFIFO), f.Buffer.length = C → FIFO_Inv C f → f.NbBytes + bytes.length ≤ C →
      (FIFO_PutAll C f bytes).2.Buffer.length = C ∧ FIFO_Inv C (FIFO_PutAll C f bytes).2 ∧
      FIFO_Stored C (FIFO_PutAll C f bytes).2.Buffer (FIFO_PutAll C f bytes).2.Start
        (FIFO_PutAll C f bytes).2.NbBytes
        = FIFO_Stored C f.Buffer f.Start f.NbBytes ++ bytes := by
  induction bytes with
  | nil => intro f h1 h2 _; simp [FIFO_PutAll, h1, h2]
  | cons b bytes ih =>
      intro f h1 h2 h
      simp only [List.length_cons] at h
      have hp := FIFO_Stored_Put C f b h1 h2
      have hs : (FIFO_Put C f b).1 = true := hp.1.2 (by omega)
      have hN : (FIFO_Put C f b).2.NbBytes = f.NbBytes + 1 := by
        have := congrArg List.length hp.2
        simpa [hs, FIFO_Stored_length] using this
      have := ih (FIFO_Put C f b).2 (by rw [FIFO_Put_Buffer_length, h1])
        (FIFO_Inv_Put C f b h2) (by omega)
      refine ⟨this.1, this.2.1, ?_⟩
      simp only [FIFO_PutAll]
      rw [this.2.2, hp.2, hs]
      simp

/-- Gets on a queue that holds enough bytes deliver them oldest first. -/
theorem FIFO_GetN_Stored (C : Nat) :
    ∀ (n : Nat) (f : TFIFO), n ≤ f.NbBytes →
      (FIFO_GetN C f n).1
        = ((FIFO_Stored C f.Buffer f.Start f.NbBytes).take n).map (fun b => (true, b)) := by
  intro n
  induction n with
  | zero => intro f _; simp [FIFO_GetN]
  | succ n ih =>
      intro f h
      have hg := FIFO_Stored_Get C f 0
      have hpos : 0 < f.NbBytes := by omega
      have hs := hg.1.2 hpos
      have hcons := hg.2 hpos
      have hN : (FIFO_Get C f 0).2.1.NbBytes = f.NbBytes - 1 := by
        have := congrArg List.length hcons
        simp only [FIFO_Stored_length, List.length_cons] at this
        omega
      have := ih (FIFO_Get C f 0).2.1 (by omega)
      simp only [FIFO_GetN]
      rw [this, hcons, hs]
      simp

/-- C1: from an initialised queue and after any interleaving of put and get
calls, the next get succeeds exactly when some successfully put byte has not
been removed yet and then delivers the oldest such byte (and the next put
succeeds exactly when fewer than C such bytes are held); and whenever the queue
reached is empty, putting at most C bytes and getting as many delivers those
bytes in the order they were put. -/
theorem FIFO_order (C : Nat) (hC : 0 < C) (f0 : TFIFO) (hlen : f0.Buffer.length = C)
    (calls : List FIFO_Call) :
    (∀ out : Nat,
      ((FIFO_Get C (FIFO_Run C (FIFO_Init f0, []) calls).1 out).1 = true ↔
        (FIFO_Run C (FIFO_Init f0, []) calls).2 ≠ []) ∧
      ((FIFO_Get C (FIFO_Run C (FIFO_Init f0, []) calls).1 out).1 = true →
        (FIFO_Run C (FIFO_Init f0, []) calls).2.head?
          = some (FIFO_Get C (FIFO_Run C (FIFO_Init f0, []) calls).1 out).2.2)) ∧
    (∀ data : Nat,
      (FIFO_Put C (FIFO_Run C (FIFO_Init f0, []) calls).1 data).1 = true ↔
        (FIFO_Run C (FIFO_Init f0, []) calls).2.length < C) ∧
    (∀ bytes : List Nat, (FIFO_Run C (FIFO_Init f0, []) calls).1.NbBytes = 0 →
      bytes.length ≤ C →
      (FIFO_PutAll C (FIFO_Run C (FIFO_Init f0, []) calls).1 bytes).1
        = List.replicate bytes.length true ∧
      (FIFO_GetN C (FIFO_PutAll C (FIFO_Run C (FIFO_Init f0, []) calls).1 bytes).2
          bytes.length).1
        = bytes.map (fun b => (true, b))) := by
  have hrun := FIFO_Run_sound C calls (FIFO_Init f0, []) (by simpa [FIFO_Init] using hlen)
    (FIFO_Inv_Init C hC f0) (by simp [FIFO_Init, FIFO_Stored])
  generalize FIFO_Run C (FIFO_Init f0, []) calls = s at hrun
  obtain ⟨h1, h2, h3⟩ := hrun
  have hlenq : s.2.length = s.1.NbBytes := by rw [← h3, FIFO_Stored_length]
  refine ⟨fun out => ⟨?_, ?_⟩, fun data => ?_, fun bytes hz hb => ⟨?_, ?_⟩⟩
  · rw [(FIFO_Stored_Get C s.1 out).1, ← hlenq, List.length_pos]
  · intro hs
    have hpos := (FIFO_Stored_Get C s.1 out).1.1 hs
    have := (FIFO_Stored_Get C s.1 out).2 hpos
    rw [h3] at this
    rw [this]; rfl
  · rw [(FIFO_Stored_Put C s.1 data h1 h2).1, hlenq]
  · exact (FIFO_PutAll_count C bytes s.1 (by omega)).1
  · have hp := FIFO_PutAll_Stored C bytes s.1 h1 h2 (by omega)
    have hc := (FIFO_PutAll_count C bytes s.1 (by omega)).2
    rw [FIFO_GetN_Stored C bytes.length _ (by omega), hp.2.2, hz]
    simp [FIFO_Stored]

/-- Instance of C1 on a three-byte queue: after three puts, a rejected fourth,
one get and a put that wraps `End`, the next get delivers the second byte. -/
theorem FIFO_order_witness :
    0 < 3 ∧ (TFIFO.mk 5 7 9 [0, 0, 0]).Buffer.length = 3 ∧
    (FIFO_Get 3 (FIFO_Run 3 (FIFO_Init (TFIFO.mk 5 7 9 [0, 0, 0]), [])
        [FIFO_Call.put 11, FIFO_Call.put 12, FIFO_Call.put 13, FIFO_Call.put 14,
          FIFO_Call.get, FIFO_Call.put 15]).1 0).1 = true ∧
    (FIFO_Run 3 (FIFO_Init (TFIFO.mk 5 7 9 [0, 0, 0]), [])
        [FIFO_Call.put 11, FIFO_Call.put 12, FIFO_Call.put 13, FIFO_Call.put 14,
          FIFO_Call.get, FIFO_Call.put 15]).2.head?
      = some (FIFO_Get 3 (FIFO_Run 3 (FIFO_Init (TFIFO.mk 5 7 9 [0, 0, 0]), [])
        [FIFO_Call.put 11, FIFO_Call.put 12, FIFO_Call.put 13, FIFO_Call.put 14,
          FIFO_Call.get, FIFO_Call.put 15]).1 0).2.2 ∧
    (FIFO_Get 3 (FIFO_Run 3 (FIFO_Init (TFIFO.mk 5 7 9 [0, 0, 0]), [])
        [FIFO_Call.put 11, FIFO_Call.put 12, FIFO_Call.put 13, FIFO_Call.put 14,
          FIFO_Call.get, FIFO_Call.put 15]).1 0).2.2 = 12 :=
  ⟨by decide, rfl, by decide,
    ((FIFO_order 3 (by decide) (TFIFO.mk 5 7 9 [0, 0, 0]) rfl
        [FIFO_Call.put 11, FIFO_Call.put 12, FIFO_Call.put 13, FIFO_Call.put 14,
          FIFO_Call.get, FIFO_Call.put 15]).1 0).2 (by decide),
    by decide⟩

/-- C2: after `FIFO_Init` and exactly C puts, which all return true, the byte
count is C and one more put returns false and leaves the whole record as it was. -/
theorem FIFO_full_rejects (C : Nat) (f0 : TFIFO) (bytes : List Nat) (data : Nat)
    (hC : bytes.length = C) :
    (FIFO_PutAll C (FIFO_Init f0) bytes).1 = List.replicate C true ∧
    (FIFO_PutAll C (FIFO_Init f0) bytes).2.NbBytes = C ∧
    FIFO_Put C (FIFO_PutAll C (FIFO_Init f0) bytes).2 data
      = (false, (FIFO_PutAll C (FIFO_Init f0) bytes).2) := by
  have h := FIFO_PutAll_count C bytes (FIFO_Init f0) (by simp [FIFO_Init, hC])
  have hN : (FIFO_PutAll C (FIFO_Init f0) bytes).2.NbBytes = C := by
    rw [h.2]; simp [FIFO_Init, hC]
  refine ⟨by rw [h.1, hC], hN, ?_⟩
  unfold FIFO_Put
  simp [hN]

/-- Instance of C2 on a three-byte queue. -/
theorem FIFO_full_rejects_witness :
    [21, 22, 23].length = 3 ∧
    (FIFO_PutAll 3 (FIFO_Init (TFIFO.mk 1 2 3 [0, 0, 0])) [21, 22, 23]).1
      = List.replicate 3 true ∧
    (FIFO_PutAll 3 (FIFO_Init (TFIFO.mk 1 2 3 [0, 0, 0])) [21, 22, 23]).2.NbBytes = 3 ∧
    FIFO_Put 3 (FIFO_PutAll 3 (FIFO_Init (TFIFO.mk 1 2 3 [0, 0, 0])) [21, 22, 23]).2 24
      = (false, (FIFO_PutAll 3 (FIFO_Init (TFIFO.mk 1 2 3 [0, 0, 0])) [21, 22, 23]).2) :=
  ⟨rfl, FIFO_full_rejects 3 (TFIFO.mk 1 2 3 [0, 0, 0]) [21, 22, 23] 24 rfl⟩

/-- C3: on every queue whose byte count is 0, `FIFO_Get` returns false and
leaves the record and the caller's byte as they were; the queue just after
`FIFO_Init` is such a queue. -/
theorem FIFO_Get_empty (C : Nat) (f : TFIFO) (out : Nat) (h : f.NbBytes = 0) :
    FIFO_Get C f out = (false, f, out) ∧
    FIFO_Get C (FIFO_Init f) out = (false, FIFO_Init f, out) := by
  constructor
  · unfold FIFO_Get; simp [h]
  · unfold FIFO_Get; simp [FIFO_Init]

/-- Instance of C3: an empty queue whose indices sit in the middle of the ring. -/
theorem FIFO_Get_empty_witness :
    (TFIFO.mk 2 2 0 [7, 8, 9]).NbBytes = 0 ∧
    FIFO_Get 3 (TFIFO.mk 2 2 0 [7, 8, 9]) 55 = (false, TFIFO.mk 2 2 0 [7, 8, 9], 55) ∧
    FIFO_Get 3 (FIFO_Init (TFIFO.mk 2 2 0 [7, 8, 9])) 55
      = (false, FIFO_Init (TFIFO.mk 2 2 0 [7, 8, 9]), 55) :=
  ⟨rfl, FIFO_Get_empty 3 (TFIFO.mk 2 2 0 [7, 8, 9]) 55 rfl⟩

/-- C4: every queue reached from `FIFO_Init` by put and get calls has
`NbBytes ≤ C`, `Start < C`, `End < C` and `End = (Start + NbBytes) mod C`. -/
theorem FIFO_invariant (C : Nat) (hC : 0 < C) (f0 : TFIFO) (calls : List FIFO_Call) :
    0 ≤ (FIFO_Run C (FIFO_Init f0, []) calls).1.NbBytes ∧
    (FIFO_Run C (FIFO_Init f0, []) calls).1.NbBytes ≤ C ∧
    (FIFO_Run C (FIFO_Init f0, []) calls).1.Start < C ∧
    (FIFO_Run C (FIFO_Init f0, []) calls).1.End < C ∧
    (FIFO_Run C (FIFO_Init f0, []) calls).1.End
      = ((FIFO_Run C (FIFO_Init f0, []) calls).1.Start
          + (FIFO_Run C (FIFO_Init f0, []) calls).1.NbBytes) % C := by
  have key : ∀ (cs : List FIFO_Call) (s : TFIFO × List Nat), FIFO_Inv C s.1 →
      FIFO_Inv C (FIFO_Run C s cs).1 := by
    intro cs
    induction cs with
    | nil => intro s h; exact h
    | cons c cs ih =>
        intro s h
        have step : FIFO_Run C s (c :: cs) = FIFO_Run C (FIFO_Step C s c) cs := rfl
        rw [step]
        apply ih
        cases c with
        | put d => exact FIFO_Inv_Put C s.1 d h
        | get => exact FIFO_Inv_Get C s.1 0 h
  exact ⟨Nat.zero_le _, key calls (FIFO_Init f0, []) (FIFO_Inv_Init C hC f0)⟩

/-- Instance of C4 on a two-byte queue driven past the wrap of both indices. -/
theorem FIFO_invariant_witness :
    0 < 2 ∧
    (FIFO_Run 2 (FIFO_Init (TFIFO.mk 9 9 9 [0, 0]), [])
      [FIFO_Call.put 1, FIFO_Call.put 2, FIFO_Call.get, FIFO_Call.get, FIFO_Call.put 3]).1
      = TFIFO.mk 0 1 1 [3, 2] ∧
    (FIFO_Run 2 (FIFO_Init (TFIFO.mk 9 9 9 [0, 0]), [])
      [FIFO_Call.put 1, FIFO_Call.put 2, FIFO_Call.get, FIFO_Call.get, FIFO_Call.put 3]).1.End
      = ((FIFO_Run 2 (FIFO_Init (TFIFO.mk 9 9 9 [0, 0]), [])
          [FIFO_Call.put 1, FIFO_Call.put 2, FIFO_Call.get, FIFO_Call.get,
            FIFO_Call.put 3]).1.Start
        + (FIFO_Run 2 (FIFO_Init (TFIFO.mk 9 9 9 [0, 0]), [])
          [FIFO_Call.put 1, FIFO_Call.put 2, FIFO_Call.get, FIFO_Call.get,
            FIFO_Call.put 3]).1.NbBytes) % 2 :=
  ⟨by decide, by decide,
    (FIFO_invariant 2 (by decide) (TFIFO.mk 9 9 9 [0, 0])
      [FIFO_Call.put 1, FIFO_Call.put 2, FIFO_Call.get, FIFO_Call.get,
        FIFO_Call.put 3]).2.2.2.2⟩

/-! ## The slot allocator -/

/-- In a strictly increasing list, `find?` returns the least member passing the test. -/
theorem find_least (p : Nat → Bool) :
    ∀ (l : List Nat) (i : Nat), l.Pairwise (fun a b => a < b) → l.find? p = some i →
      i ∈ l ∧ p i = true ∧ ∀ j, j ∈ l → j < i → p j = false := by
  intro l
  induction l with
  | nil => intro i _ h; simp at h
  | cons a l ih =>
      intro i hs h
      rw [List.pairwise_cons] at hs
      cases hp : p a with
      | true =>
          rw [List.find?_cons_of_pos _ hp] at h
          cases h
          refine ⟨List.mem_cons_self _ _, hp, ?_⟩
          intro j hj hlt
          rcases List.mem_cons.1 hj with rfl | hj
          · omega
          · have := hs.1 j hj; omega
      | false =>
          rw [List.find?_cons_of_neg _ (by simp [hp])] at h
          obtain ⟨h1, h2, h3⟩ := ih i hs.2 h
          refine ⟨List.mem_cons_of_mem _ h1, h2, ?_⟩
          intro j hj hlt
          rcases List.mem_cons.1 hj with rfl | hj
          · exact hp
          · exact h3 j hj hlt

theorem getD_set_slot (l : List Nat) (i j v : Nat) (hi : i < l.length) :
    (l.set i v).getD j 0 = if j = i then v else l.getD j 0 := by
  simp only [List.getD_eq_getElem?_getD, List.getElem?_set]
  by_cases h : i = j
  · subst h; simp [hi]
  · have h2 : ¬ j = i := fun e => h e.symm
    simp [h, h2]

/-- What `Flash_AllocateVar` does for size 1. -/
theorem Flash_AllocateVar_one (B : Nat) (t : List Nat) (v : Nat) (hlen : t.length = 8) :
    (∃ k t2, Flash_FreeRun t 1 k ∧ (∀ m, Flash_FreeRun t 1 m → k ≤ m) ∧
        Flash_AllocateVar B t v 1 = (true, t2, (B + k) % 2 ^ 32) ∧ t2.length = 8 ∧
        ∀ j, t2.getD j 0 = if k ≤ j ∧ j < k + 1 then 1 else t.getD j 0) ∨
    ((¬ ∃ k, Flash_FreeRun t 1 k) ∧ Flash_AllocateVar B t v 1 = (false, t, v)) := by
  cases hf : [0, 1, 2, 3, 4, 5, 6, 7].find? (fun i => t.getD i 0 == 0) with
  | none =>
      right
      have hres : Flash_AllocateVar B t v 1 = (false, t, v) := by
        simp only [Flash_AllocateVar, hf, if_true]
      rw [List.find?_eq_none] at hf
      refine ⟨?_, hres⟩
      rintro ⟨k, -, hk2, hk3⟩
      have hk : k ∈ [0, 1, 2, 3, 4, 5, 6, 7] := by simp; omega
      have h0 := hk3 0 (by omega)
      have := hf k hk
      simp at this h0
      exact this h0
  | some i =>
      left
      obtain ⟨hm, hp, hmin⟩ := find_least _ _ i (by decide) hf
      have hi : i < 8 := by simp at hm; omega
      simp only [beq_iff_eq] at hp
      refine ⟨i, t.set i 1, ⟨Nat.mod_one i, by omega, ?_⟩, ?_, ?_, by simp [hlen], ?_⟩
      · intro j hj
        have : j = 0 := by omega
        subst this; exact hp
      · rintro m ⟨-, hm2, hm3⟩
        by_contra hlt
        have hmem : m ∈ [0, 1, 2, 3, 4, 5, 6, 7] := by simp; omega
        have := hmin m hmem (by omega)
        have h0 := hm3 0 (by omega)
        simp at this h0
        exact this h0
      · simp only [Flash_AllocateVar, hf, if_true]
        have : ((List.range 8).map (fun i => (B + i) % 2 ^ 32)).getD i 0 = (B + i) % 2 ^ 32 := by
          simp [List.getD_eq_getElem?_getD, List.getElem?_map, List.getElem?_range hi]
        rw [this]
      · intro j
        rw [getD_set_slot _ _ _ _ (by omega)]
        by_cases hj : j = i
        · subst hj; simp
        · have : ¬ (i ≤ j ∧ j < i + 1) := by omega
          simp [hj, this]

/-- What `Flash_AllocateVar` does for size 2. -/
theorem Flash_AllocateVar_two (B : Nat) (t : List Nat) (v : Nat) (hlen : t.length = 8) :
    (∃ k t2, Flash_FreeRun t 2 k ∧ (∀ m, Flash_FreeRun t 2 m → k ≤ m) ∧
        Flash_AllocateVar B t v 2 = (true, t2, (B + k) % 2 ^ 32) ∧ t2.length = 8 ∧
        ∀ j, t2.getD j 0 = if k ≤ j ∧ j < k + 2 then 1 else t.getD j 0) ∨
    ((¬ ∃ k, Flash_FreeRun t 2 k) ∧ Flash_AllocateVar B t v 2 = (false, t, v)) := by
  cases hf : [0, 2, 4, 6].find? (fun i => t.getD i 0 == 0 && t.getD (i + 1) 0 == 0) with
  | none =>
      right
      have hres : Flash_AllocateVar B t v 2 = (false, t, v) := by
        simp only [Flash_AllocateVar, hf, if_true]; rfl
      rw [List.find?_eq_none] at hf
      refine ⟨?_, hres⟩
      rintro ⟨k, hk1, hk2, hk3⟩
      have hk : k ∈ [0, 2, 4, 6] := by simp; omega
      have h0 := hk3 0 (by omega)
      have h1 := hk3 1 (by omega)
      have := hf k hk
      simp at this h0 h1
      exact this h0 h1
  | some i =>
      left
      obtain ⟨hm, hp, hmin⟩ := find_least _ _ i (by decide) hf
      have hi : i % 2 = 0 ∧ i + 2 ≤ 8 := by simp at hm; omega
      simp only [Bool.and_eq_true, beq_iff_eq] at hp
      refine ⟨i, (t.set i 1).set (i + 1) 1, ⟨hi.1, hi.2, ?_⟩, ?_, ?_, by simp [hlen], ?_⟩
      · intro j hj
        have : j = 0 ∨ j = 1 := by omega
        rcases this with rfl | rfl
        · exact hp.1
        · exact hp.2
      · rintro m ⟨hm1, hm2, hm3⟩
        by_contra hlt
        have hmem : m ∈ [0, 2, 4, 6] := by simp; omega
        have := hmin m hmem (by omega)
        have h0 := hm3 0 (by omega)
        have h1 := hm3 1 (by omega)
        simp at this h0 h1
        exact this h0 h1
      · simp only [Flash_AllocateVar, hf]
        have : ((List.range 8).map (fun i => (B + i) % 2 ^ 32)).getD i 0 = (B + i) % 2 ^ 32 := by
          simp [List.getD_eq_getElem?_getD, List.getElem?_map,
            List.getElem?_range (show i < 8 by omega)]
        rw [this]; rfl
      · intro j
        rw [getD_set_slot _ _ _ _ (by simp; omega), getD_set_slot _ _ _ _ (by omega)]
        by_cases h1 : j = i + 1
        · have : i ≤ j ∧ j < i + 2 := by omega
          simp [h1]
        · by_cases h0 : j = i
          · simp [h0]
          · have : ¬ (i ≤ j ∧ j < i + 2) := by omega
            simp [h0, h1, this]

/-- What `Flash_AllocateVar` does for size 4. -/
theorem Flash_AllocateVar_four (B : Nat) (t : List Nat) (v : Nat) (hlen : t.length = 8) :
    (∃ k t2, Flash_FreeRun t 4 k ∧ (∀ m, Flash_FreeRun t 4 m → k ≤ m) ∧
        Flash_AllocateVar B t v 4 = (true, t2, (B + k) % 2 ^ 32) ∧ t2.length = 8 ∧
        ∀ j, t2.getD j 0 = if k ≤ j ∧ j < k + 4 then 1 else t.getD j 0) ∨
    ((¬ ∃ k, Flash_FreeRun t 4 k) ∧ Flash_AllocateVar B t v 4 = (false, t, v)) := by
  cases hf : [0, 4].find? (fun i => t.getD i 0 == 0 && t.getD (i + 1) 0 == 0 &&
      t.getD (i + 2) 0 == 0 && t.getD (i + 3) 0 == 0) with
  | none =>
      right
      have hres : Flash_AllocateVar B t v 4 = (false, t, v) := by
        simp only [Flash_AllocateVar, hf, if_true]; rfl
      rw [List.find?_eq_none] at hf
      refine ⟨?_, hres⟩
      rintro ⟨k, hk1, hk2, hk3⟩
      have hk : k ∈ [0, 4] := by simp; omega
      have h0 := hk3 0 (by omega)
      have h1 := hk3 1 (by omega)
      have h2 := hk3 2 (by omega)
      have h3 := hk3 3 (by omega)
      have := hf k hk
      simp at this h0 h1 h2 h3
      exact this h0 h1 h2 h3
  | some i =>
      left
      obtain ⟨hm, hp, hmin⟩ := find_least _ _ i (by decide) hf
      have hi : i % 4 = 0 ∧ i + 4 ≤ 8 := by simp at hm; omega
      simp only [Bool.and_eq_true, beq_iff_eq] at hp
      refine ⟨i, (((t.set i 1).set (i + 1) 1).set (i + 2) 1).set (i + 3) 1,
        ⟨hi.1, hi.2, ?_⟩, ?_, ?_, by simp [hlen], ?_⟩
      · intro j hj
        have : j = 0 ∨ j = 1 ∨ j = 2 ∨ j = 3 := by omega
        rcases this with rfl | rfl | rfl | rfl
        · exact hp.1.1.1
        · exact hp.1.1.2
        · exact hp.1.2
        · exact hp.2
      · rintro m ⟨hm1, hm2, hm3⟩
        by_contra hlt
        have hmem : m ∈ [0, 4] := by simp; omega
        have := hmin m hmem (by omega)
        have h0 := hm3 0 (by omega)
        have h1 := hm3 1 (by omega)
        have h2 := hm3 2 (by omega)
        have h3 := hm3 3 (by omega)
        simp at this h0 h1 h2 h3
        exact this h0 h1 h2 h3
      · simp only [Flash_AllocateVar, hf]
        have : ((List.range 8).map (fun i => (B + i) % 2 ^ 32)).getD i 0 = (B + i) % 2 ^ 32 := by
          simp [List.getD_eq_getElem?_getD, List.getElem?_map,
            List.getElem?_range (show i < 8 by omega)]
        rw [this]; rfl
      · intro j
        rw [getD_set_slot _ _ _ _ (by simp; omega), getD_set_slot _ _ _ _ (by simp; omega),
          getD_set_slot _ _ _ _ (by simp; omega), getD_set_slot _ _ _ _ (by omega)]
        by_cases h3 : j = i + 3
        · simp [h3]
        · by_cases h2 : j = i + 2
          · simp [h2]
          · by_cases h1 : j = i + 1
            · simp [h1]
            · by_cases h0 : j = i
              · simp [h0]
              · have : ¬ (i ≤ j ∧ j < i + 4) := by omega
                simp [h0, h1, h2, h3, this]

/-- What `Flash_AllocateVar` does for each of the sizes 1, 2 and 4: either it
hands out the lowest free run and marks it, or there is no free run and nothing
changes. -/
theorem Flash_AllocateVar_cases (B : Nat) (t : List Nat) (v size : Nat) (hlen : t.length = 8)
    (hsize : size = 1 ∨ size = 2 ∨ size = 4) :
    (∃ k t2, Flash_FreeRun t size k ∧ (∀ m, Flash_FreeRun t size m → k ≤ m) ∧
        Flash_AllocateVar B t v size = (true, t2, (B + k) % 2 ^ 32) ∧ t2.length = 8 ∧
        ∀ j, t2.getD j 0 = if k ≤ j ∧ j < k + size then 1 else t.getD j 0) ∨
    ((¬ ∃ k, Flash_FreeRun t size k) ∧ Flash_AllocateVar B t v size = (false, t, v)) := by
  rcases hsize with rfl | rfl | rfl
  · exact Flash_AllocateVar_one B t v hlen
  · exact Flash_AllocateVar_two B t v hlen
  · exact Flash_AllocateVar_four B t v hlen

/-- C5: for every slot table and every size in {1,2,4}, a successful
`Flash_AllocateVar` stores an address `FLASH_DATA_START + k` whose offset `k` is
divisible by the size and has `k + size ≤ 8`; so the offset is even for size 2
and a multiple of 4 for size 4. -/
theorem Flash_AllocateVar_aligned (FLASH_DATA_START : Nat) (freeAddress : List Nat)
    (varPtr size : Nat) (hbase : FLASH_DATA_START + 8 ≤ 2 ^ 32)
    (hlen : freeAddress.length = 8) (hsize : size = 1 ∨ size = 2 ∨ size = 4)
    (hok : (Flash_AllocateVar FLASH_DATA_START freeAddress varPtr size).1 = true) :
    ∃ k : Nat,
      (Flash_AllocateVar FLASH_DATA_START freeAddress varPtr size).2.2 = FLASH_DATA_START + k ∧
      k % size = 0 ∧ k + size ≤ 8 ∧ (size = 2 → k % 2 = 0) ∧ (size = 4 → k % 4 = 0) := by
  rcases Flash_AllocateVar_cases FLASH_DATA_START freeAddress varPtr size hlen hsize with
    ⟨k, t2, hrun, -, hres, -, -⟩ | ⟨-, hres⟩
  · obtain ⟨h1, h2, -⟩ := hrun
    refine ⟨k, ?_, h1, h2, ?_, ?_⟩
    · rw [hres]; exact Nat.mod_eq_of_lt (by omega)
    · intro h; rw [← h]; exact h1
    · intro h; rw [← h]; exact h1
  · rw [hres] at hok; cases hok

/-- Instance of C5: a two-byte request on a table whose slot 0 is taken gets offset 2. -/
theorem Flash_AllocateVar_aligned_witness :
    0x80000 + 8 ≤ 2 ^ 32 ∧ [1, 0, 0, 0, 0, 0, 0, 0].length = 8 ∧
    (Flash_AllocateVar 0x80000 [1, 0, 0, 0, 0, 0, 0, 0] 0 2).1 = true ∧
    (Flash_AllocateVar 0x80000 [1, 0, 0, 0, 0, 0, 0, 0] 0 2).2.2 = 0x80000 + 2 ∧
    ∃ k : Nat,
      (Flash_AllocateVar 0x80000 [1, 0, 0, 0, 0, 0, 0, 0] 0 2).2.2 = 0x80000 + k ∧
      k % 2 = 0 ∧ k + 2 ≤ 8 ∧ (2 = 2 → k % 2 = 0) ∧ (2 = 4 → k % 4 = 0) :=
  ⟨by decide, rfl, by decide, by decide,
    Flash_AllocateVar_aligned 0x80000 [1, 0, 0, 0, 0, 0, 0, 0] 0 2 (by decide) rfl
      (Or.inr (Or.inl rfl)) (by decide)⟩

/-- C6: from the all-free table, eight one-byte allocations in a row all return
true and store the addresses at offsets 0, 1, ..., 7, which are pairwise
distinct, and the ninth returns false and leaves the caller's pointer alone. -/
theorem Flash_AllocateVar_eight_bytes (FLASH_DATA_START : Nat)
    (hbase : FLASH_DATA_START + 8 ≤ 2 ^ 32) :
    (Flash_AllocateSeq FLASH_DATA_START (List.replicate 8 0) (List.replicate 9 1)).1
      = [(true, FLASH_DATA_START + 0), (true, FLASH_DATA_START + 1),
         (true, FLASH_DATA_START + 2), (true, FLASH_DATA_START + 3),
         (true, FLASH_DATA_START + 4), (true, FLASH_DATA_START + 5),
         (true, FLASH_DATA_START + 6), (true, FLASH_DATA_START + 7), (false, 0)] ∧
    ((((Flash_AllocateSeq FLASH_DATA_START (List.replicate 8 0) (List.replicate 9 1)).1).take
        8).map (fun r => r.2)).Nodup := by
  have hadd : ∀ i, i < 8 → (FLASH_DATA_START + i) % 4294967296 = FLASH_DATA_START + i :=
    fun i hi => Nat.mod_eq_of_lt (by omega)
  have h : (Flash_AllocateSeq FLASH_DATA_START (List.replicate 8 0) (List.replicate 9 1)).1
      = [(true, FLASH_DATA_START + 0), (true, FLASH_DATA_START + 1),
         (true, FLASH_DATA_START + 2), (true, FLASH_DATA_START + 3),
         (true, FLASH_DATA_START + 4), (true, FLASH_DATA_START + 5),
         (true, FLASH_DATA_START + 6), (true, FLASH_DATA_START + 7), (false, 0)] := by
    have hB : FLASH_DATA_START < 4294967296 := by omega
    simp [Flash_AllocateSeq, Flash_AllocateVar, List.replicate, hadd, hB, List.range,
      List.range.loop]
  refine ⟨h, ?_⟩
  rw [h]
  simp

/-- Instance of C6 with the phrase at address 0x80000. -/
theorem Flash_AllocateVar_eight_bytes_witness :
    0x80000 + 8 ≤ 2 ^ 32 ∧
    (Flash_AllocateSeq 0x80000 (List.replicate 8 0) (List.replicate 9 1)).1
      = [(true, 0x80000 + 0), (true, 0x80000 + 1), (true, 0x80000 + 2), (true, 0x80000 + 3),
         (true, 0x80000 + 4), (true, 0x80000 + 5), (true, 0x80000 + 6), (true, 0x80000 + 7),
         (false, 0)] :=
  ⟨by decide, (Flash_AllocateVar_eight_bytes 0x80000 (by decide)).1⟩

/-- C7: for every slot table and size in {1,2,4}, a successful `Flash_AllocateVar`
stores the address of the lowest offset `k` that is a multiple of the size with
slots `k .. k + size - 1` all free, sets exactly those slots to taken and leaves
every other slot as it was; on the all-free table an allocation of any of the
three sizes succeeds with offset 0. -/
theorem Flash_AllocateVar_lowest (FLASH_DATA_START : Nat) (freeAddress : List Nat)
    (varPtr size : Nat) (hbase : FLASH_DATA_START + 8 ≤ 2 ^ 32)
    (hlen : freeAddress.length = 8) (hsize : size = 1 ∨ size = 2 ∨ size = 4) :
    ((Flash_AllocateVar FLASH_DATA_START freeAddress varPtr size).1 = true →
      ∃ k : Nat,
        (Flash_AllocateVar FLASH_DATA_START freeAddress varPtr size).2.2
          = FLASH_DATA_START + k ∧
        Flash_FreeRun freeAddress size k ∧
        (∀ m, Flash_FreeRun freeAddress size m → k ≤ m) ∧
        (Flash_AllocateVar FLASH_DATA_START freeAddress varPtr size).2.1.length = 8 ∧
        ∀ j, (Flash_AllocateVar FLASH_DATA_START freeAddress varPtr size).2.1.getD j 0
          = if k ≤ j ∧ j < k + size then 1 else freeAddress.getD j 0) ∧
    (Flash_AllocateVar FLASH_DATA_START (List.replicate 8 0) varPtr size).1 = true ∧
    (Flash_AllocateVar FLASH_DATA_START (List.replicate 8 0) varPtr size).2.2
      = FLASH_DATA_START + 0 := by
  refine ⟨?_, ?_, ?_⟩
  · intro hok
    rcases Flash_AllocateVar_cases FLASH_DATA_START freeAddress varPtr size hlen hsize with
      ⟨k, t2, hrun, hmin, hres, hl2, hupd⟩ | ⟨-, hres⟩
    · refine ⟨k, ?_, hrun, hmin, ?_, ?_⟩
      · rw [hres]; exact Nat.mod_eq_of_lt (by have := hrun.2.1; omega)
      · rw [hres]; exact hl2
      · rw [hres]; exact hupd
    · rw [hres] at hok; cases hok
  · rcases hsize with rfl | rfl | rfl <;> simp [Flash_AllocateVar, List.replicate]
  · have hB : FLASH_DATA_START < 4294967296 := by omega
    rcases hsize with rfl | rfl | rfl <;>
      simp [Flash_AllocateVar, List.replicate, hB, List.range, List.range.loop]

/-- Instance of C7: slots 0 to 2 taken, a two-byte request; offset 2 is not free
as a pair, offset 4 is the lowest free pair. -/
theorem Flash_AllocateVar_lowest_witness :
    0x80000 + 8 ≤ 2 ^ 32 ∧ [1, 1, 1, 0, 0, 0, 0, 0].length = 8 ∧
    Flash_AllocateVar 0x80000 [1, 1, 1, 0, 0, 0, 0, 0] 0 2
      = (true, [1, 1, 1, 0, 1, 1, 0, 0], 0x80000 + 4) ∧
    ((Flash_AllocateVar 0x80000 [1, 1, 1, 0, 0, 0, 0, 0] 0 2).1 = true →
      ∃ k : Nat,
        (Flash_AllocateVar 0x80000 [1, 1, 1, 0, 0, 0, 0, 0] 0 2).2.2 = 0x80000 + k ∧
        Flash_FreeRun [1, 1, 1, 0, 0, 0, 0, 0] 2 k ∧
        (∀ m, Flash_FreeRun [1, 1, 1, 0, 0, 0, 0, 0] 2 m → k ≤ m) ∧
        (Flash_AllocateVar 0x80000 [1, 1, 1, 0, 0, 0, 0, 0] 0 2).2.1.length = 8 ∧
        ∀ j, (Flash_AllocateVar 0x80000 [1, 1, 1, 0, 0, 0, 0, 0] 0 2).2.1.getD j 0
          = if k ≤ j ∧ j < k + 2 then 1 else [1, 1, 1, 0, 0, 0, 0, 0].getD j 0) :=
  ⟨by decide, rfl, by decide,
    (Flash_AllocateVar_lowest 0x80000 [1, 1, 1, 0, 0, 0, 0, 0] 0 2 (by decide) rfl
      (Or.inr (Or.inl rfl))).1⟩

/-- C8: for every slot table and size in {1,2,4}, `Flash_AllocateVar` returns
false exactly when no offset that is a multiple of the size starts a run of free
slots of that size inside the phrase; and when it returns false the table and the
caller's pointer are as before the call. -/
theorem Flash_AllocateVar_fails_iff (FLASH_DATA_START : Nat) (freeAddress : List Nat)
    (varPtr size : Nat) (hlen : freeAddress.length = 8)
    (hsize : size = 1 ∨ size = 2 ∨ size = 4) :
    ((Flash_AllocateVar FLASH_DATA_START freeAddress varPtr size).1 = false ↔
      ¬ ∃ k : Nat, k % size = 0 ∧ k + size ≤ 8 ∧
          ∀ j, j < size → freeAddress.getD (k + j) 0 = 0) ∧
    ((Flash_AllocateVar FLASH_DATA_START freeAddress varPtr size).1 = false →
      (Flash_AllocateVar FLASH_DATA_START freeAddress varPtr size).2.1 = freeAddress ∧
      (Flash_AllocateVar FLASH_DATA_START freeAddress varPtr size).2.2 = varPtr) := by
  rcases Flash_AllocateVar_cases FLASH_DATA_START freeAddress varPtr size hlen hsize with
    ⟨k, t2, hrun, -, hres, -, -⟩ | ⟨hno, hres⟩
  · rw [hres]
    exact ⟨⟨fun h => Bool.noConfusion h, fun h => (h ⟨k, hrun.1, hrun.2.1, hrun.2.2⟩).elim⟩,
      fun h => Bool.noConfusion h⟩
  · rw [hres]
    exact ⟨⟨fun _ => hno, fun _ => rfl⟩, fun _ => ⟨rfl, rfl⟩⟩

/-- Instance of C8: every aligned group of four has a taken slot, so a four-byte
request fails although five slots are free. -/
theorem Flash_AllocateVar_fails_iff_witness :
    [0, 0, 1, 0, 0, 1, 0, 1].length = 8 ∧
    Flash_AllocateVar 0x80000 [0, 0, 1, 0, 0, 1, 0, 1] 77 4
      = (false, [0, 0, 1, 0, 0, 1, 0, 1], 77) ∧
    ¬ ∃ k : Nat, k % 4 = 0 ∧ k + 4 ≤ 8 ∧
        ∀ j, j < 4 → [0, 0, 1, 0, 0, 1, 0, 1].getD (k + j) 0 = 0 :=
  ⟨rfl, by decide,
    (Flash_AllocateVar_fails_iff 0x80000 [0, 0, 1, 0, 0, 1, 0, 1] 77 4 rfl
      (Or.inr (Or.inr rfl))).1.1 (by decide)⟩

/-! ## The phrase writer -/

/-- A table of eight entries, written out. -/
theorem eight_slots (l : List Nat) (h : l.length = 8) :
    ∃ a0 a1 a2 a3 a4 a5 a6 a7, l = [a0, a1, a2, a3, a4, a5, a6, a7] := by
  match l, h with
  | [a0, a1, a2, a3, a4, a5, a6, a7], _ => exact ⟨a0, a1, a2, a3, a4, a5, a6, a7, rfl⟩

theorem twelve_registers (l : List Nat) (h : l.length = 12) :
    ∃ r0 r1 r2 r3 r4 r5 r6 r7 r8 r9 r10 r11,
      l = [r0, r1, r2, r3, r4, r5, r6, r7, r8, r9, r10, r11] := by
  match l, h with
  | [r0, r1, r2, r3, r4, r5, r6, r7, r8, r9, r10, r11], _ =>
      exact ⟨r0, r1, r2, r3, r4, r5, r6, r7, r8, r9, r10, r11, rfl⟩

theorem byte_and_ones (x : Nat) : 255 &&& (x % 256) = x % 256 := by
  have h := Nat.and_pow_two_sub_one_eq_mod (x % 256) 8
  rw [Nat.land_comm] at h
  simpa using h

theorem byte_lor (x y : Nat) (hx : x < 256) (hy : y < 256) : x ||| y < 256 :=
  Nat.or_lt_two_pow (n := 8) hx hy

/-- One pass of the inner loop moves every byte one place down and puts 0 last. -/
theorem WritePhrase_shuffle_eight (a0 a1 a2 a3 a4 a5 a6 a7 : Nat) :
    WritePhrase_shuffle [a0, a1, a2, a3, a4, a5, a6, a7] = [a1, a2, a3, a4, a5, a6, a7, 0] := by
  simp [WritePhrase_shuffle, List.range, List.range.loop]

theorem WritePhrase_shuffle_isPhrase (l : List Nat) (h : IsPhrase l) :
    IsPhrase (WritePhrase_shuffle l) := by
  obtain ⟨a0, a1, a2, a3, a4, a5, a6, a7, rfl⟩ := eight_slots l h.1
  rw [WritePhrase_shuffle_eight]
  have hb := h.2
  simp only [List.mem_cons, List.mem_singleton, forall_eq_or_imp, forall_eq] at hb
  refine ⟨rfl, ?_⟩
  simp only [List.mem_cons, List.mem_singleton, forall_eq_or_imp, forall_eq]
  simp only [List.not_mem_nil, false_imp_iff, implies_true, and_true] at hb ⊢
  omega

theorem WritePhrase_shuffle_iterate_isPhrase (n : Nat) :
    ∀ l : List Nat, IsPhrase l → IsPhrase (Nat.iterate WritePhrase_shuffle n l) := by
  induction n with
  | zero => intro l h; exact h
  | succ n ih =>
      intro l h
      rw [Function.iterate_succ_apply]
      exact ih _ (WritePhrase_shuffle_isPhrase l h)

theorem WritePhrase_fill_isPhrase (Hi Lo : Nat) : IsPhrase (WritePhrase_fill Hi Lo) := by
  refine ⟨rfl, ?_⟩
  intro b hb
  simp only [WritePhrase_fill, List.mem_cons, List.mem_singleton, List.not_mem_nil,
    or_false] at hb
  rcases hb with rfl | rfl | rfl | rfl | rfl | rfl | rfl | rfl <;>
    exact Nat.mod_lt _ (by decide)

/-- The new image, when there is one, is eight bytes. -/
theorem WritePhrase_new_isPhrase (B address Hi Lo : Nat) (new : List Nat)
    (h : WritePhrase_new B address Hi Lo = some new) : IsPhrase new := by
  unfold WritePhrase_new at h
  split at h
  · cases h
  · split at h
    · cases h
      exact WritePhrase_shuffle_iterate_isPhrase _ _ (WritePhrase_fill_isPhrase Hi Lo)
    · cases h

theorem range_map_getD (l : List Nat) (h : l.length = 8) :
    (List.range 8).map (fun i => l.getD i 0) = l := by
  obtain ⟨a0, a1, a2, a3, a4, a5, a6, a7, rfl⟩ := eight_slots l h
  simp [List.range, List.range.loop]

/-- `LaunchCommand` returns true exactly when the status register shows the
previous command complete and neither error flag. -/
theorem LaunchCommand_accepts (hw : FTFE) (command : TFCCOB) :
    (LaunchCommand hw command).1 = true ↔
      hw.FSTAT &&& FTFE_FSTAT_CCIF_MASK ≠ 0 ∧ hw.FSTAT &&& FTFE_FSTAT_FPVIOL_MASK = 0 ∧
        hw.FSTAT &&& FTFE_FSTAT_ACCERR_MASK = 0 := by
  unfold LaunchCommand
  by_cases hc : hw.FSTAT &&& FTFE_FSTAT_CCIF_MASK ≠ 0
  · rw [if_pos hc]
    by_cases h1 : hw.FSTAT &&& FTFE_FSTAT_FPVIOL_MASK = 0 <;>
      by_cases h2 : hw.FSTAT &&& FTFE_FSTAT_ACCERR_MASK = 0 <;> simp [h1, h2, hc]
  · rw [if_neg hc]
    simp [hc]

/-- An accepted erase command leaves the phrase all ones. -/
theorem LaunchCommand_erase (hw : FTFE) (command : TFCCOB) (hF : hw.FCCOB.length = 12)
    (hc : command.commandByte = 0x09) (hacc : (LaunchCommand hw command).1 = true) :
    (LaunchCommand hw command).2.phrase = hw.phrase.map (fun _ => 0xFF) ∧
    (LaunchCommand hw command).2.FCCOB.length = 12 ∧
    (LaunchCommand hw command).2.FSTAT = hw.status.headD FTFE_FSTAT_CCIF_MASK := by
  obtain ⟨h0, h1, h2⟩ := (LaunchCommand_accepts hw command).1 hacc
  obtain ⟨r0, r1, r2, r3, r4, r5, r6, r7, r8, r9, r10, r11, hr⟩ := twelve_registers _ hF
  unfold LaunchCommand
  rw [if_pos h0]
  simp [h1, h2, hc, hr, FTFE_FSTAT_Write, FTFE_Execute, FTFE_FSTAT_CCIF_MASK]

/-- An accepted program command ANDs each byte of the phrase with the low eight
bits of the corresponding data byte of the command record. -/
theorem LaunchCommand_program (hw : FTFE) (command : TFCCOB) (hF : hw.FCCOB.length = 12)
    (hc : command.commandByte = 0x07) (hacc : (LaunchCommand hw command).1 = true) :
    (LaunchCommand hw command).2.phrase
      = List.zipWith (fun old new => old &&& new) hw.phrase
          [command.dataByte.getD 0 0 % 256, command.dataByte.getD 1 0 % 256,
           command.dataByte.getD 2 0 % 256, command.dataByte.getD 3 0 % 256,
           command.dataByte.getD 4 0 % 256, command.dataByte.getD 5 0 % 256,
           command.dataByte.getD 6 0 % 256, command.dataByte.getD 7 0 % 256] ∧
    (LaunchCommand hw command).2.FCCOB.length = 12 := by
  obtain ⟨h0, h1, h2⟩ := (LaunchCommand_accepts hw command).1 hacc
  obtain ⟨r0, r1, r2, r3, r4, r5, r6, r7, r8, r9, r10, r11, hr⟩ := twelve_registers _ hF
  unfold LaunchCommand
  rw [if_pos h0]
  simp [h1, h2, hc, hr, FTFE_FSTAT_Write, FTFE_Execute, FTFE_FSTAT_CCIF_MASK]

theorem WritePhrase_merge_isPhrase (phrase new : List Nat) (hp : IsPhrase phrase)
    (hn : IsPhrase new) : IsPhrase (WritePhrase_merge phrase new) := by
  unfold WritePhrase_merge
  split
  · exact hn
  · obtain ⟨a0, a1, a2, a3, a4, a5, a6, a7, rfl⟩ := eight_slots phrase hp.1
    obtain ⟨b0, b1, b2, b3, b4, b5, b6, b7, rfl⟩ := eight_slots new hn.1
    have ha := hp.2
    have hb := hn.2
    simp only [List.mem_cons, List.mem_singleton, forall_eq_or_imp, forall_eq,
      List.not_mem_nil, false_imp_iff, implies_true, and_true] at ha hb
    refine ⟨by simp, ?_⟩
    simp only [List.range, List.range.loop, List.map, List.getD_cons_zero, List.getD_cons_succ,
      List.mem_cons, List.mem_singleton, forall_eq_or_imp, forall_eq,
      List.not_mem_nil, false_imp_iff, implies_true, and_true]
    refine ⟨?_, ?_, ?_, ?_, ?_, ?_, ?_, ?_⟩ <;> apply byte_lor <;> omega

/-- The command record built by `WritePhrase`, given the new image. -/
theorem WritePhrase_command_eq (B : Nat) (phrase : List Nat) (address Hi Lo : Nat)
    (new : List Nat) (hnew : WritePhrase_new B address Hi Lo = some new) :
    WritePhrase_command B phrase address Hi Lo
      = some
          { commandByte := 0x07
            addressHi := (((B % 2 ^ 32) &&& 0xFF0000) >>> 16) % 256
            addressMed := (((B % 2 ^ 32) &&& 0xFF00) >>> 8) % 256
            addressLo := ((B % 2 ^ 32) &&& 0xFF) % 256
            dataByte := WritePhrase_merge phrase new } := by
  have hl := (WritePhrase_new_isPhrase B address Hi Lo new hnew).1
  have hold : ∀ i, i ∈ List.range 8 →
      ((List.range 8).map (fun i => phrase.getD i 0)).getD i 0 ||| new.getD i 0
        = phrase.getD i 0 ||| new.getD i 0 := by
    intro i hi
    rw [List.mem_range] at hi
    simp [List.getD_eq_getElem?_getD, List.getElem?_map, List.getElem?_range hi]
  unfold WritePhrase_command WritePhrase_merge
  rw [hnew]
  dsimp only
  rw [range_map_getD new hl, List.map_congr_left hold]

/-- A write that returns true leaves in the phrase the image handed to the
program command: the sector was erased and the image programmed onto it. -/
theorem WritePhrase_accepted (B : Nat) (hw : FTFE) (address Hi Lo : Nat) (hw2 : FTFE)
    (hwf : FTFE_WF hw) (h : WritePhrase B hw address Hi Lo = some (true, hw2)) :
    ∃ new, WritePhrase_new B address Hi Lo = some new ∧
      hw2.phrase = WritePhrase_merge hw.phrase new ∧ FTFE_WF hw2 := by
  cases hnew : WritePhrase_new B address Hi Lo with
  | none =>
      unfold WritePhrase WritePhrase_command at h
      rw [hnew] at h
      cases h
  | some new =>
      refine ⟨new, rfl, ?_⟩
      have hn := WritePhrase_new_isPhrase B address Hi Lo new hnew
      have hm := WritePhrase_merge_isPhrase hw.phrase new hwf.2 hn
      unfold WritePhrase at h
      rw [WritePhrase_command_eq B hw.phrase address Hi Lo new hnew] at h
      dsimp only at h
      cases he : (EraseSector hw (B % 2 ^ 32)).1 with
      | false =>
          rw [he] at h
          simp only [Bool.not_false, if_true, Option.some.injEq, Prod.mk.injEq,
            Bool.false_eq_true, false_and] at h
      | true =>
          rw [he] at h
          simp only [Bool.not_true, Bool.false_eq_true, if_false, Option.some.injEq] at h
          obtain ⟨e1, e2, -⟩ := LaunchCommand_erase hw _ hwf.1 rfl he
          have hacc : (LaunchCommand (EraseSector hw (B % 2 ^ 32)).2
              { commandByte := 0x07
                addressHi := (((B % 2 ^ 32) &&& 0xFF0000) >>> 16) % 256
                addressMed := (((B % 2 ^ 32) &&& 0xFF00) >>> 8) % 256
                addressLo := ((B % 2 ^ 32) &&& 0xFF) % 256
                dataByte := WritePhrase_merge hw.phrase new }).1 = true := by
            rw [h]
          obtain ⟨p1, p2⟩ := LaunchCommand_program (EraseSector hw (B % 2 ^ 32)).2 _ e2 rfl hacc
          rw [h] at p1 p2
          have hp : hw2.phrase = WritePhrase_merge hw.phrase new := by
            rw [p1]
            change (LaunchCommand hw _).2.phrase = _ at e1
            rw [show (EraseSector hw (B % 2 ^ 32)).2.phrase = hw.phrase.map (fun _ => 0xFF)
              from e1]
            obtain ⟨a0, a1, a2, a3, a4, a5, a6, a7, ha⟩ := eight_slots hw.phrase hwf.2.1
            obtain ⟨b0, b1, b2, b3, b4, b5, b6, b7, hb⟩ := eight_slots _ hm.1
            have hlt := hm.2
            rw [hb] at hlt ⊢
            simp only [List.mem_cons, List.mem_singleton, forall_eq_or_imp, forall_eq,
              List.not_mem_nil, false_imp_iff, implies_true, and_true] at hlt
            rw [ha]
            simp only [List.map, List.getD_cons_zero, List.getD_cons_succ, List.zipWith,
              byte_and_ones]
            obtain ⟨h0, h1, h2, h3, h4, h5, h6, h7⟩ := hlt
            rw [Nat.mod_eq_of_lt h0, Nat.mod_eq_of_lt h1, Nat.mod_eq_of_lt h2,
              Nat.mod_eq_of_lt h3, Nat.mod_eq_of_lt h4, Nat.mod_eq_of_lt h5,
              Nat.mod_eq_of_lt h6, Nat.mod_eq_of_lt h7]
          exact ⟨hp, p2, by rw [hp]; exact hm⟩

/-- C9: whenever `WritePhrase` has built its new image, the data bytes of the
command record it hands to `LaunchCommand` as the Program Phrase command (the
call made once the erase has been accepted) are the new image itself when the
phrase reads as all ones, and otherwise, byte by byte, the OR of the bytes read
from the phrase at the start of the call with the new image. -/
theorem WritePhrase_image (FLASH_DATA_START : Nat) (phrase : List Nat)
    (address Hi Lo : Nat) (flashPhraseNew : List Nat)
    (hnew : WritePhrase_new FLASH_DATA_START address Hi Lo = some flashPhraseNew) :
    ∃ command : TFCCOB,
      WritePhrase_command FLASH_DATA_START phrase address Hi Lo = some command ∧
      command.commandByte = 0x07 ∧
      command.dataByte.length = 8 ∧
      (FlashRead64 phrase = 0xFFFFFFFFFFFFFFFF → command.dataByte = flashPhraseNew) ∧
      (FlashRead64 phrase ≠ 0xFFFFFFFFFFFFFFFF →
        ∀ i, i < 8 →
          command.dataByte.getD i 0 = phrase.getD i 0 ||| flashPhraseNew.getD i 0) ∧
      (∀ hw : FTFE, hw.phrase = phrase →
        (EraseSector hw (FLASH_DATA_START % 2 ^ 32)).1 = true →
        WritePhrase FLASH_DATA_START hw address Hi Lo
          = some (LaunchCommand (EraseSector hw (FLASH_DATA_START % 2 ^ 32)).2 command)) := by
  have hc := WritePhrase_command_eq FLASH_DATA_START phrase address Hi Lo flashPhraseNew hnew
  have hl := (WritePhrase_new_isPhrase FLASH_DATA_START address Hi Lo flashPhraseNew hnew).1
  have hlen : (WritePhrase_merge phrase flashPhraseNew).length = 8 := by
    unfold WritePhrase_merge
    split
    · exact hl
    · simp
  have hones : FlashRead64 phrase = 0xFFFFFFFFFFFFFFFF →
      WritePhrase_merge phrase flashPhraseNew = flashPhraseNew := by
    intro h
    unfold WritePhrase_merge
    rw [if_pos h]
  have hor : FlashRead64 phrase ≠ 0xFFFFFFFFFFFFFFFF → ∀ i, i < 8 →
      (WritePhrase_merge phrase flashPhraseNew).getD i 0
        = phrase.getD i 0 ||| flashPhraseNew.getD i 0 := by
    intro h i hi
    unfold WritePhrase_merge
    rw [if_neg h]
    simp [List.getD_eq_getElem?_getD, List.getElem?_map, List.getElem?_range hi]
  refine ⟨_, hc, ?_, ?_, ?_, ?_, ?_⟩
  · dsimp only
  · dsimp only; exact hlen
  · dsimp only; exact hones
  · dsimp only; exact hor
  · intro hw hp he
    unfold WritePhrase
    rw [hp, hc]
    dsimp only
    rw [he]
    simp only [Bool.not_true, Bool.false_eq_true, if_false]

/-- Instance of C9: writing the byte 2 at offset 0 while the phrase holds
`01 00 .. 00` hands `03 00 .. 00` to the program command. -/
theorem WritePhrase_image_witness :
    WritePhrase_new 0x80000 0x80000 0 2 = some [2, 0, 0, 0, 0, 0, 0, 0] ∧
    FlashRead64 [1, 0, 0, 0, 0, 0, 0, 0] ≠ 0xFFFFFFFFFFFFFFFF ∧
    (WritePhrase_command 0x80000 [1, 0, 0, 0, 0, 0, 0, 0] 0x80000 0 2).map
        (fun command => command.dataByte) = some [3, 0, 0, 0, 0, 0, 0, 0] ∧
    ∃ command : TFCCOB,
      WritePhrase_command 0x80000 [1, 0, 0, 0, 0, 0, 0, 0] 0x80000 0 2 = some command ∧
      command.commandByte = 0x07 ∧
      command.dataByte.length = 8 ∧
      (FlashRead64 [1, 0, 0, 0, 0, 0, 0, 0] = 0xFFFFFFFFFFFFFFFF →
        command.dataByte = [2, 0, 0, 0, 0, 0, 0, 0]) ∧
      (FlashRead64 [1, 0, 0, 0, 0, 0, 0, 0] ≠ 0xFFFFFFFFFFFFFFFF →
        ∀ i, i < 8 →
          command.dataByte.getD i 0
            = [1, 0, 0, 0, 0, 0, 0, 0].getD i 0 ||| [2, 0, 0, 0, 0, 0, 0, 0].getD i 0) ∧
      (∀ hw : FTFE, hw.phrase = [1, 0, 0, 0, 0, 0, 0, 0] →
        (EraseSector hw (0x80000 % 2 ^ 32)).1 = true →
        WritePhrase 0x80000 hw 0x80000 0 2
          = some (LaunchCommand (EraseSector hw (0x80000 % 2 ^ 32)).2 command)) :=
  ⟨by decide, by decide, by decide,
    WritePhrase_image 0x80000 [1, 0, 0, 0, 0, 0, 0, 0] 0x80000 0 2 [2, 0, 0, 0, 0, 0, 0, 0]
      (by decide)⟩

/-- C10 as stated fails: on an erased phrase, `Flash_Write8` of 0x01 at offset 0
and then `Flash_Write8` of 0x02 at the same offset both return true, with no
`Flash_Erase` between them; the phrase holds `01 00 .. 00` after the first write
and `03 00 .. 00` after the second, so bit 1 of byte 0 goes from 0 to 1. -/
theorem Flash_write_sets_bit :
    (Flash_Write8 0x80000
        { FSTAT := 0x80, FCCOB := List.replicate 12 0, phrase := List.replicate 8 0xFF,
          launched := [], status := [] } 0x80000 0x01).map (fun r => (r.1, r.2.phrase))
      = some (true, [1, 0, 0, 0, 0, 0, 0, 0]) ∧
    ((Flash_Write8 0x80000
        { FSTAT := 0x80, FCCOB := List.replicate 12 0, phrase := List.replicate 8 0xFF,
          launched := [], status := [] } 0x80000 0x01).bind
        (fun r => Flash_Write8 0x80000 r.2 0x80000 0x02)).map (fun r => (r.1, r.2.phrase))
      = some (true, [3, 0, 0, 0, 0, 0, 0, 0]) ∧
    ¬ ∀ hw1 hw2 : FTFE,
        Flash_Write8 0x80000
            { FSTAT := 0x80, FCCOB := List.replicate 12 0, phrase := List.replicate 8 0xFF,
              launched := [], status := [] } 0x80000 0x01 = some (true, hw1) →
        Flash_Write8 0x80000 hw1 0x80000 0x02 = some (true, hw2) →
        ∀ i b, i < 8 → (hw1.phrase.getD i 0).testBit b = false →
          (hw2.phrase.getD i 0).testBit b = false := by
  refine ⟨by decide, by decide, ?_⟩
  intro h
  have := h
    { FSTAT := 0x80, FCCOB := [7, 8, 0, 0, 0, 0, 0, 1, 0, 0, 0, 0],
      phrase := [1, 0, 0, 0, 0, 0, 0, 0],
      launched := [[9, 8, 0, 0, 0, 0, 0, 0, 0, 0, 0, 0], [7, 8, 0, 0, 0, 0, 0, 1, 0, 0, 0, 0]],
      status := [] }
    { FSTAT := 0x80, FCCOB := [7, 8, 0, 0, 0, 0, 0, 3, 0, 0, 0, 0],
      phrase := [3, 0, 0, 0, 0, 0, 0, 0],
      launched := [[9, 8, 0, 0, 0, 0, 0, 0, 0, 0, 0, 0], [7, 8, 0, 0, 0, 0, 0, 1, 0, 0, 0, 0],
        [9, 8, 0, 0, 0, 0, 0, 1, 0, 0, 0, 0], [7, 8, 0, 0, 0, 0, 0, 3, 0, 0, 0, 0]],
      status := [] }
    (by decide) (by decide) 0 1 (by decide) (by decide)
  revert this
  decide

/-- C10 amended: for two successive Flash writes that both return true, with
nothing between them, the phrase after the second write is the second write's
new image when the phrase read as all ones after the first write, and otherwise
the bytewise OR of the phrase after the first write with that new image; so a
bit that was 0 after the first write is still 0 after the second whenever the new
image has 0 at that bit (and is 1 when the new image has 1 there). -/
theorem Flash_write_merges (FLASH_DATA_START : Nat) (hw0 hw1 hw2 : FTFE)
    (address1 data1 address2 data2 : Nat) (hwf : FTFE_WF hw0)
    (h1 : Flash_Write8 FLASH_DATA_START hw0 address1 data1 = some (true, hw1) ∨
      Flash_Write16 FLASH_DATA_START hw0 address1 data1 = some (true, hw1) ∨
      Flash_Write32 FLASH_DATA_START hw0 address1 data1 = some (true, hw1))
    (h2 : Flash_Write8 FLASH_DATA_START hw1 address2 data2 = some (true, hw2) ∨
      Flash_Write16 FLASH_DATA_START hw1 address2 data2 = some (true, hw2) ∨
      Flash_Write32 FLASH_DATA_START hw1 address2 data2 = some (true, hw2)) :
    ∃ flashPhraseNew : List Nat,
      WritePhrase_new FLASH_DATA_START (address2 % 2 ^ 32) 0 data2 = some flashPhraseNew ∧
      (FlashRead64 hw1.phrase = 0xFFFFFFFFFFFFFFFF → hw2.phrase = flashPhraseNew) ∧
      (FlashRead64 hw1.phrase ≠ 0xFFFFFFFFFFFFFFFF →
        ∀ i, i < 8 →
          hw2.phrase.getD i 0 = hw1.phrase.getD i 0 ||| flashPhraseNew.getD i 0) ∧
      (∀ i b, i < 8 → (hw1.phrase.getD i 0).testBit b = false →
        (flashPhraseNew.getD i 0).testBit b = false →
        (hw2.phrase.getD i 0).testBit b = false) ∧
      (∀ i b, i < 8 → (hw1.phrase.getD i 0).testBit b = false →
        (flashPhraseNew.getD i 0).testBit b = true →
        (hw2.phrase.getD i 0).testBit b = true) := by
  have w1 : WritePhrase FLASH_DATA_START hw0 (address1 % 2 ^ 32) 0 data1 = some (true, hw1) := by
    rcases h1 with h | h | h <;> exact h
  have w2 : WritePhrase FLASH_DATA_START hw1 (address2 % 2 ^ 32) 0 data2 = some (true, hw2) := by
    rcases h2 with h | h | h <;> exact h
  obtain ⟨_, _, _, hwf1⟩ := WritePhrase_accepted _ _ _ _ _ _ hwf w1
  obtain ⟨new, hnew, hp, -⟩ := WritePhrase_accepted _ _ _ _ _ _ hwf1 w2
  have hones : FlashRead64 hw1.phrase = 0xFFFFFFFFFFFFFFFF → hw2.phrase = new := by
    intro h; rw [hp]; unfold WritePhrase_merge; rw [if_pos h]
  have hor : FlashRead64 hw1.phrase ≠ 0xFFFFFFFFFFFFFFFF → ∀ i, i < 8 →
      hw2.phrase.getD i 0 = hw1.phrase.getD i 0 ||| new.getD i 0 := by
    intro h i hi
    rw [hp]; unfold WritePhrase_merge; rw [if_neg h]
    simp [List.getD_eq_getElem?_getD, List.getElem?_map, List.getElem?_range hi]
  refine ⟨new, hnew, hones, hor, ?_, ?_⟩
  · intro i b hi hb hn
    by_cases h : FlashRead64 hw1.phrase = 0xFFFFFFFFFFFFFFFF
    · rw [hones h]; exact hn
    · rw [hor h i hi, Nat.testBit_lor, hb, hn]; rfl
  · intro i b hi _ hn
    by_cases h : FlashRead64 hw1.phrase = 0xFFFFFFFFFFFFFFFF
    · rw [hones h]; exact hn
    · rw [hor h i hi, Nat.testBit_lor, hn]; simp

/-- Instance of C10 amended: the two writes of the counterexample; the phrase
goes from `01 00 .. 00` to `03 00 .. 00`. -/
theorem Flash_write_merges_witness :
    FTFE_WF { FSTAT := 0x80, FCCOB := List.replicate 12 0, phrase := List.replicate 8 0xFF,
              launched := [], status := [] } ∧
    ∃ flashPhraseNew : List Nat,
      WritePhrase_new 0x80000 (0x80000 % 2 ^ 32) 0 0x02 = some flashPhraseNew ∧
      (FlashRead64 [1, 0, 0, 0, 0, 0, 0, 0] = 0xFFFFFFFFFFFFFFFF →
        [3, 0, 0, 0, 0, 0, 0, 0] = flashPhraseNew) ∧
      (FlashRead64 [1, 0, 0, 0, 0, 0, 0, 0] ≠ 0xFFFFFFFFFFFFFFFF →
        ∀ i, i < 8 →
          [3, 0, 0, 0, 0, 0, 0, 0].getD i 0
            = [1, 0, 0, 0, 0, 0, 0, 0].getD i 0 ||| flashPhraseNew.getD i 0) ∧
      (∀ i b, i < 8 → ([1, 0, 0, 0, 0, 0, 0, 0].getD i 0).testBit b = false →
        (flashPhraseNew.getD i 0).testBit b = false →
        ([3, 0, 0, 0, 0, 0, 0, 0].getD i 0).testBit b = false) ∧
      (∀ i b, i < 8 → ([1, 0, 0, 0, 0, 0, 0, 0].getD i 0).testBit b = false →
        (flashPhraseNew.getD i 0).testBit b = true →
        ([3, 0, 0, 0, 0, 0, 0, 0].getD i 0).testBit b = true) :=
  ⟨by decide,
    Flash_write_merges 0x80000
      { FSTAT := 0x80, FCCOB := List.replicate 12 0, phrase := List.replicate 8 0xFF,
        launched := [], status := [] }
      { FSTAT := 0x80, FCCOB := [7, 8, 0, 0, 0, 0, 0, 1, 0, 0, 0, 0],
        phrase := [1, 0, 0, 0, 0, 0, 0, 0],
        launched := [[9, 8, 0, 0, 0, 0, 0, 0, 0, 0, 0, 0],
          [7, 8, 0, 0, 0, 0, 0, 1, 0, 0, 0, 0]],
        status := [] }
      { FSTAT := 0x80, FCCOB := [7, 8, 0, 0, 0, 0, 0, 3, 0, 0, 0, 0],
        phrase := [3, 0, 0, 0, 0, 0, 0, 0],
        launched := [[9, 8, 0, 0, 0, 0, 0, 0, 0, 0, 0, 0],
          [7, 8, 0, 0, 0, 0, 0, 1, 0, 0, 0, 0], [9, 8, 0, 0, 0, 0, 0, 1, 0, 0, 0, 0],
          [7, 8, 0, 0, 0, 0, 0, 3, 0, 0, 0, 0]],
        status := [] }
      0x80000 0x01 0x80000 0x02 (by decide) (Or.inl (by decide)) (Or.inl (by decide))⟩

/-! ## The phrase writer: image placement and command sequence -/

/-- C11 fails on the code.  For the value 0 (here `Flash_Write8` at offset 0,
and the image construction for it) the scan for the first non-zero byte leaves
the array and no image is built.  For a value whose upper bytes are zero the
scan stops at the first non-zero byte, so the value is shifted too far: the
32-bit value 0x00000102 written at offset 4 gives `01 02 00 00` at offsets
4..7, and the 16-bit value 0x0001 written at offset 2 gives `01 00` at offsets
2..3, where the bytes of the value as the code lays them out are `00 00 01 02`
and `00 01`. -/
theorem WritePhrase_new_leading_zero :
    WritePhrase_new 0x80000 0x80000 0 0 = none ∧
    Flash_Write8 0x80000
        { FSTAT := 0x80, FCCOB := List.replicate 12 0, phrase := List.replicate 8 0xFF,
          launched := [], status := [] } 0x80000 0 = none ∧
    WritePhrase_fill 0 0x00000102 = [0, 0, 0, 0, 0, 0, 1, 2] ∧
    WritePhrase_new 0x80000 0x80004 0 0x00000102 = some [0, 0, 0, 0, 1, 2, 0, 0] ∧
    WritePhrase_fill 0 0x0001 = [0, 0, 0, 0, 0, 0, 0, 1] ∧
    WritePhrase_new 0x80000 0x80002 0 0x0001 = some [0, 0, 1, 0, 0, 0, 0, 0] := by
  decide

theorem I2C_Transmitted_append (a b : List I2C_Op) :
    I2C_Transmitted (a ++ b) = I2C_Transmitted a ++ I2C_Transmitted b := by
  induction a with
  | nil => rfl
  | cons op a ih => cases op <;> simp [I2C_Transmitted, ih]

theorem I2C_Stores_append (a b : List I2C_Op) :
    I2C_Stores (a ++ b) = I2C_Stores a ++ I2C_Stores b := by
  induction a with
  | nil => rfl
  | cons op a ih => cases op <;> simp [I2C_Stores, ih]

/-- The two cached addresses for a seven-bit slave address. -/
theorem I2C_Select_values :
    ∀ a, a < 128 →
      ((a <<< 1) % 256) &&& (0xFF ^^^ 0x1) = 2 * a ∧ ((a <<< 1) % 256) ||| 0x1 = 2 * a + 1 ∧
      (2 * a) ^^^ (2 * a + 1) = 1 ∧ (2 * a).testBit 0 = false ∧ (2 * a + 1).testBit 0 = true := by
  decide

/-- Clearing the master-mode bit leaves it clear. -/
theorem I2C_MST_cleared (c : Nat) : (c &&& (0xFF ^^^ I2C_C1_MST_MASK)) &&& I2C_C1_MST_MASK = 0 := by
  rw [Nat.land_assoc]
  have : (0xFF ^^^ I2C_C1_MST_MASK) &&& I2C_C1_MST_MASK = 0 := by decide
  rw [this, Nat.and_zero]

/-- The trace of `I2C_Write`: start, transmit mode, the bytes transmitted up to
the first one that is not acknowledged, each followed by the clearing of the
interrupt flag, and the stop condition. -/
theorem I2C_Write_ops (s : I2C) (registerAddress data : Nat) :
    (I2C_Write s registerAddress data).ops
      = s.ops ++ [I2C_Op.C1_or I2C_C1_MST_MASK, I2C_Op.C1_or I2C_C1_TX_MASK] ++
          (([s.SlaveAddressWrite % 256, registerAddress % 256, data % 256].take
            (if s.rxak.headD false then 1 else if s.rxak.tail.headD false then 2 else 3)).map
            (fun v => [I2C_Op.D_write v, I2C_Op.S_or I2C_S_IICIF_MASK])).flatten ++
          [I2C_Op.C1_andnot I2C_C1_MST_MASK] ∧
    (I2C_Write s registerAddress data).SlaveAddressWrite = s.SlaveAddressWrite ∧
    (I2C_Write s registerAddress data).SlaveAddressRead = s.SlaveAddressRead := by
  rcases hr : s.rxak with _ | ⟨b0, _ | ⟨b1, _ | ⟨b2, rest⟩⟩⟩ <;>
    simp [I2C_Write, I2C_Write_loop, I2C_C1_Set, I2C_C1_Clear, I2C_S_Set, I2C_D_Write,
      I2C_S_RXAK, hr] <;>
    (try cases b0) <;> (try cases b1) <;> (try cases b2) <;> simp

/-- The bytes `I2C_Write` transmits. -/
theorem I2C_Write_transmitted (s : I2C) (registerAddress data : Nat) :
    I2C_Transmitted (I2C_Write s registerAddress data).ops
      = I2C_Transmitted s.ops ++
          [s.SlaveAddressWrite % 256, registerAddress % 256, data % 256].take
            (if s.rxak.headD false then 1 else if s.rxak.tail.headD false then 2 else 3) := by
  rw [(I2C_Write_ops s registerAddress data).1]
  have hm : (if s.rxak.headD false then 1 else if s.rxak.tail.headD false then 2 else 3) = 1 ∨
      (if s.rxak.headD false then 1 else if s.rxak.tail.headD false then 2 else 3) = 2 ∨
      (if s.rxak.headD false then 1 else if s.rxak.tail.headD false then 2 else 3) = 3 := by
    split_ifs <;> simp
  generalize (if s.rxak.headD false then 1 else if s.rxak.tail.headD false then 2 else 3) = m
    at hm
  simp only [I2C_Transmitted_append]
  rcases hm with rfl | rfl | rfl <;> simp [I2C_Transmitted]

/-- C14: for every acknowledge pattern, `I2C_Write` transmits the first `m` of
the three bytes write-address, register address, data, where `m` is the position
of the first byte that is not acknowledged (3 if the first two are
acknowledged): nothing is transmitted after a missing acknowledge; and on every
path the last access of the call clears the master-mode bit, which is clear
afterwards. -/
theorem I2C_Write_until_nak (s : I2C) (registerAddress data : Nat) :
    I2C_Transmitted (I2C_Write s registerAddress data).ops
      = I2C_Transmitted s.ops ++
          [s.SlaveAddressWrite % 256, registerAddress % 256, data % 256].take
            (if s.rxak.headD false then 1 else if s.rxak.tail.headD false then 2 else 3) ∧
    (I2C_Write s registerAddress data).ops
      = s.ops ++ [I2C_Op.C1_or I2C_C1_MST_MASK, I2C_Op.C1_or I2C_C1_TX_MASK] ++
          (([s.SlaveAddressWrite % 256, registerAddress % 256, data % 256].take
            (if s.rxak.headD false then 1 else if s.rxak.tail.headD false then 2 else 3)).map
            (fun v => [I2C_Op.D_write v, I2C_Op.S_or I2C_S_IICIF_MASK])).flatten ++
          [I2C_Op.C1_andnot I2C_C1_MST_MASK] ∧
    (I2C_Write s registerAddress data).ops.getLast? = some (I2C_Op.C1_andnot I2C_C1_MST_MASK) ∧
    (I2C_Write s registerAddress data).C1 &&& I2C_C1_MST_MASK = 0 := by
  have hops := (I2C_Write_ops s registerAddress data).1
  refine ⟨I2C_Write_transmitted s registerAddress data, hops, ?_, ?_⟩
  · rw [hops, List.getLast?_append]
    rfl
  · have hC : (I2C_Write s registerAddress data).C1
        = (I2C_Write_loop registerAddress data 3 0
            (I2C_C1_Set (I2C_C1_Set s I2C_C1_MST_MASK) I2C_C1_TX_MASK)).C1
          &&& (0xFF ^^^ I2C_C1_MST_MASK) := rfl
    rw [hC]
    exact I2C_MST_cleared _

/-- The master-mode bit of a control register value is its bit 5. -/
theorem I2C_MST_iff (c : Nat) : c &&& I2C_C1_MST_MASK ≠ 0 ↔ c.testBit 5 = true := by
  constructor
  · intro h
    obtain ⟨i, hi⟩ := Nat.ne_zero_implies_bit_true h
    rw [Nat.testBit_and] at hi
    have h2 : (I2C_C1_MST_MASK).testBit i = true := by
      cases hb : (I2C_C1_MST_MASK).testBit i
      · rw [hb] at hi; simp at hi
      · rfl
    have h5 : i = 5 := by
      have : I2C_C1_MST_MASK = 2 ^ 5 := by decide
      rw [this, Nat.testBit_two_pow] at h2
      simp at h2
      exact h2.symm
    subst h5
    cases hc : c.testBit 5
    · rw [hc] at hi; simp at hi
    · rfl
  · intro h hz
    have : (c &&& I2C_C1_MST_MASK).testBit 5 = true := by
      rw [Nat.testBit_and, h]; decide
    rw [hz] at this
    simp at this

/-- With the three address phases acknowledged, the loop of `I2C_PollRead`
reaches its read part after transmitting the write address, the register
address and, after the repeated start, the read address. -/
theorem I2C_PollRead_address (registerAddress nbBytes fuel : Nat) (s : I2C) (data : List Nat)
    (hack : I2C_Acked s) :
    I2C_PollRead_loop registerAddress nbBytes (fuel + 3) 0 s data
      = I2C_PollRead_loop registerAddress nbBytes fuel 3
          { s with
              C1 := (s.C1 &&& (0xFF ^^^ I2C_C1_TX_MASK)) ||| I2C_C1_RSTA_MASK
              ops := s.ops ++
                [I2C_Op.D_write (s.SlaveAddressWrite % 256), I2C_Op.S_or I2C_S_IICIF_MASK,
                 I2C_Op.D_write (registerAddress % 256), I2C_Op.S_or I2C_S_IICIF_MASK,
                 I2C_Op.C1_andnot I2C_C1_TX_MASK, I2C_Op.C1_or I2C_C1_RSTA_MASK,
                 I2C_Op.D_write (s.SlaveAddressRead % 256), I2C_Op.S_or I2C_S_IICIF_MASK]
              rxak := s.rxak.tail.tail.tail }
          data := by
  obtain ⟨h0, h1, h2⟩ := hack
  rcases hr : s.rxak with _ | ⟨b0, _ | ⟨b1, _ | ⟨b2, rest⟩⟩⟩ <;>
    simp [hr] at h0 h1 h2 <;>
    simp [I2C_PollRead_loop, I2C_PollRead_switch, I2C_S_RXAK, I2C_S_Set, I2C_D_Write,
      I2C_C1_Set, I2C_C1_Clear, hr, h0, h1, h2]

/-- The read part of the loop of `I2C_PollRead`, for a request of at most 252
bytes: with `m` bytes still to read from byte `k` on, the loop is left after `m`
more iterations, having made exactly the accesses `I2C_Read_ops` and stored the
successive values of the data register; the master-mode bit is clear afterwards
when at least one byte was read. -/
theorem I2C_PollRead_read (registerAddress n : Nat) (hn : n ≤ 252) :
    ∀ (m k fuel : Nat) (s : I2C) (data : List Nat), k + m = n → m ≤ fuel →
      ∃ c : Nat,
        I2C_PollRead_loop registerAddress n (fuel + 1) (k + 3) s data
          = (true,
              { s with
                  C1 := c
                  ops := s.ops ++ I2C_Read_ops n m k s.rx
                  rx := s.rx.drop m },
              I2C_Read_data m k s.rx data) ∧
        (0 < m → c &&& I2C_C1_MST_MASK = 0) ∧ (m = 0 → c = s.C1) := by
  intro m
  induction m with
  | zero =>
      intro k fuel s data hk _
      refine ⟨s.C1, ?_, fun h => absurd h (by omega), fun _ => rfl⟩
      have hk2 : ¬ k + 3 < n + 3 := by omega
      rw [I2C_PollRead_loop, if_neg hk2]
      simp [I2C_Read_ops, I2C_Read_data]
  | succ m ih =>
      intro k fuel s data hk hf
      obtain ⟨f, rfl⟩ : ∃ f, fuel = f + 1 := ⟨fuel - 1, by omega⟩
      have h1 : k + 3 < n + 3 := by omega
      have h2 : ¬ k + 3 < 3 := by omega
      have h3 : (k + 3 + 1) % 256 = (k + 1) + 3 := by
        rw [Nat.mod_eq_of_lt (by omega)]
      rw [I2C_PollRead_loop, if_pos h1]
      simp only [h2, if_false, h3]
      have hsw : I2C_PollRead_switch registerAddress n (k + 3) s data
          = ({ s with
                C1 := (if k + 2 = n then s.C1 ||| I2C_C1_TXAK_MASK
                  else if k + 1 = n then s.C1 &&& (0xFF ^^^ I2C_C1_MST_MASK)
                  else s.C1 &&& (0xFF ^^^ I2C_C1_TXAK_MASK))
                ops := s.ops ++ [I2C_Read_control n k, I2C_Op.store k (s.rx.headD 0)]
                rx := s.rx.tail },
              data.set k (s.rx.headD 0)) := by
        have e0 : ¬ k + 3 = 0 := by omega
        have e1 : ¬ k + 3 = 1 := by omega
        have e2 : ¬ k + 3 = 2 := by omega
        have c1 : (k + 3 = n + 1) ↔ (k + 2 = n) := by omega
        have c2 : (k + 3 = n + 2) ↔ (k + 1 = n) := by omega
        unfold I2C_PollRead_switch I2C_Read_control
        rw [if_neg e0, if_neg e1, if_neg e2]
        simp only [Nat.add_sub_cancel, c1, c2]
        by_cases ha : k + 2 = n
        · simp only [ha, if_true, I2C_C1_Set, I2C_D_Read]
          simp
        · by_cases hb : k + 1 = n
          · simp only [ha, hb, if_true, if_false, I2C_C1_Clear, I2C_D_Read]
            simp
          · simp only [ha, hb, if_false, I2C_C1_Clear, I2C_D_Read]
            simp
      rw [hsw]
      obtain ⟨c, hc, hpos, hzero⟩ := ih (k + 1) f
        (I2C_S_Set { s with
                C1 := (if k + 2 = n then s.C1 ||| I2C_C1_TXAK_MASK
                  else if k + 1 = n then s.C1 &&& (0xFF ^^^ I2C_C1_MST_MASK)
                  else s.C1 &&& (0xFF ^^^ I2C_C1_TXAK_MASK))
                ops := s.ops ++ [I2C_Read_control n k, I2C_Op.store k (s.rx.headD 0)]
                rx := s.rx.tail } I2C_S_IICIF_MASK)
        (data.set k (s.rx.headD 0)) (by omega) (by omega)
      refine ⟨c, ?_, ?_, fun h => absurd h (by omega)⟩
      · rw [hc]
        simp [I2C_S_Set, I2C_Read_ops, I2C_Read_data, List.append_assoc]
      · intro _
        by_cases hm : m = 0
        · rw [hzero hm]
          have hb : k + 1 = n := by omega
          have ha : ¬ k + 2 = n := by omega
          simp only [I2C_S_Set, ha, hb, if_false, if_true]
          exact I2C_MST_cleared _
        · exact hpos (by omega)

/-- The whole of `I2C_PollRead` for a request of at most 252 bytes whose
address phases are acknowledged: the call returns, and its trace is the start
condition, the three address bytes and the read accesses. -/
theorem I2C_PollRead_acked (fuel : Nat) (s : I2C) (registerAddress : Nat) (data : List Nat)
    (n : Nat) (hn : n ≤ 252) (hf : n ≤ fuel) (hack : I2C_Acked s) :
    ∃ c : Nat,
      I2C_PollRead (fuel + 4) s registerAddress data n
        = (true,
            { s with
                C1 := c
                ops := s.ops ++
                  [I2C_Op.C1_or I2C_C1_MST_MASK, I2C_Op.C1_or I2C_C1_TX_MASK,
                   I2C_Op.D_write (s.SlaveAddressWrite % 256), I2C_Op.S_or I2C_S_IICIF_MASK,
                   I2C_Op.D_write (registerAddress % 256), I2C_Op.S_or I2C_S_IICIF_MASK,
                   I2C_Op.C1_andnot I2C_C1_TX_MASK, I2C_Op.C1_or I2C_C1_RSTA_MASK,
                   I2C_Op.D_write (s.SlaveAddressRead % 256), I2C_Op.S_or I2C_S_IICIF_MASK] ++
                  I2C_Read_ops n n 0 s.rx
                rxak := s.rxak.tail.tail.tail
                rx := s.rx.drop n },
            I2C_Read_data n 0 s.rx data) ∧
      (0 < n → c &&& I2C_C1_MST_MASK = 0) := by
  unfold I2C_PollRead
  have hack2 : I2C_Acked (I2C_C1_Set (I2C_C1_Set s I2C_C1_MST_MASK) I2C_C1_TX_MASK) := hack
  have e : fuel + 4 = (fuel + 1) + 3 := by omega
  rw [e, I2C_PollRead_address registerAddress n (fuel + 1) _ data hack2]
  obtain ⟨c, hc, hpos, -⟩ := I2C_PollRead_read registerAddress n hn n 0 fuel
    { (I2C_C1_Set (I2C_C1_Set s I2C_C1_MST_MASK) I2C_C1_TX_MASK) with
        C1 := ((I2C_C1_Set (I2C_C1_Set s I2C_C1_MST_MASK) I2C_C1_TX_MASK).C1
          &&& (0xFF ^^^ I2C_C1_TX_MASK)) ||| I2C_C1_RSTA_MASK
        ops := (I2C_C1_Set (I2C_C1_Set s I2C_C1_MST_MASK) I2C_C1_TX_MASK).ops ++
          [I2C_Op.D_write
             ((I2C_C1_Set (I2C_C1_Set s I2C_C1_MST_MASK) I2C_C1_TX_MASK).SlaveAddressWrite % 256),
           I2C_Op.S_or I2C_S_IICIF_MASK,
           I2C_Op.D_write (registerAddress % 256), I2C_Op.S_or I2C_S_IICIF_MASK,
           I2C_Op.C1_andnot I2C_C1_TX_MASK, I2C_Op.C1_or I2C_C1_RSTA_MASK,
           I2C_Op.D_write
             ((I2C_C1_Set (I2C_C1_Set s I2C_C1_MST_MASK) I2C_C1_TX_MASK).SlaveAddressRead % 256),
           I2C_Op.S_or I2C_S_IICIF_MASK]
        rxak := (I2C_C1_Set (I2C_C1_Set s I2C_C1_MST_MASK) I2C_C1_TX_MASK).rxak.tail.tail.tail }
    data (by omega) hf
  refine ⟨c, ?_, hpos⟩
  have e0 : (0 : Nat) + 3 = 3 := rfl
  rw [e0] at hc
  rw [hc]
  simp [I2C_C1_Set, List.append_assoc]

/-- One pass through the `switch` of `I2C_PollRead` for a request of 254 or 255
bytes: the counter never equals `nbBytes + 2`, so no stop condition is issued,
and a store goes to index `i - 3`, at most 252. -/
theorem I2C_PollRead_switch_wraps (registerAddress n i : Nat) (s : I2C) (data : List Nat)
    (hn : 254 ≤ n) (hi : i < 256) :
    (I2C_PollRead_switch registerAddress n i s data).1.rxak = s.rxak ∧
    ∃ added : List I2C_Op,
      (I2C_PollRead_switch registerAddress n i s data).1.ops = s.ops ++ added ∧
      ∀ op, op ∈ added → I2C_NoStop op := by
  unfold I2C_PollRead_switch
  by_cases e0 : i = 0
  · rw [if_pos e0]
    refine ⟨rfl, [I2C_Op.D_write (s.SlaveAddressWrite % 256)], rfl, ?_⟩
    intro op hop
    simp only [List.mem_singleton] at hop
    subst hop
    exact ⟨by simp, by simp⟩
  · rw [if_neg e0]
    by_cases e1 : i = 1
    · rw [if_pos e1]
      refine ⟨rfl, [I2C_Op.D_write (registerAddress % 256)], rfl, ?_⟩
      intro op hop
      simp only [List.mem_singleton] at hop
      subst hop
      exact ⟨by simp, by simp⟩
    · rw [if_neg e1]
      by_cases e2 : i = 2
      · rw [if_pos e2]
        refine ⟨rfl, [I2C_Op.C1_andnot I2C_C1_TX_MASK, I2C_Op.C1_or I2C_C1_RSTA_MASK,
          I2C_Op.D_write (s.SlaveAddressRead % 256)], by simp [I2C_D_Write, I2C_C1_Set,
            I2C_C1_Clear], ?_⟩
        intro op hop
        simp only [List.mem_cons, List.mem_singleton, List.not_mem_nil, or_false] at hop
        rcases hop with rfl | rfl | rfl
        · exact ⟨by decide, by simp⟩
        · exact ⟨by simp, by simp⟩
        · exact ⟨by simp, by simp⟩
      · rw [if_neg e2]
        have hstop : ¬ i = n + 2 := by omega
        by_cases ha : i = n + 1
        · refine ⟨by simp [ha, I2C_C1_Set, I2C_D_Read],
            [I2C_Op.C1_or I2C_C1_TXAK_MASK, I2C_Op.store (i - 3) (s.rx.headD 0)],
            by simp [ha, I2C_C1_Set, I2C_D_Read], ?_⟩
          intro op hop
          simp only [List.mem_cons, List.mem_singleton, List.not_mem_nil, or_false] at hop
          rcases hop with rfl | rfl
          · exact ⟨by simp, by simp⟩
          · refine ⟨by simp, ?_⟩
            intro j v h
            cases h
            omega
        · refine ⟨by simp [ha, hstop, I2C_C1_Clear, I2C_D_Read],
            [I2C_Op.C1_andnot I2C_C1_TXAK_MASK, I2C_Op.store (i - 3) (s.rx.headD 0)],
            by simp [ha, hstop, I2C_C1_Clear, I2C_D_Read], ?_⟩
          intro op hop
          simp only [List.mem_cons, List.mem_singleton, List.not_mem_nil, or_false] at hop
          rcases hop with rfl | rfl
          · exact ⟨by decide, by simp⟩
          · refine ⟨by simp, ?_⟩
            intro j v h
            cases h
            omega

/-- For a request of 254 or 255 bytes whose address phases are always
acknowledged, the loop of `I2C_PollRead` is never left: its eight-bit counter
wraps to 0 before it reaches `nbBytes + 3`.  However long the loop is followed,
it has issued no stop condition and stored nothing above index 252. -/
theorem I2C_PollRead_loop_wraps (registerAddress n : Nat) (hn : 254 ≤ n) :
    ∀ (fuel i : Nat) (s : I2C) (data : List Nat), i < 256 → (∀ b, b ∈ s.rxak → b = false) →
      (I2C_PollRead_loop registerAddress n fuel i s data).1 = false ∧
      ∀ op, op ∈ (I2C_PollRead_loop registerAddress n fuel i s data).2.1.ops →
        op ∈ s.ops ∨ I2C_NoStop op := by
  intro fuel
  induction fuel with
  | zero =>
      intro i s data _ _
      exact ⟨rfl, fun op h => Or.inl h⟩
  | succ fuel ih =>
      intro i s data hi hack
      have h1 : i < n + 3 := by omega
      have hnext : (i + 1) % 256 < 256 := Nat.mod_lt _ (by decide)
      obtain ⟨hrx, added, hops, hgood⟩ :=
        I2C_PollRead_switch_wraps registerAddress n i s data hn hi
      rw [I2C_PollRead_loop, if_pos h1]
      dsimp only
      have hmem : ∀ op,
          op ∈ (I2C_S_Set (I2C_PollRead_switch registerAddress n i s data).1
            I2C_S_IICIF_MASK).ops → op ∈ s.ops ∨ I2C_NoStop op := by
        intro op hop
        simp only [I2C_S_Set, hops, List.mem_append, List.mem_singleton] at hop
        rcases hop with (h | h) | h
        · exact Or.inl h
        · exact Or.inr (hgood op h)
        · subst h
          exact Or.inr ⟨by simp, by simp⟩
      by_cases h3 : i < 3
      · rw [if_pos h3]
        have hhead : (I2C_S_RXAK (I2C_S_Set (I2C_PollRead_switch registerAddress n i s data).1
            I2C_S_IICIF_MASK)).1 = false := by
          simp only [I2C_S_RXAK, I2C_S_Set, hrx]
          cases hs : s.rxak with
          | nil => rfl
          | cons b t => exact hack b (by simp [hs])
        rw [hhead]
        simp only [Bool.false_eq_true, if_false]
        have htail : ∀ b, b ∈ (I2C_S_RXAK (I2C_S_Set
            (I2C_PollRead_switch registerAddress n i s data).1 I2C_S_IICIF_MASK)).2.rxak →
            b = false := by
          intro b hb
          simp only [I2C_S_RXAK, I2C_S_Set, hrx] at hb
          exact hack b (List.mem_of_mem_tail hb)
        obtain ⟨r1, r2⟩ := ih ((i + 1) % 256) _
          (I2C_PollRead_switch registerAddress n i s data).2 hnext htail
        refine ⟨r1, ?_⟩
        intro op hop
        rcases r2 op hop with h | h
        · exact hmem op h
        · exact Or.inr h
      · rw [if_neg h3]
        have hack2 : ∀ b, b ∈ (I2C_S_Set (I2C_PollRead_switch registerAddress n i s data).1
            I2C_S_IICIF_MASK).rxak → b = false := by
          intro b hb
          simp only [I2C_S_Set, hrx] at hb
          exact hack b hb
        obtain ⟨r1, r2⟩ := ih ((i + 1) % 256) _
          (I2C_PollRead_switch registerAddress n i s data).2 hnext hack2
        refine ⟨r1, ?_⟩
        intro op hop
        rcases r2 op hop with h | h
        · exact hmem op h
        · exact Or.inr h

/-- C15 fails on the code for a request of 254 bytes (the same defect as in
C16): with every address phase acknowledged, `I2C_PollRead` never returns,
however many iterations of its loop are followed, and it never stores to index
253 of the caller's array, the last of the 254 bytes requested. -/
theorem I2C_PollRead_254_never_stores_last (fuel : Nat) :
    (I2C_PollRead fuel (I2C.mk 0x80 0x1D 0x3A 0x3B 0 [] 0 [] [] []) 0x01
        (List.replicate 254 0) 254).1 = false ∧
    ∀ v, I2C_Op.store 253 v ∉
      (I2C_PollRead fuel (I2C.mk 0x80 0x1D 0x3A 0x3B 0 [] 0 [] [] []) 0x01
        (List.replicate 254 0) 254).2.1.ops := by
  obtain ⟨h1, h2⟩ := I2C_PollRead_loop_wraps 0x01 254 (by decide) fuel 0
    (I2C_C1_Set (I2C_C1_Set (I2C.mk 0x80 0x1D 0x3A 0x3B 0 [] 0 [] [] []) I2C_C1_MST_MASK)
      I2C_C1_TX_MASK)
    (List.replicate 254 0) (by decide) (by intro b hb; cases hb)
  refine ⟨h1, ?_⟩
  intro v hv
  rcases h2 _ hv with h | h
  · simp [I2C_C1_Set] at h
  · have := h.2 253 v rfl
    omega

/-- C16 fails on the code for a request of 254 bytes (the same defect as in
C15): with every address phase acknowledged, `I2C_PollRead` never issues the
stop condition, on no iteration, and never returns. -/
theorem I2C_PollRead_254_never_stops (fuel : Nat) :
    (I2C_PollRead fuel (I2C.mk 0x80 0x1D 0x3A 0x3B 0 [] 0 [] [] []) 0x01
        (List.replicate 254 0) 254).1 = false ∧
    I2C_Op.C1_andnot I2C_C1_MST_MASK ∉
      (I2C_PollRead fuel (I2C.mk 0x80 0x1D 0x3A 0x3B 0 [] 0 [] [] []) 0x01
        (List.replicate 254 0) 254).2.1.ops := by
  obtain ⟨h1, h2⟩ := I2C_PollRead_loop_wraps 0x01 254 (by decide) fuel 0
    (I2C_C1_Set (I2C_C1_Set (I2C.mk 0x80 0x1D 0x3A 0x3B 0 [] 0 [] [] []) I2C_C1_MST_MASK)
      I2C_C1_TX_MASK)
    (List.replicate 254 0) (by decide) (by intro b hb; cases hb)
  refine ⟨h1, ?_⟩
  intro hv
  rcases h2 _ hv with h | h
  · revert h; decide
  · exact h.1 rfl

/-- With the three address phases acknowledged, `I2C_IntRead` records the
request, transmits the three address bytes and leaves the module in master
mode. -/
theorem I2C_IntRead_acked (s : I2C) (registerAddress : Nat) (data : List Nat) (n : Nat)
    (hack : I2C_Acked s) :
    ∃ c : Nat,
      I2C_IntRead s registerAddress data n
        = { s with
              C1 := c
              IsrNbBytes := n
              IsrData := data
              ops := s.ops ++
                [I2C_Op.C1_or I2C_C1_MST_MASK, I2C_Op.C1_or I2C_C1_TX_MASK,
                 I2C_Op.C1_or I2C_C1_IICIE_MASK,
                 I2C_Op.D_write (s.SlaveAddressWrite % 256),
                 I2C_Op.D_write (registerAddress % 256),
                 I2C_Op.C1_andnot I2C_C1_TX_MASK, I2C_Op.C1_or I2C_C1_RSTA_MASK,
                 I2C_Op.D_write (s.SlaveAddressRead % 256)]
              rxak := s.rxak.tail.tail.tail } ∧
      c.testBit 5 = true := by
  obtain ⟨h0, h1, h2⟩ := hack
  refine ⟨((((s.C1 ||| I2C_C1_MST_MASK) ||| I2C_C1_TX_MASK) ||| I2C_C1_IICIE_MASK)
    &&& (0xFF ^^^ I2C_C1_TX_MASK)) ||| I2C_C1_RSTA_MASK, ?_, ?_⟩
  · rcases hr : s.rxak with _ | ⟨b0, _ | ⟨b1, _ | ⟨b2, rest⟩⟩⟩ <;>
      simp [hr] at h0 h1 h2 <;>
      simp [I2C_IntRead, I2C_IntRead_loop, I2C_S_RXAK, I2C_D_Write, I2C_C1_Set, I2C_C1_Clear,
        hr, h0, h1, h2]
  · simp only [Nat.testBit_or, Nat.testBit_and]
    have e1 : (I2C_C1_MST_MASK).testBit 5 = true := by decide
    have e2 : (0xFF ^^^ I2C_C1_TX_MASK).testBit 5 = true := by decide
    simp [e1, e2]

/-- The invocation of `I2C_ISR` with the handler's index `j` below the number of
bytes requested, in master mode. -/
theorem I2C_ISR_step (s : I2C) (hmst : s.C1.testBit 5 = true)
    (hj : s.dataIndex < s.IsrNbBytes) (hn : s.IsrNbBytes ≤ 255) :
    ∃ c : Nat,
      I2C_ISR s
        = { s with
              C1 := c
              dataIndex := s.dataIndex + 1
              IsrData := s.IsrData.set s.dataIndex (s.rx.headD 0)
              ops := s.ops ++ ([I2C_Op.S_or I2C_S_IICIF_MASK] ++
                (if s.dataIndex + 1 = s.IsrNbBytes then [I2C_Op.C1_or I2C_C1_TXAK_MASK] else []) ++
                [I2C_Op.store s.dataIndex (s.rx.headD 0)])
              rx := s.rx.tail } ∧
      c.testBit 5 = true := by
  have hm : (I2C_S_Set s I2C_S_IICIF_MASK).C1 &&& I2C_C1_MST_MASK ≠ 0 :=
    (I2C_MST_iff _).2 hmst
  have hne : ¬ s.dataIndex = s.IsrNbBytes := by omega
  have hmod : (s.dataIndex + 1) % 256 = s.dataIndex + 1 := Nat.mod_eq_of_lt (by omega)
  have hlt : s.IsrNbBytes < 256 := by omega
  unfold I2C_ISR
  rw [if_pos hm]
  by_cases h1 : s.dataIndex + 1 = s.IsrNbBytes
  · refine ⟨s.C1 ||| I2C_C1_TXAK_MASK, ?_, by simp [Nat.testBit_or, hmst]⟩
    simp [I2C_S_Set, I2C_D_Read, I2C_C1_Set, hne, h1, hmod, hlt]
  · refine ⟨s.C1, ?_, hmst⟩
    simp [I2C_S_Set, I2C_D_Read, hne, h1, hmod]

/-- The first `k` invocations of `I2C_ISR` of a read of `n` bytes, from index
`j` on with `j + k ≤ n`: one store per invocation, at the successive indices. -/
theorem I2C_ISR_times_run (n : Nat) (hn : n ≤ 255) :
    ∀ (k j : Nat) (s : I2C), s.IsrNbBytes = n → s.dataIndex = j → j + k ≤ n →
      s.C1.testBit 5 = true →
      ∃ c : Nat,
        I2C_ISR_times k s
          = { s with
                C1 := c
                dataIndex := j + k
                IsrData := I2C_Read_data k j s.rx s.IsrData
                ops := s.ops ++ I2C_ISR_ops n k j s.rx
                rx := s.rx.drop k } ∧
        c.testBit 5 = true := by
  intro k
  induction k with
  | zero =>
      intro j s _ hj _ hm
      refine ⟨s.C1, ?_, hm⟩
      subst hj
      cases s
      simp [I2C_ISR_times, I2C_Read_data, I2C_ISR_ops]
  | succ k ih =>
      intro j s hN hj hjk hm
      obtain ⟨c1, hs, hc1⟩ := I2C_ISR_step s hm (by omega) (by omega)
      have hstep : I2C_ISR_times (k + 1) s = I2C_ISR_times k (I2C_ISR s) := rfl
      have f1 : (I2C_ISR s).IsrNbBytes = n := by rw [hs]; exact hN
      have f2 : (I2C_ISR s).dataIndex = j + 1 := by rw [hs]; simp [hj]
      have f3 : (I2C_ISR s).C1.testBit 5 = true := by rw [hs]; exact hc1
      obtain ⟨c, hc, hcm⟩ := ih (j + 1) (I2C_ISR s) f1 f2 (by omega) f3
      refine ⟨c, ?_, hcm⟩
      rw [hstep, hc, hs]
      simp [I2C_Read_data, I2C_ISR_ops, hj, hN, List.append_assoc, Nat.add_assoc,
        Nat.add_comm 1 k]

/-- The invocation of `I2C_ISR` with the handler's index equal to the number of
bytes requested: stop, interrupts off, one more store at that index, the index
reset and the semaphore signalled. -/
theorem I2C_ISR_last (s : I2C) (hmst : s.C1.testBit 5 = true)
    (hj : s.dataIndex = s.IsrNbBytes) :
    I2C_ISR s
      = { s with
            C1 := (s.C1 &&& (0xFF ^^^ I2C_C1_MST_MASK)) &&& (0xFF ^^^ I2C_C1_IICIE_MASK)
            dataIndex := 0
            IsrData := s.IsrData.set s.dataIndex (s.rx.headD 0)
            ops := s.ops ++
              [I2C_Op.S_or I2C_S_IICIF_MASK, I2C_Op.C1_andnot I2C_C1_MST_MASK,
               I2C_Op.C1_andnot I2C_C1_IICIE_MASK, I2C_Op.store s.dataIndex (s.rx.headD 0),
               I2C_Op.signal]
            rx := s.rx.tail } := by
  have hm : (I2C_S_Set s I2C_S_IICIF_MASK).C1 &&& I2C_C1_MST_MASK ≠ 0 :=
    (I2C_MST_iff _).2 hmst
  unfold I2C_ISR
  rw [if_pos hm]
  simp [I2C_S_Set, I2C_D_Read, I2C_C1_Clear, hj]

theorem I2C_ISR_ops_no_signal (n : Nat) :
    ∀ (k j : Nat) (rx : List Nat), (I2C_ISR_ops n k j rx).count I2C_Op.signal = 0 := by
  intro k
  induction k with
  | zero => intro j rx; rfl
  | succ k ih =>
      intro j rx
      simp only [I2C_ISR_ops, List.count_append, ih]
      split <;> simp [List.count_cons]

theorem I2C_Read_data_length :
    ∀ (m k : Nat) (rx data : List Nat), (I2C_Read_data m k rx data).length = data.length := by
  intro m
  induction m with
  | zero => intro k rx data; rfl
  | succ m ih => intro k rx data; simp [I2C_Read_data, ih]

/-- An interrupt-mode read of `n` bytes (at most 255) whose address phases are
acknowledged, started with the handler's index at 0: the first `n` invocations
of `I2C_ISR` store at the indices 0 to `n - 1` without signalling, and the
invocation after them stores at index `n`, resets the index and signals. -/
theorem I2C_IntRead_run (s : I2C) (registerAddress : Nat) (data : List Nat) (n : Nat)
    (hn : n ≤ 255) (hack : I2C_Acked s) (hidx : s.dataIndex = 0) :
    (∀ k, k ≤ n →
      (I2C_ISR_times k (I2C_IntRead s registerAddress data n)).ops
        = (I2C_IntRead s registerAddress data n).ops ++ I2C_ISR_ops n k 0 s.rx ∧
      (I2C_ISR_times k (I2C_IntRead s registerAddress data n)).IsrData
        = I2C_Read_data k 0 s.rx data ∧
      (I2C_ISR_times k (I2C_IntRead s registerAddress data n)).dataIndex = k) ∧
    (I2C_ISR_times (n + 1) (I2C_IntRead s registerAddress data n)).ops
      = (I2C_IntRead s registerAddress data n).ops ++ I2C_ISR_ops n n 0 s.rx ++
          [I2C_Op.S_or I2C_S_IICIF_MASK, I2C_Op.C1_andnot I2C_C1_MST_MASK,
           I2C_Op.C1_andnot I2C_C1_IICIE_MASK, I2C_Op.store n ((s.rx.drop n).headD 0),
           I2C_Op.signal] ∧
    (I2C_ISR_times (n + 1) (I2C_IntRead s registerAddress data n)).IsrData
      = (I2C_Read_data n 0 s.rx data).set n ((s.rx.drop n).headD 0) ∧
    (I2C_ISR_times (n + 1) (I2C_IntRead s registerAddress data n)).dataIndex = 0 := by
  obtain ⟨c, hI, hc⟩ := I2C_IntRead_acked s registerAddress data n hack
  have fN : (I2C_IntRead s registerAddress data n).IsrNbBytes = n := by rw [hI]
  have fJ : (I2C_IntRead s registerAddress data n).dataIndex = 0 := by rw [hI]; exact hidx
  have fC : (I2C_IntRead s registerAddress data n).C1.testBit 5 = true := by rw [hI]; exact hc
  have fR : (I2C_IntRead s registerAddress data n).rx = s.rx := by rw [hI]
  have fD : (I2C_IntRead s registerAddress data n).IsrData = data := by rw [hI]
  have run : ∀ k, k ≤ n → ∃ c2 : Nat,
      I2C_ISR_times k (I2C_IntRead s registerAddress data n)
        = { I2C_IntRead s registerAddress data n with
              C1 := c2
              dataIndex := k
              IsrData := I2C_Read_data k 0 s.rx data
              ops := (I2C_IntRead s registerAddress data n).ops ++ I2C_ISR_ops n k 0 s.rx
              rx := s.rx.drop k } ∧ c2.testBit 5 = true := by
    intro k hk
    obtain ⟨c2, h2, hc2⟩ := I2C_ISR_times_run n hn k 0 _ fN fJ (by omega) fC
    refine ⟨c2, ?_, hc2⟩
    rw [h2, fR, fD]
    simp
  refine ⟨?_, ?_⟩
  · intro k hk
    obtain ⟨c2, h2, -⟩ := run k hk
    rw [h2]
    exact ⟨rfl, rfl, rfl⟩
  · obtain ⟨c2, h2, hc2⟩ := run n (Nat.le_refl n)
    have hstep : ∀ (k : Nat) (t : I2C), I2C_ISR_times (k + 1) t = I2C_ISR (I2C_ISR_times k t) := by
      intro k
      induction k with
      | zero => intro t; rfl
      | succ k ih =>
          intro t
          have e1 : I2C_ISR_times (k + 1 + 1) t = I2C_ISR_times (k + 1) (I2C_ISR t) := rfl
          have e2 : I2C_ISR_times (k + 1) t = I2C_ISR_times k (I2C_ISR t) := rfl
          rw [e1, ih, e2]
    rw [hstep, h2]
    rw [I2C_ISR_last _ hc2 (by simp [fN])]
    simp

/-- The bytes `I2C_IntRead` transmits, up to the first one that is not
acknowledged; the cached addresses are not changed. -/
theorem I2C_IntRead_transmitted (s : I2C) (registerAddress : Nat) (data : List Nat) (n : Nat) :
    I2C_Transmitted (I2C_IntRead s registerAddress data n).ops
      = I2C_Transmitted s.ops ++
          [s.SlaveAddressWrite % 256, registerAddress % 256, s.SlaveAddressRead % 256].take
            (if s.rxak.headD false then 1 else if s.rxak.tail.headD false then 2 else 3) ∧
    (I2C_IntRead s registerAddress data n).SlaveAddressWrite = s.SlaveAddressWrite ∧
    (I2C_IntRead s registerAddress data n).SlaveAddressRead = s.SlaveAddressRead := by
  rcases hr : s.rxak with _ | ⟨b0, _ | ⟨b1, _ | ⟨b2, rest⟩⟩⟩ <;>
    simp [I2C_IntRead, I2C_IntRead_loop, I2C_C1_Set, I2C_C1_Clear, I2C_D_Write,
      I2C_S_RXAK, hr, I2C_Transmitted_append, I2C_Transmitted] <;>
    (try cases b0) <;> (try cases b1) <;> (try cases b2) <;>
    simp [I2C_Transmitted_append, I2C_Transmitted]

theorem I2C_PollRead_switch_fields (registerAddress n i : Nat) (s : I2C) (data : List Nat) :
    (I2C_PollRead_switch registerAddress n i s data).1.SlaveAddressWrite = s.SlaveAddressWrite ∧
    (I2C_PollRead_switch registerAddress n i s data).1.SlaveAddressRead = s.SlaveAddressRead := by
  unfold I2C_PollRead_switch
  split_ifs <;> simp [I2C_D_Write, I2C_C1_Set, I2C_C1_Clear, I2C_D_Read]

/-- However long it is followed, `I2C_PollRead` leaves the cached addresses alone. -/
theorem I2C_PollRead_loop_fields (registerAddress n : Nat) :
    ∀ (fuel i : Nat) (s : I2C) (data : List Nat),
      (I2C_PollRead_loop registerAddress n fuel i s data).2.1.SlaveAddressWrite
        = s.SlaveAddressWrite ∧
      (I2C_PollRead_loop registerAddress n fuel i s data).2.1.SlaveAddressRead
        = s.SlaveAddressRead := by
  intro fuel
  induction fuel with
  | zero => intro i s data; exact ⟨rfl, rfl⟩
  | succ fuel ih =>
      intro i s data
      obtain ⟨f1, f2⟩ := I2C_PollRead_switch_fields registerAddress n i s data
      rw [I2C_PollRead_loop]
      split
      · dsimp only
        split
        · split
          · exact ⟨f1, f2⟩
          · obtain ⟨g1, g2⟩ := ih ((i + 1) % 256)
              (I2C_S_RXAK (I2C_S_Set (I2C_PollRead_switch registerAddress n i s data).1
                I2C_S_IICIF_MASK)).2
              (I2C_PollRead_switch registerAddress n i s data).2
            exact ⟨g1.trans f1, g2.trans f2⟩
        · obtain ⟨g1, g2⟩ := ih ((i + 1) % 256)
            (I2C_S_Set (I2C_PollRead_switch registerAddress n i s data).1 I2C_S_IICIF_MASK)
            (I2C_PollRead_switch registerAddress n i s data).2
          exact ⟨g1.trans f1, g2.trans f2⟩
      · exact ⟨rfl, rfl⟩

theorem I2C_ISR_fields (s : I2C) :
    (I2C_ISR s).SlaveAddressWrite = s.SlaveAddressWrite ∧
    (I2C_ISR s).SlaveAddressRead = s.SlaveAddressRead := by
  unfold I2C_ISR
  dsimp only
  split_ifs <;> simp [I2C_S_Set, I2C_D_Read, I2C_C1_Set, I2C_C1_Clear]

theorem I2C_Read_ops_transmitted (n : Nat) :
    ∀ (m k : Nat) (rx : List Nat), I2C_Transmitted (I2C_Read_ops n m k rx) = [] := by
  intro m
  induction m with
  | zero => intro k rx; rfl
  | succ m ih =>
      intro k rx
      simp only [I2C_Read_ops, I2C_Read_control, I2C_Transmitted_append, ih]
      split_ifs <;> simp [I2C_Transmitted]

/-- C13: for every seven-bit slave address `a`, `I2C_SelectSlaveDevice` caches
the write address `2 * a` (bit 0 clear) and the read address `2 * a + 1` (bit 0
set), which differ in bit 0 only.  In every later state `u` that still holds
them: `I2C_Write` transmits `2 * a` first, `I2C_IntRead` transmits `2 * a`
first and `2 * a + 1` third, the write-address and read-address passes of the
loop of `I2C_PollRead` transmit `2 * a` and `2 * a + 1` (so an acknowledged read
of at most 252 bytes transmits `2 * a`, the register address, `2 * a + 1`); and
none of these calls nor `I2C_ISR` changes the cached values. -/
theorem I2C_cached_addresses (a : Nat) (ha : a < 128) (s : I2C) :
    (I2C_SelectSlaveDevice s a).SlaveAddressWrite = 2 * a ∧
    (I2C_SelectSlaveDevice s a).SlaveAddressRead = 2 * a + 1 ∧
    (2 * a).testBit 0 = false ∧ (2 * a + 1).testBit 0 = true ∧
    (2 * a) ^^^ (2 * a + 1) = 1 ∧
    ∀ u : I2C, u.SlaveAddressWrite = 2 * a → u.SlaveAddressRead = 2 * a + 1 →
      (∀ registerAddress data : Nat,
        I2C_Transmitted (I2C_Write u registerAddress data).ops
          = I2C_Transmitted u.ops ++
              [2 * a, registerAddress % 256, data % 256].take
                (if u.rxak.headD false then 1 else if u.rxak.tail.headD false then 2 else 3) ∧
        (I2C_Write u registerAddress data).SlaveAddressWrite = 2 * a ∧
        (I2C_Write u registerAddress data).SlaveAddressRead = 2 * a + 1) ∧
      (∀ (registerAddress : Nat) (data : List Nat) (n : Nat),
        I2C_Transmitted (I2C_IntRead u registerAddress data n).ops
          = I2C_Transmitted u.ops ++
              [2 * a, registerAddress % 256, 2 * a + 1].take
                (if u.rxak.headD false then 1 else if u.rxak.tail.headD false then 2 else 3) ∧
        (I2C_IntRead u registerAddress data n).SlaveAddressWrite = 2 * a ∧
        (I2C_IntRead u registerAddress data n).SlaveAddressRead = 2 * a + 1) ∧
      (∀ (registerAddress : Nat) (data : List Nat) (n : Nat),
        I2C_Transmitted (I2C_PollRead_switch registerAddress n 0 u data).1.ops
          = I2C_Transmitted u.ops ++ [2 * a] ∧
        I2C_Transmitted (I2C_PollRead_switch registerAddress n 2 u data).1.ops
          = I2C_Transmitted u.ops ++ [2 * a + 1] ∧
        (∀ fuel : Nat,
          (I2C_PollRead fuel u registerAddress data n).2.1.SlaveAddressWrite = 2 * a ∧
          (I2C_PollRead fuel u registerAddress data n).2.1.SlaveAddressRead = 2 * a + 1) ∧
        (n ≤ 252 → I2C_Acked u →
          I2C_Transmitted (I2C_PollRead (n + 4) u registerAddress data n).2.1.ops
            = I2C_Transmitted u.ops ++ [2 * a, registerAddress % 256, 2 * a + 1])) ∧
      (I2C_ISR u).SlaveAddressWrite = 2 * a ∧ (I2C_ISR u).SlaveAddressRead = 2 * a + 1 := by
  obtain ⟨v1, v2, v3, v4, v5⟩ := I2C_Select_values a ha
  have m1 : (2 * a) % 256 = 2 * a := Nat.mod_eq_of_lt (by omega)
  have m2 : (2 * a + 1) % 256 = 2 * a + 1 := Nat.mod_eq_of_lt (by omega)
  refine ⟨v1, v2, v4, v5, v3, ?_⟩
  intro u hw hr
  refine ⟨?_, ?_, ?_, ?_⟩
  · intro registerAddress data
    have h1 := I2C_Write_transmitted u registerAddress data
    obtain ⟨-, h2, h3⟩ := I2C_Write_ops u registerAddress data
    rw [hw, m1] at h1
    exact ⟨h1, h2.trans hw, h3.trans hr⟩
  · intro registerAddress data n
    obtain ⟨h1, h2, h3⟩ := I2C_IntRead_transmitted u registerAddress data n
    rw [hw, hr, m1, m2] at h1
    exact ⟨h1, h2.trans hw, h3.trans hr⟩
  · intro registerAddress data n
    refine ⟨?_, ?_, ?_, ?_⟩
    · simp [I2C_PollRead_switch, I2C_D_Write, I2C_Transmitted_append, I2C_Transmitted, hw, m1]
    · simp [I2C_PollRead_switch, I2C_D_Write, I2C_C1_Set, I2C_C1_Clear, I2C_Transmitted_append,
        I2C_Transmitted, hr, m2]
    · intro fuel
      obtain ⟨g1, g2⟩ := I2C_PollRead_loop_fields registerAddress n fuel 0
        (I2C_C1_Set (I2C_C1_Set u I2C_C1_MST_MASK) I2C_C1_TX_MASK) data
      exact ⟨g1.trans hw, g2.trans hr⟩
    · intro hn hack
      obtain ⟨c, hc, -⟩ := I2C_PollRead_acked n u registerAddress data n hn (Nat.le_refl n) hack
      rw [hc]
      simp [I2C_Transmitted_append, I2C_Transmitted, I2C_Read_ops_transmitted, hw, hr, m1, m2]
  · obtain ⟨h2, h3⟩ := I2C_ISR_fields u
    exact ⟨h2.trans hw, h3.trans hr⟩

/-- Instance of C13 for the accelerometer's address 0x1D: the cached addresses
are 0x3A and 0x3B, and a register write whose first byte is not acknowledged
transmits 0x3A alone. -/
theorem I2C_cached_addresses_witness :
    0x1D < 128 ∧
    (I2C_SelectSlaveDevice (I2C.mk 0x80 0 0 0 0 [] 0 [] [true] []) 0x1D).SlaveAddressWrite = 0x3A ∧
    (I2C_SelectSlaveDevice (I2C.mk 0x80 0 0 0 0 [] 0 [] [true] []) 0x1D).SlaveAddressRead = 0x3B ∧
    I2C_Transmitted
        (I2C_Write (I2C_SelectSlaveDevice (I2C.mk 0x80 0 0 0 0 [] 0 [] [true] []) 0x1D)
          0x2A 0x3B).ops
      = I2C_Transmitted (I2C_SelectSlaveDevice (I2C.mk 0x80 0 0 0 0 [] 0 [] [true] []) 0x1D).ops ++
          [2 * 0x1D, 0x2A % 256, 0x3B % 256].take
            (if (I2C_SelectSlaveDevice (I2C.mk 0x80 0 0 0 0 [] 0 [] [true] []) 0x1D).rxak.headD
                false then 1
              else if
                (I2C_SelectSlaveDevice (I2C.mk 0x80 0 0 0 0 [] 0 [] [true] []) 0x1D).rxak.tail.headD
                  false then 2
              else 3) :=
  ⟨by decide, by decide, by decide,
    (((I2C_cached_addresses 0x1D (by decide) (I2C.mk 0x80 0 0 0 0 [] 0 [] [true] [])).2.2.2.2.2
      (I2C_SelectSlaveDevice (I2C.mk 0x80 0 0 0 0 [] 0 [] [true] []) 0x1D)
      (by decide) (by decide)).1 0x2A 0x3B).1⟩

/-- For n in {1,2,3,6}, from the same state (the same coming values of the
data register, address phases acknowledged, handler's index 0) and the same
caller's array, `I2C_PollRead` returns, the semaphore is signalled by
invocation n + 1 of `I2C_ISR` after `I2C_IntRead` and by none before it, and the
first n bytes of the two arrays are equal. -/
theorem I2C_reads_first_bytes (n : Nat) (hn : n = 1 ∨ n = 2 ∨ n = 3 ∨ n = 6) (s : I2C)
    (registerAddress : Nat) (data : List Nat) (hack : I2C_Acked s) (hidx : s.dataIndex = 0) :
    (I2C_PollRead (n + 4) s registerAddress data n).1 = true ∧
    (∀ k, k ≤ n →
      (I2C_ISR_times k (I2C_IntRead s registerAddress data n)).ops.count I2C_Op.signal
        = s.ops.count I2C_Op.signal) ∧
    (I2C_ISR_times (n + 1) (I2C_IntRead s registerAddress data n)).ops.count I2C_Op.signal
      = s.ops.count I2C_Op.signal + 1 ∧
    (I2C_PollRead (n + 4) s registerAddress data n).2.2.take n
      = (I2C_ISR_times (n + 1) (I2C_IntRead s registerAddress data n)).IsrData.take n ∧
    (I2C_PollRead (n + 4) s registerAddress data n).2.2 = I2C_Read_data n 0 s.rx data := by
  have hn252 : n ≤ 252 := by omega
  obtain ⟨c, hP, -⟩ := I2C_PollRead_acked n s registerAddress data n hn252 (Nat.le_refl n) hack
  obtain ⟨hrun, hops, hdata, -⟩ :=
    I2C_IntRead_run s registerAddress data n (by omega) hack hidx
  obtain ⟨c2, hI, -⟩ := I2C_IntRead_acked s registerAddress data n hack
  have hIc : (I2C_IntRead s registerAddress data n).ops.count I2C_Op.signal
      = s.ops.count I2C_Op.signal := by
    rw [hI]
    simp [List.count_append, List.count_cons]
  refine ⟨by rw [hP], ?_, ?_, ?_, by rw [hP]⟩
  · intro k hk
    rw [(hrun k hk).1, List.count_append, I2C_ISR_ops_no_signal, hIc]
    rfl
  · rw [hops, List.count_append, List.count_append, I2C_ISR_ops_no_signal, hIc]
    simp [List.count_cons]
  · rw [hP, hdata, List.set_take]
    dsimp only
    rw [List.set_eq_of_length_le]
    simp

/-- C17 fails on the code (the same defect as in C18 and C19): for a read of 3
bytes into the first three bytes of a four-byte region, with the data register
giving 11, 12, 13, 14, `I2C_PollRead` stores at indices 0, 1, 2 and leaves
`11 12 13 00`, while `I2C_IntRead` followed by the invocations of `I2C_ISR` up
to the one that signals the semaphore, the fourth, stores at indices 0, 1, 2, 3
and leaves `11 12 13 14`: the handler's fourth store lands past the three bytes
asked for, and the two results differ. -/
theorem I2C_reads_differ_past_n :
    I2C_Acked (I2C.mk 0x80 0x1D 0x3A 0x3B 0 [] 0 [] [] [11, 12, 13, 14]) ∧
    (I2C_PollRead 7 (I2C.mk 0x80 0x1D 0x3A 0x3B 0 [] 0 [] [] [11, 12, 13, 14]) 0x01
        [0, 0, 0, 0] 3).1 = true ∧
    (I2C_PollRead 7 (I2C.mk 0x80 0x1D 0x3A 0x3B 0 [] 0 [] [] [11, 12, 13, 14]) 0x01
        [0, 0, 0, 0] 3).2.2 = [11, 12, 13, 0] ∧
    I2C_Stores
        (I2C_PollRead 7 (I2C.mk 0x80 0x1D 0x3A 0x3B 0 [] 0 [] [] [11, 12, 13, 14]) 0x01
          [0, 0, 0, 0] 3).2.1.ops = [(0, 11), (1, 12), (2, 13)] ∧
    (I2C_ISR_times 3
        (I2C_IntRead (I2C.mk 0x80 0x1D 0x3A 0x3B 0 [] 0 [] [] [11, 12, 13, 14]) 0x01
          [0, 0, 0, 0] 3)).ops.count I2C_Op.signal = 0 ∧
    (I2C_ISR_times 4
        (I2C_IntRead (I2C.mk 0x80 0x1D 0x3A 0x3B 0 [] 0 [] [] [11, 12, 13, 14]) 0x01
          [0, 0, 0, 0] 3)).ops.count I2C_Op.signal = 1 ∧
    (I2C_ISR_times 4
        (I2C_IntRead (I2C.mk 0x80 0x1D 0x3A 0x3B 0 [] 0 [] [] [11, 12, 13, 14]) 0x01
          [0, 0, 0, 0] 3)).IsrData = [11, 12, 13, 14] ∧
    I2C_Stores
        (I2C_ISR_times 4
          (I2C_IntRead (I2C.mk 0x80 0x1D 0x3A 0x3B 0 [] 0 [] [] [11, 12, 13, 14]) 0x01
            [0, 0, 0, 0] 3)).ops = [(0, 11), (1, 12), (2, 13), (3, 14)] ∧
    (I2C_PollRead 7 (I2C.mk 0x80 0x1D 0x3A 0x3B 0 [] 0 [] [] [11, 12, 13, 14]) 0x01
        [0, 0, 0, 0] 3).2.2
      ≠ (I2C_ISR_times 4
          (I2C_IntRead (I2C.mk 0x80 0x1D 0x3A 0x3B 0 [] 0 [] [] [11, 12, 13, 14]) 0x01
            [0, 0, 0, 0] 3)).IsrData := by
  decide

/-- C18 fails on the code (the same defect as in C17 and C19): in an interrupt-mode
read of 3 bytes the no-acknowledge bit is set by the invocation of `I2C_ISR`
that stores index 2, the last of the three bytes, not index 1; and in a read of
1 byte it is set by the invocation that stores index 0. -/
theorem I2C_ISR_noack_one_late :
    (I2C_ISR_times 4
        (I2C_IntRead (I2C.mk 0x80 0x1D 0x3A 0x3B 0 [] 0 [] [] [11, 12, 13, 14]) 0x01
          [0, 0, 0] 3)).ops
      = (I2C_IntRead (I2C.mk 0x80 0x1D 0x3A 0x3B 0 [] 0 [] [] [11, 12, 13, 14]) 0x01
          [0, 0, 0] 3).ops ++
        [I2C_Op.S_or I2C_S_IICIF_MASK, I2C_Op.store 0 11,
         I2C_Op.S_or I2C_S_IICIF_MASK, I2C_Op.store 1 12,
         I2C_Op.S_or I2C_S_IICIF_MASK, I2C_Op.C1_or I2C_C1_TXAK_MASK, I2C_Op.store 2 13,
         I2C_Op.S_or I2C_S_IICIF_MASK, I2C_Op.C1_andnot I2C_C1_MST_MASK,
         I2C_Op.C1_andnot I2C_C1_IICIE_MASK, I2C_Op.store 3 14, I2C_Op.signal] ∧
    (I2C_ISR_times 2
        (I2C_IntRead (I2C.mk 0x80 0x1D 0x3A 0x3B 0 [] 0 [] [] [11, 12, 13, 14]) 0x01
          [0] 1)).ops
      = (I2C_IntRead (I2C.mk 0x80 0x1D 0x3A 0x3B 0 [] 0 [] [] [11, 12, 13, 14]) 0x01
          [0] 1).ops ++
        [I2C_Op.S_or I2C_S_IICIF_MASK, I2C_Op.C1_or I2C_C1_TXAK_MASK, I2C_Op.store 0 11,
         I2C_Op.S_or I2C_S_IICIF_MASK, I2C_Op.C1_andnot I2C_C1_MST_MASK,
         I2C_Op.C1_andnot I2C_C1_IICIE_MASK, I2C_Op.store 1 12, I2C_Op.signal] := by
  decide

/-- C19 fails on the code (the same defect as in C17 and C18): in an interrupt-mode
read of 3 bytes into a three-byte array, the three invocations of `I2C_ISR`
that store indices 0, 1 and 2 do not signal the semaphore and leave the
handler's index at 3; it takes a fourth invocation, which stores at index 3,
outside the array, to signal the semaphore and reset the index. -/
theorem I2C_ISR_one_invocation_more :
    I2C_Stores (I2C_ISR_times 3
        (I2C_IntRead (I2C.mk 0x80 0x1D 0x3A 0x3B 0 [] 0 [] [] [11, 12, 13, 14]) 0x01
          [0, 0, 0] 3)).ops = [(0, 11), (1, 12), (2, 13)] ∧
    (I2C_ISR_times 3
        (I2C_IntRead (I2C.mk 0x80 0x1D 0x3A 0x3B 0 [] 0 [] [] [11, 12, 13, 14]) 0x01
          [0, 0, 0] 3)).ops.count I2C_Op.signal = 0 ∧
    (I2C_ISR_times 3
        (I2C_IntRead (I2C.mk 0x80 0x1D 0x3A 0x3B 0 [] 0 [] [] [11, 12, 13, 14]) 0x01
          [0, 0, 0] 3)).dataIndex = 3 ∧
    I2C_Stores (I2C_ISR_times 4
        (I2C_IntRead (I2C.mk 0x80 0x1D 0x3A 0x3B 0 [] 0 [] [] [11, 12, 13, 14]) 0x01
          [0, 0, 0] 3)).ops = [(0, 11), (1, 12), (2, 13), (3, 14)] ∧
    (I2C_ISR_times 4
        (I2C_IntRead (I2C.mk 0x80 0x1D 0x3A 0x3B 0 [] 0 [] [] [11, 12, 13, 14]) 0x01
          [0, 0, 0] 3)).ops.getLast? = some I2C_Op.signal ∧
    (I2C_ISR_times 4
        (I2C_IntRead (I2C.mk 0x80 0x1D 0x3A 0x3B 0 [] 0 [] [] [11, 12, 13, 14]) 0x01
          [0, 0, 0] 3)).dataIndex = 0 := by
  decide

/-- C20 fails on the code: when the write address, the register address or the
read address is not acknowledged, `I2C_PollRead` returns after that byte with
the caller's array untouched, and its trace has no clearing of the master-mode
bit, which is still set: the bus is not released. -/
theorem I2C_PollRead_nak_keeps_bus :
    I2C_PollRead 10 (I2C.mk 0x80 0x1D 0x3A 0x3B 0 [] 0 [] [true] [11, 12, 13]) 0x01 [0, 0, 0] 3
      = (true,
          I2C.mk 0xB0 0x1D 0x3A 0x3B 0 [] 0
            [I2C_Op.C1_or I2C_C1_MST_MASK, I2C_Op.C1_or I2C_C1_TX_MASK, I2C_Op.D_write 0x3A,
             I2C_Op.S_or I2C_S_IICIF_MASK] [] [11, 12, 13],
          [0, 0, 0]) ∧
    0xB0 &&& I2C_C1_MST_MASK ≠ 0 ∧
    I2C_PollRead 10 (I2C.mk 0x80 0x1D 0x3A 0x3B 0 [] 0 [] [false, true] [11, 12, 13]) 0x01
        [0, 0, 0] 3
      = (true,
          I2C.mk 0xB0 0x1D 0x3A 0x3B 0 [] 0
            [I2C_Op.C1_or I2C_C1_MST_MASK, I2C_Op.C1_or I2C_C1_TX_MASK, I2C_Op.D_write 0x3A,
             I2C_Op.S_or I2C_S_IICIF_MASK, I2C_Op.D_write 0x01, I2C_Op.S_or I2C_S_IICIF_MASK]
            [] [11, 12, 13],
          [0, 0, 0]) ∧
    I2C_PollRead 10 (I2C.mk 0x80 0x1D 0x3A 0x3B 0 [] 0 [] [false, false, true] [11, 12, 13])
        0x01 [0, 0, 0] 3
      = (true,
          I2C.mk 0xA4 0x1D 0x3A 0x3B 0 [] 0
            [I2C_Op.C1_or I2C_C1_MST_MASK, I2C_Op.C1_or I2C_C1_TX_MASK, I2C_Op.D_write 0x3A,
             I2C_Op.S_or I2C_S_IICIF_MASK, I2C_Op.D_write 0x01, I2C_Op.S_or I2C_S_IICIF_MASK,
             I2C_Op.C1_andnot I2C_C1_TX_MASK, I2C_Op.C1_or I2C_C1_RSTA_MASK,
             I2C_Op.D_write 0x3B, I2C_Op.S_or I2C_S_IICIF_MASK] [] [11, 12, 13],
          [0, 0, 0]) ∧
    0xA4 &&& I2C_C1_MST_MASK ≠ 0 ∧
    (I2C_Write (I2C.mk 0x80 0x1D 0x3A 0x3B 0 [] 0 [] [true] [11, 12, 13]) 0x2A 0x01).C1
      &&& I2C_C1_MST_MASK = 0 := by
  decide

/-! ## The baud rate search -/

/-- One pass of the inner loop of `I2C_Init`, for multiplier register `m`, seen
as 48 steps of a loop over pair numbers `48 * m + k`. -/
theorem I2C_Init_search_row (moduleClk baudRate m : Nat) (st : I2C_Search) :
    (List.range 48).foldl
        (fun st k =>
          I2C_Init_icr moduleClk baudRate ((48 * m + k) / 48) st (16 + (48 * m + k) % 48)) st
      = (List.range' 0x10 0x30).foldl (I2C_Init_icr moduleClk baudRate m) st := by
  rw [List.range'_eq_map_range, List.foldl_map]
  apply List.foldl_ext
  intro a k hk
  have hk2 := List.mem_range.1 hk
  have e1 : (48 * m + k) / 48 = m := by omega
  have e2 : (48 * m + k) % 48 = k := by omega
  rw [e1, e2]

/-- The first `n` passes of the outer loop of `I2C_Init` are a single loop over
the first `48 * n` pair numbers. -/
theorem I2C_Init_search_rows (moduleClk baudRate : Nat) (st0 : I2C_Search) (n : Nat) :
    (List.range n).foldl
        (fun st multReg =>
          (List.range' 0x10 0x30).foldl (I2C_Init_icr moduleClk baudRate multReg) st) st0
      = (List.range (48 * n)).foldl
          (fun st idx => I2C_Init_icr moduleClk baudRate (idx / 48) st (16 + idx % 48)) st0 := by
  induction n with
  | zero => simp only [Nat.mul_zero, List.range_zero, List.foldl_nil]
  | succ n ih =>
      rw [List.range_succ, List.foldl_append, ih, Nat.mul_succ, List.range_add,
        List.foldl_append, List.foldl_map]
      simp only [List.foldl_cons, List.foldl_nil]
      exact (I2C_Init_search_row moduleClk baudRate n _).symm

/-- The two nested loops of `I2C_Init` visit the 144 pairs one after the other:
pair number `idx` is multiplier register `idx / 48` with `icr = 16 + idx % 48`. -/
theorem I2C_Init_search_flat (moduleClk baudRate multSave icrSave : Nat) :
    I2C_Init_search moduleClk baudRate multSave icrSave
      = (List.range 144).foldl
          (fun st idx => I2C_Init_icr moduleClk baudRate (idx / 48) st (16 + idx % 48))
          { baudRateErrorMin := baudRate, multSave := multSave, icrSave := icrSave } :=
  I2C_Init_search_rows moduleClk baudRate _ 3

/-- The error the loop body computes is the absolute error of the pair. -/
theorem I2C_Init_icr_error (moduleClk baudRate multReg icr : Nat) (st : I2C_Search) :
    I2C_Init_icr moduleClk baudRate multReg st icr
      = if I2C_BaudError moduleClk baudRate multReg icr < st.baudRateErrorMin then
          { baudRateErrorMin := I2C_BaudError moduleClk baudRate multReg icr,
            multSave := multReg, icrSave := icr }
        else st := by
  have h : ∀ a b : Nat, (if a < b then b - a else a - b) = Int.natAbs ((a : Int) - (b : Int)) := by
    intro a b
    split_ifs <;> omega
  simp only [I2C_Init_icr, I2C_BaudError, h]

/-- A loop that keeps the first strictly smaller value: after `n` steps either
no step improved on the initial bound and the state is the initial one, or the
state records the first index of the least value. -/
theorem I2C_search_loop (e : Nat → Nat) (g h : Nat → Nat) (st0 : I2C_Search) :
    ∀ n : Nat,
      ((∀ i, i < n → st0.baudRateErrorMin ≤ e i) ∧
        (List.range n).foldl
          (fun st idx =>
            if e idx < st.baudRateErrorMin then
              { baudRateErrorMin := e idx, multSave := g idx, icrSave := h idx }
            else st) st0 = st0) ∨
      (∃ j, j < n ∧
        (List.range n).foldl
          (fun st idx =>
            if e idx < st.baudRateErrorMin then
              { baudRateErrorMin := e idx, multSave := g idx, icrSave := h idx }
            else st) st0
          = { baudRateErrorMin := e j, multSave := g j, icrSave := h j } ∧
        e j < st0.baudRateErrorMin ∧ (∀ i, i < j → e j < e i) ∧ (∀ i, i < n → e j ≤ e i)) := by
  intro n
  induction n with
  | zero =>
      left
      exact ⟨fun i hi => absurd hi (Nat.not_lt_zero i), rfl⟩
  | succ n ih =>
      rw [List.range_succ, List.foldl_append]
      rcases ih with ⟨hall, hr⟩ | ⟨j, hj, hr, hlt, hfirst, hmin⟩
      · rw [hr]
        by_cases hn : e n < st0.baudRateErrorMin
        · right
          refine ⟨n, Nat.lt_succ_self n, by simp [hn], hn, ?_, ?_⟩
          · intro i hi
            exact Nat.lt_of_lt_of_le hn (hall i hi)
          · intro i hi
            rcases Nat.lt_succ_iff_lt_or_eq.1 hi with h1 | h1
            · exact Nat.le_of_lt (Nat.lt_of_lt_of_le hn (hall i h1))
            · rw [h1]
        · left
          refine ⟨?_, by simp [hn]⟩
          intro i hi
          rcases Nat.lt_succ_iff_lt_or_eq.1 hi with h1 | h1
          · exact hall i h1
          · rw [h1]; exact Nat.le_of_not_lt hn
      · rw [hr]
        by_cases hn : e n < e j
        · right
          refine ⟨n, Nat.lt_succ_self n, by simp [hn], Nat.lt_trans hn hlt, ?_, ?_⟩
          · intro i hi
            exact Nat.lt_of_lt_of_le hn (hmin i hi)
          · intro i hi
            rcases Nat.lt_succ_iff_lt_or_eq.1 hi with h1 | h1
            · exact Nat.le_of_lt (Nat.lt_of_lt_of_le hn (hmin i h1))
            · rw [h1]
        · right
          refine ⟨j, Nat.lt_succ_of_lt hj, by simp [hn], hlt, hfirst, ?_⟩
          intro i hi
          rcases Nat.lt_succ_iff_lt_or_eq.1 hi with h1 | h1
          · exact hmin i h1
          · rw [h1]; exact Nat.le_of_not_lt hn

/-- The result of the search of `I2C_Init`: unchanged locals when no searched
pair has an error below the target, and otherwise the first searched pair of
least error. -/
theorem I2C_Init_search_cases (moduleClk baudRate multSave icrSave : Nat) :
    ((∀ multReg icr, I2C_Searched multReg icr →
        baudRate ≤ I2C_BaudError moduleClk baudRate multReg icr) ∧
      I2C_Init_search moduleClk baudRate multSave icrSave
        = { baudRateErrorMin := baudRate, multSave := multSave, icrSave := icrSave }) ∨
    (∃ m c, I2C_Searched m c ∧
      I2C_Init_search moduleClk baudRate multSave icrSave
        = { baudRateErrorMin := I2C_BaudError moduleClk baudRate m c,
            multSave := m, icrSave := c } ∧
      I2C_BaudError moduleClk baudRate m c < baudRate ∧
      (∀ multReg icr, I2C_Searched multReg icr →
        I2C_BaudError moduleClk baudRate m c ≤ I2C_BaudError moduleClk baudRate multReg icr) ∧
      (∀ multReg icr, I2C_Searched multReg icr → I2C_SearchedBefore multReg icr m c →
        I2C_BaudError moduleClk baudRate m c < I2C_BaudError moduleClk baudRate multReg icr)) := by
  have hflat := I2C_Init_search_flat moduleClk baudRate multSave icrSave
  simp only [I2C_Init_icr_error] at hflat
  have hidx : ∀ multReg icr, I2C_Searched multReg icr →
      48 * multReg + (icr - 16) < 144 ∧ (48 * multReg + (icr - 16)) / 48 = multReg ∧
        16 + (48 * multReg + (icr - 16)) % 48 = icr := by
    intro multReg icr hs
    obtain ⟨h1, h2, h3⟩ := hs
    omega
  rcases I2C_search_loop
      (fun idx => I2C_BaudError moduleClk baudRate (idx / 48) (16 + idx % 48))
      (fun idx => idx / 48) (fun idx => 16 + idx % 48)
      { baudRateErrorMin := baudRate, multSave := multSave, icrSave := icrSave } 144 with
    ⟨hall, hr⟩ | ⟨j, hj, hr, hlt, hfirst, hmin⟩
  · left
    refine ⟨?_, hflat.trans hr⟩
    intro multReg icr hs
    obtain ⟨i1, i2, i3⟩ := hidx multReg icr hs
    have := hall _ i1
    simp only [i2, i3] at this
    exact this
  · right
    refine ⟨j / 48, 16 + j % 48, ?_, hflat.trans hr, hlt, ?_, ?_⟩
    · refine ⟨?_, ?_, ?_⟩ <;> omega
    · intro multReg icr hs
      obtain ⟨i1, i2, i3⟩ := hidx multReg icr hs
      have := hmin _ i1
      simp only [i2, i3] at this
      exact this
    · intro multReg icr hs hb
      obtain ⟨i1, i2, i3⟩ := hidx multReg icr hs
      have hlt2 : 48 * multReg + (icr - 16) < j := by
        obtain ⟨h1, h2, h3⟩ := hs
        rcases hb with hb | ⟨hb1, hb2⟩ <;> omega
      have := hfirst _ hlt2
      simp only [i2, i3] at this
      exact this

/-- C21: with module clock 50,000,000 and target 100,000 the search of
`I2C_Init` ends, whatever its locals held before, with multiplier register 0
(multiplier 1) and ICR 0x2B, whose divider is 512 and whose rate is 97656, at
error 2344; and no pair of a multiplier register 0..2 with any of the 64 entries
of `SclDivider` has a smaller absolute error. -/
theorem I2C_Init_search_50MHz_100kHz :
    (∀ multSave icrSave : Nat,
      I2C_Init_search 50000000 100000 multSave icrSave
        = { baudRateErrorMin := 2344, multSave := 0, icrSave := 0x2B }) ∧
    I2C_Init_mult 0 = 1 ∧ SclDivider.getD 0x2B 0 = 512 ∧
    50000000 / (I2C_Init_mult 0 * SclDivider.getD 0x2B 0) = 97656 ∧
    I2C_BaudError 50000000 100000 0 0x2B = 2344 ∧
    (∀ multReg, multReg < 3 → ∀ icr, icr < 64 →
      I2C_BaudError 50000000 100000 0 0x2B ≤ I2C_BaudError 50000000 100000 multReg icr) := by
  refine ⟨?_, by decide, by decide, by decide, by decide, by decide⟩
  intro multSave icrSave
  rcases I2C_Init_search_cases 50000000 100000 multSave icrSave with
    ⟨hall, -⟩ | ⟨m, c, hs, hr, -, hmin, hfirst⟩
  · exact absurd (hall 0 0x2B (by decide)) (by decide)
  · have h1 : I2C_BaudError 50000000 100000 m c ≤ 2344 := hmin 0 0x2B (by decide)
    have hpair : ∀ multReg, multReg < 3 → ∀ icr, icr < 64 →
        (0x10 ≤ icr ∧ I2C_BaudError 50000000 100000 multReg icr ≤ 2344) →
        I2C_BaudError 50000000 100000 multReg icr = 2344 ∧
          (multReg = 0 ∧ icr = 0x2B ∨ I2C_SearchedBefore 0 0x2B multReg icr) := by
      decide
    obtain ⟨s1, s2, s3⟩ := hs
    obtain ⟨e1, e2⟩ := hpair m s1 c (by omega) ⟨s2, h1⟩
    rcases e2 with ⟨rfl, rfl⟩ | hb
    · rw [hr, e1]
    · have := hfirst 0 0x2B (by decide) hb
      have h2 : I2C_BaudError 50000000 100000 0 0x2B = 2344 := by decide
      omega

/-- The error the search computes for multiplier register `multReg` is the
error of the multiplier `2 ^ multReg`: 1, 2 and 4 for the registers 0, 1 and 2. -/
theorem I2C_BaudError_pair (moduleClk baudRate multReg icr : Nat) (h : multReg < 3) :
    I2C_BaudError moduleClk baudRate multReg icr
      = I2C_PairError moduleClk baudRate (2 ^ multReg) icr := by
  interval_cases multReg <;> simp [I2C_BaudError, I2C_PairError, I2C_Init_mult]

/-- A multiplier 1, 2 or 4 is `2 ^ multReg` for one multiplier register 0, 1 or
2, and the order of the multipliers is the order of their registers. -/
theorem I2C_mult_register (mult : Nat) (h : mult = 1 ∨ mult = 2 ∨ mult = 4) :
    ∃ multReg, multReg < 3 ∧ 2 ^ multReg = mult ∧
      ∀ m, m < 3 → ((mult < 2 ^ m ↔ multReg < m) ∧ (mult = 2 ^ m ↔ multReg = m)) := by
  rcases h with rfl | rfl | rfl
  · refine ⟨0, by decide, rfl, ?_⟩
    intro m hm
    interval_cases m <;> decide
  · refine ⟨1, by decide, rfl, ?_⟩
    intro m hm
    interval_cases m <;> decide
  · refine ⟨2, by decide, rfl, ?_⟩
    intro m hm
    interval_cases m <;> decide

/-- C22: whenever some pair of a multiplier 1, 2 or 4 with an ICR in 0x10..0x3F
has an absolute error, with truncating division, below the target, `I2C_Init`
saves a multiplier register 0, 1 or 2 and an ICR in 0x10..0x3F such that the
pair of the multiplier `2 ^ multSave` with `icrSave` has an absolute error at
most that of every pair with multiplier in {1,2,4} and ICR in 0x10..0x3F, and
strictly less than that of every such pair that comes before it in the search
order (multiplier ascending, then ICR ascending); the saved fields are what the
call ORs into `I2C0_F`. -/
theorem I2C_Init_search_first_minimum (moduleClk baudRate multSave icrSave : Nat)
    (h : ∃ mult icr, (mult = 1 ∨ mult = 2 ∨ mult = 4) ∧ 0x10 ≤ icr ∧ icr ≤ 0x3F ∧
      I2C_PairError moduleClk baudRate mult icr < baudRate) :
    (I2C_Init_search moduleClk baudRate multSave icrSave).multSave < 3 ∧
    (2 ^ (I2C_Init_search moduleClk baudRate multSave icrSave).multSave = 1 ∨
      2 ^ (I2C_Init_search moduleClk baudRate multSave icrSave).multSave = 2 ∨
      2 ^ (I2C_Init_search moduleClk baudRate multSave icrSave).multSave = 4) ∧
    0x10 ≤ (I2C_Init_search moduleClk baudRate multSave icrSave).icrSave ∧
    (I2C_Init_search moduleClk baudRate multSave icrSave).icrSave ≤ 0x3F ∧
    (I2C_Init_search moduleClk baudRate multSave icrSave).baudRateErrorMin
      = I2C_PairError moduleClk baudRate
          (2 ^ (I2C_Init_search moduleClk baudRate multSave icrSave).multSave)
          (I2C_Init_search moduleClk baudRate multSave icrSave).icrSave ∧
    (I2C_Init_search moduleClk baudRate multSave icrSave).baudRateErrorMin < baudRate ∧
    (∀ mult icr, (mult = 1 ∨ mult = 2 ∨ mult = 4) → 0x10 ≤ icr → icr ≤ 0x3F →
      I2C_PairError moduleClk baudRate
          (2 ^ (I2C_Init_search moduleClk baudRate multSave icrSave).multSave)
          (I2C_Init_search moduleClk baudRate multSave icrSave).icrSave
        ≤ I2C_PairError moduleClk baudRate mult icr) ∧
    (∀ mult icr, (mult = 1 ∨ mult = 2 ∨ mult = 4) → 0x10 ≤ icr → icr ≤ 0x3F →
      (mult < 2 ^ (I2C_Init_search moduleClk baudRate multSave icrSave).multSave ∨
        (mult = 2 ^ (I2C_Init_search moduleClk baudRate multSave icrSave).multSave ∧
          icr < (I2C_Init_search moduleClk baudRate multSave icrSave).icrSave)) →
      I2C_PairError moduleClk baudRate
          (2 ^ (I2C_Init_search moduleClk baudRate multSave icrSave).multSave)
          (I2C_Init_search moduleClk baudRate multSave icrSave).icrSave
        < I2C_PairError moduleClk baudRate mult icr) ∧
    (∀ (s : I2C) (F primarySlaveAddress : Nat),
      (I2C_Init s F primarySlaveAddress baudRate moduleClk multSave icrSave).2.2
        = (F ||| I2C_F_MULT (I2C_Init_search moduleClk baudRate multSave icrSave).multSave) |||
            I2C_F_ICR (I2C_Init_search moduleClk baudRate multSave icrSave).icrSave) := by
  rcases I2C_Init_search_cases moduleClk baudRate multSave icrSave with
    ⟨hall, -⟩ | ⟨m, c, hs, hr, hlt, hmin, hfirst⟩
  · obtain ⟨mult, icr, hmult, h1, h2, h3⟩ := h
    obtain ⟨multReg, hreg, hpow, -⟩ := I2C_mult_register mult hmult
    have h4 := hall multReg icr ⟨hreg, h1, h2⟩
    rw [I2C_BaudError_pair _ _ _ _ hreg, hpow] at h4
    exact absurd h4 (Nat.not_le_of_lt h3)
  · have hF : ∀ (s : I2C) (F primarySlaveAddress : Nat),
        (I2C_Init s F primarySlaveAddress baudRate moduleClk multSave icrSave).2.2
          = (F ||| I2C_F_MULT (I2C_Init_search moduleClk baudRate multSave icrSave).multSave) |||
              I2C_F_ICR (I2C_Init_search moduleClk baudRate multSave icrSave).icrSave := by
      intro s F primarySlaveAddress
      simp only [I2C_Init]
    obtain ⟨s1, s2, s3⟩ := hs
    have hbridge := I2C_BaudError_pair moduleClk baudRate m c s1
    refine ⟨?_, ?_, ?_, ?_, ?_, ?_, ?_, ?_, hF⟩
    all_goals rw [hr]
    all_goals dsimp only
    · exact s1
    · interval_cases m <;> decide
    · exact s2
    · exact s3
    · exact hbridge
    · exact hlt
    · intro mult icr hmult h1 h2
      obtain ⟨multReg, hreg, hpow, -⟩ := I2C_mult_register mult hmult
      have h4 := hmin multReg icr ⟨hreg, h1, h2⟩
      rw [I2C_BaudError_pair _ _ _ _ hreg, hpow, hbridge] at h4
      exact h4
    · intro mult icr hmult h1 h2 hbefore
      obtain ⟨multReg, hreg, hpow, hord⟩ := I2C_mult_register mult hmult
      obtain ⟨o1, o2⟩ := hord m s1
      have hb : I2C_SearchedBefore multReg icr m c := by
        rcases hbefore with hb | ⟨hb1, hb2⟩
        · exact Or.inl (o1.1 hb)
        · exact Or.inr ⟨o2.1 hb1, hb2⟩
      have h4 := hfirst multReg icr ⟨hreg, h1, h2⟩ hb
      rw [I2C_BaudError_pair _ _ _ _ hreg, hpow, hbridge] at h4
      exact h4

/-- Instance of C22 for the clock and the rate the accelerometer driver passes:
50,000,000 and 100,000, where multiplier 1 with ICR 0x2B has error 2344: the
saved pair has an error at most that of multiplier 4 with ICR 0x3F. -/
theorem I2C_Init_search_first_minimum_witness :
    (∃ mult icr, (mult = 1 ∨ mult = 2 ∨ mult = 4) ∧ 0x10 ≤ icr ∧ icr ≤ 0x3F ∧
      I2C_PairError 50000000 100000 mult icr < 100000) ∧
    (I2C_Init_search 50000000 100000 0 0).multSave < 3 ∧
    I2C_PairError 50000000 100000 (2 ^ (I2C_Init_search 50000000 100000 0 0).multSave)
        (I2C_Init_search 50000000 100000 0 0).icrSave
      ≤ I2C_PairError 50000000 100000 4 0x3F :=
  ⟨⟨1, 0x2B, Or.inl rfl, by decide, by decide, by simp [I2C_PairError, SclDivider]⟩,
    (I2C_Init_search_first_minimum 50000000 100000 0 0
      ⟨1, 0x2B, Or.inl rfl, by decide, by decide, by simp [I2C_PairError, SclDivider]⟩).1,
    (I2C_Init_search_first_minimum 50000000 100000 0 0
      ⟨1, 0x2B, Or.inl rfl, by decide, by decide,
        by simp [I2C_PairError, SclDivider]⟩).2.2.2.2.2.2.1 4 0x3F
      (Or.inr (Or.inr rfl)) (by decide) (by decide)⟩

/-- C23 fails on the code: with module clock 50,000,000 and target 1 every
searched pair has an error of at least the target, the search leaves `multSave`
and `icrSave` as they were on entry, uninitialised, and `I2C_Init` still ORs
them into `I2C0_F`; with 2 and 0x15 in them a register that held 0x00 holds
0x95 after the call. -/
theorem I2C_Init_no_pair_writes_F :
    (∀ multReg icr, I2C_Searched multReg icr → 1 ≤ I2C_BaudError 50000000 1 multReg icr) ∧
    (∀ (s : I2C) (F primarySlaveAddress multSave icrSave : Nat),
      I2C_Init_search 50000000 1 multSave icrSave
        = { baudRateErrorMin := 1, multSave := multSave, icrSave := icrSave } ∧
      (I2C_Init s F primarySlaveAddress 1 50000000 multSave icrSave).2.2
        = (F ||| I2C_F_MULT multSave) ||| I2C_F_ICR icrSave) ∧
    (I2C_Init (I2C.mk 0x00 0 0 0 0 [] 0 [] [] []) 0x00 0x1D 1 50000000 2 0x15).2.2 = 0x95 := by
  have hall : ∀ multReg icr, I2C_Searched multReg icr →
      1 ≤ I2C_BaudError 50000000 1 multReg icr := by
    have hd : ∀ multReg, multReg < 3 → ∀ icr, icr < 64 →
        1 ≤ I2C_BaudError 50000000 1 multReg icr := by decide
    intro multReg icr hs
    exact hd multReg hs.1 icr (by have := hs.2.2; omega)
  have hsearch : ∀ multSave icrSave : Nat,
      I2C_Init_search 50000000 1 multSave icrSave
        = { baudRateErrorMin := 1, multSave := multSave, icrSave := icrSave } := by
    intro multSave icrSave
    rcases I2C_Init_search_cases 50000000 1 multSave icrSave with
      ⟨-, hr⟩ | ⟨m, c, hs, -, hlt, -, -⟩
    · exact hr
    · have := hall m c hs
      omega
  refine ⟨hall, ?_, ?_⟩
  · intro s F primarySlaveAddress multSave icrSave
    refine ⟨hsearch multSave icrSave, ?_⟩
    simp only [I2C_Init, hsearch]
  · simp only [I2C_Init, hsearch]
    decide

/-! ## The median filter -/

/-- C24: for all `n1 n2 n3` (bytes in particular), `Median_Filter3` returns the
middle element of the sorted triple; the result is one of the arguments, lies
between the least and the greatest of them, and is the same for all six orders
of the arguments.  The function reads nothing but its arguments. -/
theorem Median_Filter3_median (n1 n2 n3 : Nat) :
    Median_Filter3 n1 n2 n3 = Median_Sorted3 n1 n2 n3 ∧
    (Median_Filter3 n1 n2 n3 = n1 ∨ Median_Filter3 n1 n2 n3 = n2 ∨
      Median_Filter3 n1 n2 n3 = n3) ∧
    min n1 (min n2 n3) ≤ Median_Filter3 n1 n2 n3 ∧
    Median_Filter3 n1 n2 n3 ≤ max n1 (max n2 n3) ∧
    ((n1 ≤ Median_Filter3 n1 n2 n3 ∧ n2 ≤ Median_Filter3 n1 n2 n3) ∨
      (n1 ≤ Median_Filter3 n1 n2 n3 ∧ n3 ≤ Median_Filter3 n1 n2 n3) ∨
      (n2 ≤ Median_Filter3 n1 n2 n3 ∧ n3 ≤ Median_Filter3 n1 n2 n3)) ∧
    ((Median_Filter3 n1 n2 n3 ≤ n1 ∧ Median_Filter3 n1 n2 n3 ≤ n2) ∨
      (Median_Filter3 n1 n2 n3 ≤ n1 ∧ Median_Filter3 n1 n2 n3 ≤ n3) ∨
      (Median_Filter3 n1 n2 n3 ≤ n2 ∧ Median_Filter3 n1 n2 n3 ≤ n3)) ∧
    Median_Filter3 n1 n3 n2 = Median_Filter3 n1 n2 n3 ∧
    Median_Filter3 n2 n1 n3 = Median_Filter3 n1 n2 n3 ∧
    Median_Filter3 n2 n3 n1 = Median_Filter3 n1 n2 n3 ∧
    Median_Filter3 n3 n1 n2 = Median_Filter3 n1 n2 n3 ∧
    Median_Filter3 n3 n2 n1 = Median_Filter3 n1 n2 n3 := by
  refine ⟨?_, ?_, ?_, ?_, ?_, ?_, ?_, ?_, ?_, ?_, ?_⟩
  · by_cases h12 : n1 ≤ n2 <;> by_cases h23 : n2 ≤ n3 <;> by_cases h13 : n1 ≤ n3 <;>
      simp [Median_Filter3, Median_Sorted3, List.insertionSort, List.orderedInsert, h12, h23,
        h13] <;> first | omega | (split_ifs <;> omega)
  all_goals (simp only [Median_Filter3]; split_ifs <;> omega)

/-! ## The byte queue under preemption -/

/-- `FIFO_Put` is its test followed by its critical section. -/
theorem FIFO_Put_critical_eq (FIFO_SIZE : Nat) (FIFO : TFIFO) (data : Nat) :
    FIFO_Put FIFO_SIZE FIFO data
      = if FIFO.NbBytes < FIFO_SIZE then (true, FIFO_Put_critical FIFO_SIZE FIFO data)
        else (false, FIFO) := by
  rfl

/-- C25 fails on the code: a queue of capacity 4 holds 1, 2, 3; a thread calls
`FIFO_Put` with 5 and, after its test of `NbBytes` and before `EnterCritical`, a
handler makes a complete `FIFO_Put` with 4.  Both calls return true; afterwards
`NbBytes` is 5, above the capacity, the invariant is broken, and the oldest
byte, 1, has been overwritten by 5: the four bytes then read are 5, 2, 3, 4. -/
theorem FIFO_Put_preempted_overflows :
    (FIFO_PutAll 4 (FIFO_Init (TFIFO.mk 0 0 0 [0, 0, 0, 0])) [1, 2, 3]).2
      = TFIFO.mk 0 3 3 [1, 2, 3, 0] ∧
    FIFO_Inv 4 (TFIFO.mk 0 3 3 [1, 2, 3, 0]) ∧
    FIFO_Stored 4 [1, 2, 3, 0] 0 3 = [1, 2, 3] ∧
    FIFO_Put_preempted 4 (TFIFO.mk 0 3 3 [1, 2, 3, 0]) 5 (FIFO_Call.put 4)
      = (true, true, TFIFO.mk 0 1 5 [5, 2, 3, 4]) ∧
    ¬ FIFO_Inv 4 (TFIFO.mk 0 1 5 [5, 2, 3, 4]) ∧
    ¬ (TFIFO.mk 0 1 5 [5, 2, 3, 4]).NbBytes ≤ 4 ∧
    (FIFO_GetN 4 (TFIFO.mk 0 1 5 [5, 2, 3, 4]) 4).1
      = [(true, 5), (true, 2), (true, 3), (true, 4)] := by
  decide

/-- The other direction is safe: a thread's `FIFO_Put` preempted after its test
by a handler's complete `FIFO_Get` keeps the invariant, since the handler only
makes more room. -/
theorem FIFO_Put_preempted_by_get (FIFO_SIZE : Nat) (FIFO : TFIFO) (data : Nat)
    (h : FIFO_Inv FIFO_SIZE FIFO) :
    FIFO_Inv FIFO_SIZE (FIFO_Put_preempted FIFO_SIZE FIFO data FIFO_Call.get).2.2 := by
  have hget := FIFO_Inv_Get FIFO_SIZE FIFO 0 h
  have hle : (FIFO_Get FIFO_SIZE FIFO 0).2.1.NbBytes ≤ FIFO.NbBytes := by
    unfold FIFO_Get
    by_cases hn : FIFO.NbBytes > 0
    · simp only [hn, if_true]
      split_ifs <;> simp
    · simp only [hn, if_false]
      exact Nat.le_refl _
  unfold FIFO_Put_preempted FIFO_Handler
  dsimp only
  by_cases hroom : FIFO.NbBytes < FIFO_SIZE
  · simp only [hroom, decide_True, if_true]
    have hput := FIFO_Inv_Put FIFO_SIZE (FIFO_Get FIFO_SIZE FIFO 0).2.1 data hget
    rw [FIFO_Put_critical_eq, if_pos (by omega)] at hput
    exact hput
  · simp only [hroom, decide_False]
    exact hget

/-! ## The slot allocator over a sequence of calls -/

/-- For a size other than 1, 2 and 4 `Flash_AllocateVar` returns false and
changes nothing. -/
theorem Flash_AllocateVar_other (B : Nat) (t : List Nat) (v size : Nat)
    (h : ¬ (size = 1 ∨ size = 2 ∨ size = 4)) :
    Flash_AllocateVar B t v size = (false, t, v) := by
  have h1 : ¬ size = 1 := fun e => h (Or.inl e)
  have h2 : ¬ size = 2 := fun e => h (Or.inr (Or.inl e))
  have h4 : ¬ size = 4 := fun e => h (Or.inr (Or.inr e))
  simp [Flash_AllocateVar, h1, h2, h4]

/-- No call of `Flash_AllocateVar` frees a slot, and the table keeps its eight
entries. -/
theorem Flash_AllocateVar_keeps (B : Nat) (t : List Nat) (v size : Nat) (hlen : t.length = 8) :
    (Flash_AllocateVar B t v size).2.1.length = 8 ∧
    ∀ j, t.getD j 0 ≠ 0 → (Flash_AllocateVar B t v size).2.1.getD j 0 ≠ 0 := by
  by_cases hsize : size = 1 ∨ size = 2 ∨ size = 4
  · rcases Flash_AllocateVar_cases B t v size hlen hsize with
      ⟨k, t2, -, -, hres, hl2, ht2⟩ | ⟨-, hres⟩
    · rw [hres]
      refine ⟨hl2, ?_⟩
      intro j hj
      dsimp only
      rw [ht2]
      split_ifs
      · exact Nat.one_ne_zero
      · exact hj
    · rw [hres]
      exact ⟨hlen, fun j hj => hj⟩
  · rw [Flash_AllocateVar_other B t v size hsize]
    exact ⟨hlen, fun j hj => hj⟩

/-- The ranges handed out by a sequence of calls from any table of eight slots:
each lies inside the phrase on slots that were free in the table, no two of them
meet, and the table after the calls has 1 on their union and its old entries
elsewhere. -/
theorem Flash_AllocateSeq_ranges (B : Nat) (hbase : B + 8 ≤ 2 ^ 32) :
    ∀ (sizes : List Nat) (t : List Nat), t.length = 8 →
      (Flash_AllocateSeq B t sizes).2.length = 8 ∧
      (∀ r, r ∈ Flash_Ranges B sizes (Flash_AllocateSeq B t sizes).1 →
        0 < r.2 ∧ r.1 + r.2 ≤ 8 ∧ ∀ j, Flash_InRange r j → t.getD j 0 = 0) ∧
      (Flash_Ranges B sizes (Flash_AllocateSeq B t sizes).1).Pairwise Flash_Disjoint ∧
      (∀ j, (∃ r, r ∈ Flash_Ranges B sizes (Flash_AllocateSeq B t sizes).1 ∧ Flash_InRange r j) →
        (Flash_AllocateSeq B t sizes).2.getD j 0 = 1) ∧
      (∀ j, (¬ ∃ r, r ∈ Flash_Ranges B sizes (Flash_AllocateSeq B t sizes).1 ∧
          Flash_InRange r j) →
        (Flash_AllocateSeq B t sizes).2.getD j 0 = t.getD j 0) := by
  intro sizes
  induction sizes with
  | nil =>
      intro t hlen
      refine ⟨hlen, ?_, List.Pairwise.nil, ?_, ?_⟩
      · intro r hr
        simp [Flash_AllocateSeq, Flash_Ranges] at hr
      · rintro j ⟨r, hr, -⟩
        simp [Flash_AllocateSeq, Flash_Ranges] at hr
      · intro j _
        rfl
  | cons size sizes ih =>
      intro t hlen
      have hfail : Flash_AllocateVar B t 0 size = (false, t, 0) →
          Flash_AllocateSeq B t (size :: sizes)
            = ((false, 0) :: (Flash_AllocateSeq B t sizes).1, (Flash_AllocateSeq B t sizes).2) ∧
          Flash_Ranges B (size :: sizes) ((false, 0) :: (Flash_AllocateSeq B t sizes).1)
            = Flash_Ranges B sizes (Flash_AllocateSeq B t sizes).1 := by
        intro hres
        refine ⟨?_, ?_⟩
        · simp only [Flash_AllocateSeq, hres]
        · simp [Flash_Ranges]
      have hcase : Flash_AllocateVar B t 0 size = (false, t, 0) ∨
          ∃ k t2, Flash_FreeRun t size k ∧
            Flash_AllocateVar B t 0 size = (true, t2, (B + k) % 2 ^ 32) ∧ t2.length = 8 ∧
            (∀ j, t2.getD j 0 = if k ≤ j ∧ j < k + size then 1 else t.getD j 0) ∧
            (size = 1 ∨ size = 2 ∨ size = 4) := by
        by_cases hsize : size = 1 ∨ size = 2 ∨ size = 4
        · rcases Flash_AllocateVar_cases B t 0 size hlen hsize with
            ⟨k, t2, hrun, -, hres, hl2, ht2⟩ | ⟨-, hres⟩
          · exact Or.inr ⟨k, t2, hrun, hres, hl2, ht2, hsize⟩
          · exact Or.inl hres
        · exact Or.inl (Flash_AllocateVar_other B t 0 size hsize)
      rcases hcase with hres | ⟨k, t2, hrun, hres, hl2, ht2, hsize⟩
      · obtain ⟨e1, e2⟩ := hfail hres
        rw [e1]
        dsimp only
        rw [e2]
        exact ih t hlen
      · obtain ⟨hk1, hk2, hk3⟩ := hrun
        have hpos : 0 < size := by rcases hsize with h | h | h <;> omega
        have e1 : Flash_AllocateSeq B t (size :: sizes)
            = ((true, (B + k) % 2 ^ 32) :: (Flash_AllocateSeq B t2 sizes).1,
                (Flash_AllocateSeq B t2 sizes).2) := by
          simp only [Flash_AllocateSeq, hres]
        have hmod : (B + k) % 2 ^ 32 - B = k := by
          rw [Nat.mod_eq_of_lt (by omega)]
          omega
        have e2 : Flash_Ranges B (size :: sizes)
              ((true, (B + k) % 2 ^ 32) :: (Flash_AllocateSeq B t2 sizes).1)
            = (k, size) :: Flash_Ranges B sizes (Flash_AllocateSeq B t2 sizes).1 := by
          simp only [Flash_Ranges, hmod, if_true]
        obtain ⟨i1, i2, i3, i4, i5⟩ := ih t2 hl2
        rw [e1]
        dsimp only
        rw [e2]
        have hout : ∀ r, r ∈ Flash_Ranges B sizes (Flash_AllocateSeq B t2 sizes).1 →
            ∀ j, Flash_InRange r j → ¬ (k ≤ j ∧ j < k + size) ∧ t.getD j 0 = 0 := by
          intro r hr j hj
          have h0 := (i2 r hr).2.2 j hj
          rw [ht2] at h0
          split_ifs at h0 with hin
          exact ⟨hin, h0⟩
        refine ⟨i1, ?_, ?_, ?_, ?_⟩
        · intro r hr
          rcases List.mem_cons.1 hr with rfl | hr
          · refine ⟨hpos, hk2, ?_⟩
            intro j hj
            obtain ⟨hj1, hj2⟩ := hj
            dsimp only at hj1 hj2
            have := hk3 (j - k) (by omega)
            rw [show k + (j - k) = j by omega] at this
            exact this
          · exact ⟨(i2 r hr).1, (i2 r hr).2.1, fun j hj => (hout r hr j hj).2⟩
        · rw [List.pairwise_cons]
          refine ⟨?_, i3⟩
          intro r hr
          have hp := (i2 r hr).1
          have ha := (hout r hr r.1 ⟨Nat.le_refl _, by omega⟩).1
          by_cases hle : k + size ≤ r.1
          · exact Or.inl hle
          · right
            dsimp only
            by_cases hk : r.1 + r.2 ≤ k
            · exact hk
            · exfalso
              have hb := (hout r hr k ⟨by omega, by omega⟩).1
              omega
        · rintro j ⟨r, hr, hj⟩
          rcases List.mem_cons.1 hr with rfl | hr
          · by_cases hex : ∃ r, r ∈ Flash_Ranges B sizes (Flash_AllocateSeq B t2 sizes).1 ∧
                Flash_InRange r j
            · exact i4 j hex
            · rw [i5 j hex, ht2]
              obtain ⟨hj1, hj2⟩ := hj
              dsimp only at hj1 hj2
              rw [if_pos ⟨hj1, hj2⟩]
          · exact i4 j ⟨r, hr, hj⟩
        · intro j hno
          have hno2 : ¬ ∃ r, r ∈ Flash_Ranges B sizes (Flash_AllocateSeq B t2 sizes).1 ∧
              Flash_InRange r j := by
            rintro ⟨r, hr, hj⟩
            exact hno ⟨r, List.mem_cons_of_mem _ hr, hj⟩
          have hnk : ¬ (k ≤ j ∧ j < k + size) := by
            intro hin
            exact hno ⟨(k, size), List.mem_cons_self _ _, hin⟩
          rw [i5 j hno2, ht2, if_neg hnk]

/-- C26: for every sequence of `Flash_AllocateVar` calls from the all-free
table, the ranges of the successful calls lie within offsets 0..7 and are
pairwise disjoint, a slot is marked allocated after the sequence exactly when it
lies in one of the ranges, and no call on any table of eight slots turns an
allocated slot into a free one. -/
theorem Flash_AllocateSeq_disjoint (FLASH_DATA_START : Nat)
    (hbase : FLASH_DATA_START + 8 ≤ 2 ^ 32) (sizes : List Nat) :
    (∀ r, r ∈ Flash_Ranges FLASH_DATA_START sizes
          (Flash_AllocateSeq FLASH_DATA_START (List.replicate 8 0) sizes).1 →
        0 < r.2 ∧ r.1 + r.2 ≤ 8) ∧
    (Flash_Ranges FLASH_DATA_START sizes
        (Flash_AllocateSeq FLASH_DATA_START (List.replicate 8 0) sizes).1).Pairwise
      Flash_Disjoint ∧
    (∀ j,
      (Flash_AllocateSeq FLASH_DATA_START (List.replicate 8 0) sizes).2.getD j 0 ≠ 0 ↔
        ∃ r, r ∈ Flash_Ranges FLASH_DATA_START sizes
            (Flash_AllocateSeq FLASH_DATA_START (List.replicate 8 0) sizes).1 ∧
          Flash_InRange r j) ∧
    (∀ (freeAddress : List Nat) (varPtr size j : Nat), freeAddress.length = 8 →
      freeAddress.getD j 0 ≠ 0 →
      (Flash_AllocateVar FLASH_DATA_START freeAddress varPtr size).2.1.getD j 0 ≠ 0) := by
  obtain ⟨-, h2, h3, h4, h5⟩ :=
    Flash_AllocateSeq_ranges FLASH_DATA_START hbase sizes (List.replicate 8 0) rfl
  refine ⟨fun r hr => ⟨(h2 r hr).1, (h2 r hr).2.1⟩, h3, ?_, ?_⟩
  · intro j
    constructor
    · intro hne
      by_contra hno
      have h0 := h5 j hno
      have hz : (List.replicate 8 0).getD j 0 = 0 := by
        rcases Nat.lt_or_ge j 8 with hj | hj
        · interval_cases j <;> rfl
        · exact List.getD_eq_default _ _ (by simpa using hj)
      rw [hz] at h0
      exact hne h0
    · intro hex
      rw [h4 j hex]
      exact Nat.one_ne_zero
  · intro freeAddress varPtr size j hlen hj
    exact (Flash_AllocateVar_keeps FLASH_DATA_START freeAddress varPtr size hlen).2 j hj

/-- Instance of C26: sizes 2, 1, 4, 1, 2, 1 from the all-free table get the
ranges 0..1, 2, 4..7 and 3, and the last two calls fail. -/
theorem Flash_AllocateSeq_disjoint_witness :
    0x80000 + 8 ≤ 2 ^ 32 ∧
    Flash_Ranges 0x80000 [2, 1, 4, 1, 2, 1]
        (Flash_AllocateSeq 0x80000 (List.replicate 8 0) [2, 1, 4, 1, 2, 1]).1
      = [(0, 2), (2, 1), (4, 4), (3, 1)] ∧
    (Flash_Ranges 0x80000 [2, 1, 4, 1, 2, 1]
        (Flash_AllocateSeq 0x80000 (List.replicate 8 0) [2, 1, 4, 1, 2, 1]).1).Pairwise
      Flash_Disjoint :=
  ⟨by decide, by decide,
    (Flash_AllocateSeq_disjoint 0x80000 (by decide) [2, 1, 4, 1, 2, 1]).2.1⟩

/-! ## The phrase writer: where the image is non-zero -/

/-- What the scan for the first non-zero byte returns: the least index from
`dataStart` on, among the `left` elements still to read, that holds a non-zero
byte; and nothing when all of them are zero. -/
theorem WritePhrase_scan_spec (l : List Nat) :
    ∀ (left dataStart : Nat),
      (∀ r, WritePhrase_scan l left dataStart = some r →
        dataStart ≤ r ∧ r < dataStart + left ∧ l.getD r 0 ≠ 0 ∧
          ∀ i, dataStart ≤ i → i < r → l.getD i 0 = 0) ∧
      (WritePhrase_scan l left dataStart = none ↔
        ∀ i, dataStart ≤ i → i < dataStart + left → l.getD i 0 = 0) := by
  intro left
  induction left with
  | zero =>
      intro dataStart
      refine ⟨?_, ?_⟩
      · intro r h
        simp [WritePhrase_scan] at h
      · simp only [WritePhrase_scan, true_iff]
        intro i h1 h2
        omega
  | succ left ih =>
      intro dataStart
      obtain ⟨ih1, ih2⟩ := ih (dataStart + 1)
      by_cases hz : l.getD dataStart 0 = 0
      · have e : WritePhrase_scan l (left + 1) dataStart
            = WritePhrase_scan l left (dataStart + 1) := by
          simp only [WritePhrase_scan, hz, if_true]
        rw [e]
        refine ⟨?_, ?_⟩
        · intro r h
          obtain ⟨a, b, c, d⟩ := ih1 r h
          refine ⟨by omega, by omega, c, ?_⟩
          intro i h1 h2
          rcases Nat.eq_or_lt_of_le h1 with h3 | h3
          · rw [← h3]; exact hz
          · exact d i h3 h2
        · rw [ih2]
          constructor
          · intro h i h1 h2
            rcases Nat.eq_or_lt_of_le h1 with h3 | h3
            · rw [← h3]; exact hz
            · exact h i h3 (by omega)
          · intro h i h1 h2
            exact h i (by omega) (by omega)
      · have e : WritePhrase_scan l (left + 1) dataStart = some dataStart := by
          simp only [WritePhrase_scan, hz, if_false]
        rw [e]
        refine ⟨?_, ?_⟩
        · intro r h
          cases h
          refine ⟨Nat.le_refl _, by omega, hz, ?_⟩
          intro i h1 h2
          omega
        · constructor
          · intro h; cases h
          · intro h
            exact absurd (h dataStart (Nat.le_refl _) (by omega)) hz

/-- After `s` passes of the shuffle loop, byte `j` of the array is the byte that
was at `j + s`, and 0 when there was none. -/
theorem WritePhrase_shuffle_iterate_getD (s : Nat) :
    ∀ (l : List Nat), l.length = 8 → ∀ j, j < 8 →
      (Nat.iterate WritePhrase_shuffle s l).getD j 0
        = if j + s < 8 then l.getD (j + s) 0 else 0 := by
  induction s with
  | zero =>
      intro l _ j hj
      simp [hj]
  | succ s ih =>
      intro l hl j hj
      obtain ⟨a0, a1, a2, a3, a4, a5, a6, a7, rfl⟩ := eight_slots l hl
      rw [Function.iterate_succ_apply, WritePhrase_shuffle_eight,
        ih [a1, a2, a3, a4, a5, a6, a7, 0] rfl j hj]
      by_cases h1 : j + s < 8
      · rw [if_pos h1]
        by_cases h2 : j + (s + 1) < 8
        · rw [if_pos h2]
          have h3 : j + (s + 1) = (j + s) + 1 := by omega
          rw [h3]
          generalize j + s = m at h1 h2 h3
          interval_cases m <;> rfl
        · rw [if_neg h2]
          have h3 : j + s = 7 := by omega
          rw [h3]
          rfl
      · rw [if_neg h1, if_neg (by omega)]

/-- The number of passes of the shuffle loop for an offset `k` that is not
beyond the start of the data. -/
theorem WritePhrase_shifts_offset (B k dataStart : Nat) (hk : k ≤ dataStart)
    (hd : dataStart < 8) : WritePhrase_shifts B (B + k) dataStart = dataStart - k := by
  unfold WritePhrase_shifts
  have e1 : B + k + 2 ^ 32 - B = k + 2 ^ 32 := by omega
  rw [e1]
  omega

/-- The new image for an offset not beyond the start of the data: byte `j` is
byte `j + (dataStart - k)` of the array as first filled in; it is zero outside
the offsets `k .. k + (8 - dataStart) - 1`. -/
theorem WritePhrase_new_span (B k Hi Lo dataStart : Nat)
    (hscan : WritePhrase_scan (WritePhrase_fill Hi Lo) 8 0 = some dataStart)
    (hk : k ≤ dataStart) :
    dataStart < 8 ∧ WritePhrase_shifts B (B + k) dataStart ≤ 7 ∧
    ∃ new, WritePhrase_new B (B + k) Hi Lo = some new ∧ IsPhrase new ∧
      (∀ j, j < 8 →
        new.getD j 0 = if j + (dataStart - k) < 8
          then (WritePhrase_fill Hi Lo).getD (j + (dataStart - k)) 0 else 0) ∧
      (∀ j, j < 8 → (j < k ∨ k + (8 - dataStart) ≤ j) → new.getD j 0 = 0) := by
  obtain ⟨-, hd, -, hz⟩ := (WritePhrase_scan_spec (WritePhrase_fill Hi Lo) 8 0).1 dataStart hscan
  have hd8 : dataStart < 8 := by omega
  have hsh := WritePhrase_shifts_offset B k dataStart hk hd8
  have hnew : WritePhrase_new B (B + k) Hi Lo
      = some (Nat.iterate WritePhrase_shuffle (dataStart - k) (WritePhrase_fill Hi Lo)) := by
    unfold WritePhrase_new
    rw [hscan]
    dsimp only
    rw [hsh, if_pos (by omega)]
  have hget := WritePhrase_shuffle_iterate_getD (dataStart - k) (WritePhrase_fill Hi Lo) rfl
  refine ⟨hd8, by omega, _, hnew, WritePhrase_new_isPhrase _ _ _ _ _ hnew, hget, ?_⟩
  intro j hj hout
  rw [hget j hj]
  split_ifs with h1
  · exact hz _ (Nat.zero_le _) (by omega)
  · rfl

set_option maxRecDepth 100000 in
/-- The low byte alone: the array `WritePhrase` fills in for a byte value. -/
theorem WritePhrase_fill_byte :
    ∀ v, v < 256 → WritePhrase_fill 0 v = [0, 0, 0, 0, 0, 0, 0, v] := by
  decide

/-- A phrase of eight bytes that reads as all ones holds 0xFF in every byte. -/
theorem FlashRead64_erased (phrase : List Nat) (hp : IsPhrase phrase)
    (h : FlashRead64 phrase = 0xFFFFFFFFFFFFFFFF) : phrase = List.replicate 8 0xFF := by
  obtain ⟨a0, a1, a2, a3, a4, a5, a6, a7, rfl⟩ := eight_slots phrase hp.1
  have hb := hp.2
  simp only [List.mem_cons, List.mem_singleton, forall_eq_or_imp, forall_eq,
    List.not_mem_nil, false_imp_iff, implies_true, and_true] at hb
  simp only [FlashRead64, List.range, List.range.loop, List.foldr, List.getD_cons_zero,
    List.getD_cons_succ] at h
  obtain ⟨h0, h1, h2, h3, h4, h5, h6, h7⟩ := hb
  have e0 : a0 = 255 := by omega
  have e1 : a1 = 255 := by omega
  have e2 : a2 = 255 := by omega
  have e3 : a3 = 255 := by omega
  have e4 : a4 = 255 := by omega
  have e5 : a5 = 255 := by omega
  have e6 : a6 = 255 := by omega
  have e7 : a7 = 255 := by omega
  subst e0 e1 e2 e3 e4 e5 e6 e7
  rfl

/-- The new image for a non-zero byte `v` at offset `k`. -/
theorem WritePhrase_new_byte (B k v : Nat) (hk : k < 8) (hv0 : v ≠ 0) (hv : v < 256) :
    WritePhrase_new B (B + k) 0 v = some ((List.replicate 8 0).set k v) := by
  have hfill := WritePhrase_fill_byte v hv
  have hscan : WritePhrase_scan (WritePhrase_fill 0 v) 8 0 = some 7 := by
    rw [hfill]
    simp [WritePhrase_scan, hv0]
  unfold WritePhrase_new
  rw [hscan]
  dsimp only
  rw [WritePhrase_shifts_offset B k 7 (by omega) (by omega), if_pos (by omega), hfill]
  interval_cases k <;> simp [Nat.iterate, WritePhrase_shuffle_eight]

/-- C27 fails on the code as stated: with the module busy (`FTFE_FSTAT` = 0x00)
`Flash_Write8 (FLASH_DATA_START + 3, 0x5A)` on a phrase that reads as fully
erased returns false, launches no command and leaves all eight bytes at 0xFF;
nothing is programmed. -/
theorem Flash_Write8_busy_programs_nothing :
    (3 : Nat) < 8 ∧ (0x5A : Nat) ≠ 0 ∧ (0x5A : Nat) < 256 ∧
    FTFE_WF (FTFE.mk 0x00 (List.replicate 12 0) (List.replicate 8 0xFF) [] []) ∧
    FlashRead64 (FTFE.mk 0x00 (List.replicate 12 0) (List.replicate 8 0xFF) [] []).phrase
      = 0xFFFFFFFFFFFFFFFF ∧
    Flash_Write8 0x80000 (FTFE.mk 0x00 (List.replicate 12 0) (List.replicate 8 0xFF) [] [])
        (0x80000 + 3) 0x5A
      = some (false, FTFE.mk 0x00 (List.replicate 12 0) (List.replicate 8 0xFF) [] []) ∧
    (FTFE.mk 0x00 (List.replicate 12 0) (List.replicate 8 0xFF) [] []).launched = [] ∧
    (FTFE.mk 0x00 (List.replicate 12 0) (List.replicate 8 0xFF) [] []).phrase.getD 3 0
      ≠ 0x5A ∧
    (FTFE.mk 0x00 (List.replicate 12 0) (List.replicate 8 0xFF) [] []).phrase
      ≠ [0, 0, 0, 0x5A, 0, 0, 0, 0] := by
  decide

/-- C27 amended: for every offset `k` in 0..7 and every non-zero byte `v`,
`Flash_Write8 (FLASH_DATA_START + k, v)` on a phrase that reads as fully erased
(every byte 0xFF) builds for the program command an image with `v` at byte `k`
and 0x00 in the seven other bytes; the call returns, and when it returns true
the phrase holds that image. -/
theorem Flash_Write8_erased_image (FLASH_DATA_START : Nat) (hw : FTFE) (k v : Nat)
    (hbase : FLASH_DATA_START + 8 ≤ 2 ^ 32) (hk : k < 8) (hv0 : v ≠ 0) (hv : v < 256)
    (hwf : FTFE_WF hw) (herased : FlashRead64 hw.phrase = 0xFFFFFFFFFFFFFFFF) :
    hw.phrase = List.replicate 8 0xFF ∧
    (∃ command,
      WritePhrase_command FLASH_DATA_START hw.phrase ((FLASH_DATA_START + k) % 2 ^ 32) 0 v
        = some command ∧
      command.commandByte = 0x07 ∧ command.dataByte = (List.replicate 8 0).set k v) ∧
    (Flash_Write8 FLASH_DATA_START hw (FLASH_DATA_START + k) v).isSome = true ∧
    (∀ hw2, Flash_Write8 FLASH_DATA_START hw (FLASH_DATA_START + k) v = some (true, hw2) →
      hw2.phrase = (List.replicate 8 0).set k v ∧
      hw2.phrase.getD k 0 = v ∧ ∀ j, j < 8 → j ≠ k → hw2.phrase.getD j 0 = 0x00) := by
  have haddr : (FLASH_DATA_START + k) % 2 ^ 32 = FLASH_DATA_START + k :=
    Nat.mod_eq_of_lt (by omega)
  have hnew := WritePhrase_new_byte FLASH_DATA_START k v hk hv0 hv
  have hcmd := WritePhrase_command_eq FLASH_DATA_START hw.phrase (FLASH_DATA_START + k) 0 v _ hnew
  have hmerge : WritePhrase_merge hw.phrase ((List.replicate 8 0).set k v)
      = (List.replicate 8 0).set k v := by
    unfold WritePhrase_merge
    rw [if_pos herased]
  rw [hmerge] at hcmd
  refine ⟨FlashRead64_erased hw.phrase hwf.2 herased, ⟨_, by rw [haddr]; exact hcmd, rfl, rfl⟩,
    ?_, ?_⟩
  · unfold Flash_Write8 Flash_Write16 Flash_Write32 WritePhrase
    rw [haddr, hcmd]
    dsimp only
    split_ifs <;> rfl
  · intro hw2 h
    unfold Flash_Write8 Flash_Write16 Flash_Write32 at h
    rw [haddr] at h
    obtain ⟨new, h1, h2, -⟩ := WritePhrase_accepted FLASH_DATA_START hw _ 0 v hw2 hwf h
    rw [hnew] at h1
    cases h1
    rw [hmerge] at h2
    rw [h2]
    refine ⟨rfl, ?_, ?_⟩
    · interval_cases k <;> rfl
    · intro j hj hjk
      interval_cases k <;> interval_cases j <;> first | rfl | exact absurd rfl hjk

/-- Instance of C27: the byte 0x5A at offset 3 of an erased phrase, with the
module idle: the phrase afterwards is 00 00 00 5A 00 00 00 00. -/
theorem Flash_Write8_erased_image_witness :
    0x80000 + 8 ≤ 2 ^ 32 ∧ (3 : Nat) < 8 ∧ (0x5A : Nat) ≠ 0 ∧ (0x5A : Nat) < 256 ∧
    FTFE_WF (FTFE.mk 0x80 (List.replicate 12 0) (List.replicate 8 0xFF) [] []) ∧
    FlashRead64 (FTFE.mk 0x80 (List.replicate 12 0) (List.replicate 8 0xFF) [] []).phrase
      = 0xFFFFFFFFFFFFFFFF ∧
    (Flash_Write8 0x80000 (FTFE.mk 0x80 (List.replicate 12 0) (List.replicate 8 0xFF) [] [])
        (0x80000 + 3) 0x5A).isSome = true ∧
    Flash_Write8 0x80000 (FTFE.mk 0x80 (List.replicate 12 0) (List.replicate 8 0xFF) [] [])
        (0x80000 + 3) 0x5A
      = some (true,
          FTFE.mk 0x80 [7, 8, 0, 0, 0x5A, 0, 0, 0, 0, 0, 0, 0] [0, 0, 0, 0x5A, 0, 0, 0, 0]
            [[9, 8, 0, 0, 0, 0, 0, 0, 0, 0, 0, 0], [7, 8, 0, 0, 0x5A, 0, 0, 0, 0, 0, 0, 0]] []) :=
  ⟨by decide, by decide, by decide, by decide, by decide, by decide,
    (Flash_Write8_erased_image 0x80000
      (FTFE.mk 0x80 (List.replicate 12 0) (List.replicate 8 0xFF) [] []) 3 0x5A
      (by decide) (by decide) (by decide) (by decide) (by decide) (by decide)).2.2.1,
    by decide⟩

/-- C28 fails on the code for the value 0 (the same defect as in C11): the image
of the value 0 is eight zero bytes, so the scan for the first non-zero byte
reads all eight without stopping and goes on past the array; no image is built
and `Flash_Write8`, `Flash_Write16` and `Flash_Write32` of 0 have no result at
any offset.  For every other image the scan stops at an index of at most 7.  A
second input on which the shift loop does not end: a four-byte value with a
non-zero top byte at offset 6, where the loop bound wraps to 0xFFFFFFFE. -/
theorem WritePhrase_scan_zero_value :
    WritePhrase_fill 0 0 = [0, 0, 0, 0, 0, 0, 0, 0] ∧
    WritePhrase_scan (WritePhrase_fill 0 0) 8 0 = none ∧
    (∀ k, k < 8 →
      WritePhrase_new 0x80000 (0x80000 + k) 0 0 = none ∧
      Flash_Write8 0x80000 (FTFE.mk 0x80 (List.replicate 12 0) (List.replicate 8 0xFF) [] [])
        (0x80000 + k) 0 = none ∧
      Flash_Write16 0x80000 (FTFE.mk 0x80 (List.replicate 12 0) (List.replicate 8 0xFF) [] [])
        (0x80000 + k) 0 = none ∧
      Flash_Write32 0x80000 (FTFE.mk 0x80 (List.replicate 12 0) (List.replicate 8 0xFF) [] [])
        (0x80000 + k) 0 = none) ∧
    (∀ Hi Lo : Nat,
      (WritePhrase_scan (WritePhrase_fill Hi Lo) 8 0 = none ↔
        ∀ i, i < 8 → (WritePhrase_fill Hi Lo).getD i 0 = 0) ∧
      ∀ dataStart, WritePhrase_scan (WritePhrase_fill Hi Lo) 8 0 = some dataStart →
        dataStart ≤ 7) ∧
    WritePhrase_scan (WritePhrase_fill 0 0x01000000) 8 0 = some 4 ∧
    WritePhrase_shifts 0x80000 (0x80000 + 6) 4 = 0xFFFFFFFE ∧
    WritePhrase_new 0x80000 (0x80000 + 6) 0 0x01000000 = none := by
  refine ⟨by decide, by decide, by decide, ?_, by decide, by decide, by decide⟩
  intro Hi Lo
  obtain ⟨h1, h2⟩ := WritePhrase_scan_spec (WritePhrase_fill Hi Lo) 8 0
  refine ⟨?_, ?_⟩
  · rw [h2]
    constructor
    · intro h i hi
      exact h i (Nat.zero_le _) (by omega)
    · intro h i _ hi
      exact h i (by omega)
  · intro dataStart hd
    have := (h1 dataStart hd).2.1
    omega

/-- C29: when the value is non-zero, with the first non-zero byte of its image
at index `dataStart`, and the offset `k` is not greater than `dataStart`, a
write that returns true on a phrase that does not read as fully erased leaves
every byte at an offset below `k`, or at `k + (8 - dataStart)` and above, as it
was before the call. -/
theorem WritePhrase_frame (FLASH_DATA_START : Nat) (hw : FTFE) (k Hi Lo dataStart : Nat)
    (hw2 : FTFE) (hwf : FTFE_WF hw) (hne : FlashRead64 hw.phrase ≠ 0xFFFFFFFFFFFFFFFF)
    (hscan : WritePhrase_scan (WritePhrase_fill Hi Lo) 8 0 = some dataStart)
    (hk : k ≤ dataStart)
    (h : WritePhrase FLASH_DATA_START hw (FLASH_DATA_START + k) Hi Lo = some (true, hw2)) :
    (WritePhrase_fill Hi Lo).getD dataStart 0 ≠ 0 ∧
    (∀ i, i < dataStart → (WritePhrase_fill Hi Lo).getD i 0 = 0) ∧
    k + (8 - dataStart) ≤ 8 ∧
    ∀ j, j < 8 → (j < k ∨ k + (8 - dataStart) ≤ j) →
      hw2.phrase.getD j 0 = hw.phrase.getD j 0 := by
  obtain ⟨-, hlt, hnz, hz⟩ :=
    (WritePhrase_scan_spec (WritePhrase_fill Hi Lo) 8 0).1 dataStart hscan
  obtain ⟨-, -, new, hnew, -, -, hzero⟩ :=
    WritePhrase_new_span FLASH_DATA_START k Hi Lo dataStart hscan hk
  obtain ⟨new2, h1, h2, -⟩ :=
    WritePhrase_accepted FLASH_DATA_START hw (FLASH_DATA_START + k) Hi Lo hw2 hwf h
  rw [hnew] at h1
  cases h1
  refine ⟨hnz, fun i hi => hz i (Nat.zero_le _) hi, by omega, ?_⟩
  intro j hj hout
  rw [h2]
  unfold WritePhrase_merge
  rw [if_neg hne]
  simp only [List.getD_eq_getElem?_getD, List.getElem?_map, List.getElem?_range hj,
    Option.map_some', Option.getD_some]
  have h0 := hzero j hj hout
  rw [List.getD_eq_getElem?_getD] at h0
  rw [h0]
  exact Nat.or_zero _

/-- Instance of C29: the two bytes 05 06 written at offset 4 of a phrase that
holds 01 02 03 04 00 00 07 08 leave the bytes at offsets 0..3 and 6..7 as they
were. -/
theorem WritePhrase_frame_witness :
    FTFE_WF (FTFE.mk 0x80 (List.replicate 12 0) [1, 2, 3, 4, 0, 0, 7, 8] [] []) ∧
    FlashRead64 (FTFE.mk 0x80 (List.replicate 12 0) [1, 2, 3, 4, 0, 0, 7, 8] [] []).phrase
      ≠ 0xFFFFFFFFFFFFFFFF ∧
    WritePhrase_scan (WritePhrase_fill 0 0x0506) 8 0 = some 6 ∧
    WritePhrase 0x80000 (FTFE.mk 0x80 (List.replicate 12 0) [1, 2, 3, 4, 0, 0, 7, 8] [] [])
        (0x80000 + 4) 0 0x0506
      = some (true,
          FTFE.mk 0x80 [7, 8, 0, 0, 4, 3, 2, 1, 8, 7, 6, 5] [1, 2, 3, 4, 5, 6, 7, 8]
            [[9, 8, 0, 0, 0, 0, 0, 0, 0, 0, 0, 0], [7, 8, 0, 0, 4, 3, 2, 1, 8, 7, 6, 5]] []) ∧
    ∀ j, j < 8 → (j < 4 ∨ 4 + (8 - 6) ≤ j) →
      (FTFE.mk 0x80 [7, 8, 0, 0, 4, 3, 2, 1, 8, 7, 6, 5] [1, 2, 3, 4, 5, 6, 7, 8]
          [[9, 8, 0, 0, 0, 0, 0, 0, 0, 0, 0, 0], [7, 8, 0, 0, 4, 3, 2, 1, 8, 7, 6, 5]]
          []).phrase.getD j 0
        = (FTFE.mk 0x80 (List.replicate 12 0) [1, 2, 3, 4, 0, 0, 7, 8] [] []).phrase.getD j 0 :=
  ⟨by decide, by decide, by decide, by decide,
    (WritePhrase_frame 0x80000
      (FTFE.mk 0x80 (List.replicate 12 0) [1, 2, 3, 4, 0, 0, 7, 8] [] []) 4 0 0x0506 6
      (FTFE.mk 0x80 [7, 8, 0, 0, 4, 3, 2, 1, 8, 7, 6, 5] [1, 2, 3, 4, 5, 6, 7, 8]
        [[9, 8, 0, 0, 0, 0, 0, 0, 0, 0, 0, 0], [7, 8, 0, 0, 4, 3, 2, 1, 8, 7, 6, 5]] [])
      (by decide) (by decide) (by decide) (by decide) (by decide)).2.2.2⟩

/-! ## The bus driver: the counter of the read loop -/

/-- C30 fails on the code for a request of 255 bytes (the same defect as in C15
and C16): with every address phase acknowledged and every wait completed, the
loop of `I2C_PollRead` is not left after 258 iterations, nor after any other
number of iterations: the eight-bit counter wraps to 0 before it reaches the
bound 258. -/
theorem I2C_PollRead_255_never_returns (fuel : Nat) :
    (I2C_PollRead fuel (I2C.mk 0x80 0x1D 0x3A 0x3B 0 [] 0 [] [] []) 0x01
        (List.replicate 255 0) 255).1 = false ∧
    (I2C_PollRead_loop 0x01 255 fuel 0
        (I2C_C1_Set (I2C_C1_Set (I2C.mk 0x80 0x1D 0x3A 0x3B 0 [] 0 [] [] []) I2C_C1_MST_MASK)
          I2C_C1_TX_MASK)
        (List.replicate 255 0)).1 = false ∧
    ¬ (255 + 3 < 256) ∧ (255 + 1) % 256 = 0 := by
  have h := (I2C_PollRead_loop_wraps 0x01 255 (by decide) fuel 0
    (I2C_C1_Set (I2C_C1_Set (I2C.mk 0x80 0x1D 0x3A 0x3B 0 [] 0 [] [] []) I2C_C1_MST_MASK)
      I2C_C1_TX_MASK)
    (List.replicate 255 0) (by decide) (by intro b hb; cases hb)).1
  exact ⟨h, h, by decide, by decide⟩

end Lab5
